import Mathlib

/-!
Netify agent: flow identity, flow-hash cache, sharded flow map, lower map,
instance supervisor, categories and utilities

A shallow embedding of parts of the Netify agent sources
(nd-flow.cpp, nd-fhc.cpp, nd-flow-map.cpp, nd-instance.cpp, nd-category.cpp,
nd-util.cpp) together with theorems about them.

Conventions of the embedding:

* byte strings (std::string used as a byte container, raw buffers) are lists of
  natural numbers;
* C++ objects are structures, member functions take the object as an argument
  and return the updated object next to their result;
* the embedding is of the Linux build (the preprocessor branch __linux__).
-/

namespace Netify

/-! ## Bytes and object representations -/

/-- Byte strings. -/
abbrev Bytes := List Nat

/-- Byte order of the target machine. -/
inductive Endian where
  | little
  | big
deriving DecidableEq, Repr

/-- The n low-order bytes of v, least significant first. -/
def leBytes : Nat → Nat → Bytes
  | 0, _ => []
  | n + 1, v => (v % 256) :: leBytes n (v / 256)

/-- Object representation of an unsigned integer object of n bytes holding v:
the bytes that reading (const char *)&x for sizeof(x) bytes yields. -/
def objRepr (e : Endian) (n v : Nat) : Bytes :=
  match e with
  | Endian.little => leBytes n v
  | Endian.big => (leBytes n v).reverse

/-- Sizes and constants that nd-flow.cpp takes from headers which are not among
the sources (nd-flow.hpp, nd-protos.hpp, the nDPI headers): they are parameters
of the embedding. -/
structure Target where
  endian : Endian
  sizeof_ip_version : Nat
  sizeof_ip_protocol : Nat
  sizeof_vlan_id : Nat
  sizeof_ndpi_protocol : Nat
  ND_PROTO_BITTORRENT : Nat
  ND_FLOW_BTIHASH_LEN : Nat
deriving Repr

/-- Size of struct in_addr. -/
def sizeof_in_addr : Nat := 4

/-- Size of struct in6_addr. -/
def sizeof_in6_addr : Nat := 16

/-- Size of uint16_t, the type of the local variable port in ndFlow::Hash. -/
def sizeof_port : Nat := 2

/-- Length of an Ethernet hardware address. -/
def ETH_ALEN : Nat := 6

/-- Length of a SHA-1 digest. -/
def SHA1_DIGEST_LENGTH : Nat := 20

/-! ## SHA-1 context -/

/-- Modelled from the spec: the SHA-1 context of the bundled SHA-1 routines
(sha1_init, sha1_write, sha1_result), which are not among the sources. The spec
describes a digest as SHA-1 over the bytes fed to it, so the context is the
sequence of bytes written so far. -/
structure sha1 where
  data : Bytes
deriving DecidableEq, Repr

/-- Modelled from the spec: sha1_init, a context with nothing written. -/
def sha1_init : sha1 := ⟨[]⟩

/-- Modelled from the spec: sha1_write appends the given bytes to the stream. -/
def sha1_write (ctx : sha1) (p : Bytes) : sha1 := ⟨ctx.data ++ p⟩

/-- Modelled from the spec: sha1_result, the digest of everything written; the
SHA-1 function itself is the parameter H. -/
def sha1_result (H : Bytes → Bytes) (ctx : sha1) : Bytes := H ctx.data

/-! ## Flow record (nd-flow.cpp) -/

/-- The parts of ndAddr that ndFlow::Hash reads: the IPv4 address word
(addr.in.sin_addr.s_addr), the IPv6 address bytes (addr.in6.sin6_addr), the
link-layer address bytes (addr.ll.sll_addr) and the value of GetPort(false). -/
structure ndAddr where
  s_addr : Nat
  sin6_addr : Fin 16 → Nat
  sll_addr : Fin 8 → Nat
  port : Nat

/-- The flags of a flow that ndFlow::Reset, ndInstance::ExpireFlow and
ndInstance::ProcessFlows read or write; tcp_fin_ack is a counter that the code
tests for being non-zero. -/
structure ndFlowFlags where
  detection_complete : Bool
  detection_guessed : Bool
  detection_init : Bool
  detection_updated : Bool
  dhc_hit : Bool
  fhc_hit : Bool
  expired : Bool
  expiring : Bool
  risks_checked : Bool
  soft_dissector : Bool
  tcp_fin : Bool
  tcp_fin_ack : Nat
deriving DecidableEq, Repr

/-- The members of ndFlow that the embedded functions read or write, and the
members the theorems quantify over (origin, direction, counters, flags,
classification). -/
structure ndFlow where
  ip_version : Nat
  ip_protocol : Nat
  vlan_id : Nat
  lower_mac : ndAddr
  upper_mac : ndAddr
  lower_addr : ndAddr
  upper_addr : ndAddr
  detected_protocol : Nat
  detected_application : Nat
  host_server_name : Bytes
  bt_info_hash : Bytes
  bt_info_hash_valid : Bool
  origin : Nat
  direction : Nat
  dpi_thread_id : Int
  ts_last_seen : Nat
  lower_packets : Nat
  upper_packets : Nat
  lower_bytes : Nat
  upper_bytes : Nat
  flags : ndFlowFlags
  digest_lower : Bytes
  digest_mdata : Bytes

/-- The bytes of addr.in.sin_addr. -/
def ndAddr.in_addr_bytes (e : Endian) (a : ndAddr) : Bytes :=
  objRepr e sizeof_in_addr a.s_addr

/-- The bytes of addr.in6.sin6_addr. -/
def ndAddr.in6_addr_bytes (a : ndAddr) : Bytes :=
  List.ofFn a.sin6_addr

/-- The first ETH_ALEN bytes of addr.ll.sll_addr. -/
def ndAddr.ll_addr_bytes (a : ndAddr) : Bytes :=
  (List.ofFn a.sll_addr).take ETH_ALEN

/-- The bytes of the local variable port after port = addr.GetPort(false). -/
def ndAddr.port_bytes (e : Endian) (a : ndAddr) : Bytes :=
  objRepr e sizeof_port a.port

/-- ndFlow::HasBTInfoHash. -/
def ndFlow.HasBTInfoHash (t : Target) (f : ndFlow) : Bool :=
  f.detected_protocol == t.ND_PROTO_BITTORRENT && f.bt_info_hash_valid

/-- The SHA-1 context of ndFlow::Hash right before sha1_result: every
sha1_write of the function body, in program order. A null key is none. -/
def ndFlow.HashCtx (t : Target) (f : ndFlow) (device : Bytes) (hash_mdata : Bool)
    (key : Option Bytes) (key_length : Nat) : sha1 :=
  let ctx := sha1_init
  let ctx := sha1_write ctx device
  let ctx := sha1_write ctx (objRepr t.endian t.sizeof_ip_version f.ip_version)
  let ctx := sha1_write ctx (objRepr t.endian t.sizeof_ip_protocol f.ip_protocol)
  let ctx := sha1_write ctx (objRepr t.endian t.sizeof_vlan_id f.vlan_id)
  let ctx :=
    if f.ip_version = 4 then
      let ctx := sha1_write ctx (f.lower_addr.in_addr_bytes t.endian)
      let ctx := sha1_write ctx (f.upper_addr.in_addr_bytes t.endian)
      if f.lower_addr.s_addr = 0 ∧ f.upper_addr.s_addr = 0xffffffff then
        sha1_write ctx f.lower_mac.ll_addr_bytes
      else ctx
    else if f.ip_version = 6 then
      let ctx := sha1_write ctx f.lower_addr.in6_addr_bytes
      sha1_write ctx f.upper_addr.in6_addr_bytes
    else ctx
  let ctx := sha1_write ctx (f.lower_addr.port_bytes t.endian)
  let ctx := sha1_write ctx (f.upper_addr.port_bytes t.endian)
  let ctx :=
    if hash_mdata then
      let ctx := sha1_write ctx
        (objRepr t.endian t.sizeof_ndpi_protocol f.detected_protocol)
      let ctx :=
        if ¬ f.host_server_name.isEmpty then sha1_write ctx f.host_server_name
        else ctx
      if f.HasBTInfoHash t then
        sha1_write ctx (f.bt_info_hash.take t.ND_FLOW_BTIHASH_LEN)
      else ctx
    else ctx
  match key with
  | some k => if key_length > 0 then sha1_write ctx (k.take key_length) else ctx
  | none => ctx

/-- ndFlow::Hash: the digest of the context goes to digest_lower when
hash_mdata is false and to digest_mdata otherwise. -/
def ndFlow.Hash (t : Target) (H : Bytes → Bytes) (f : ndFlow) (device : Bytes)
    (hash_mdata : Bool) (key : Option Bytes) (key_length : Nat) : ndFlow :=
  let ctx := f.HashCtx t device hash_mdata key key_length
  if ¬ hash_mdata then { f with digest_lower := sha1_result H ctx }
  else { f with digest_mdata := sha1_result H ctx }

/-! ### The primary digest as the specification words it -/

/-- The address bytes the specification lists for one endpoint: 4 bytes for
IPv4, 16 for IPv6, none for any other version. -/
def specAddrBytes (t : Target) (ip_version : Nat) (a : ndAddr) : Bytes :=
  if ip_version = 4 then a.in_addr_bytes t.endian
  else if ip_version = 6 then a.in6_addr_bytes
  else []

/-- The broadcast case of the specification: IPv4 from 0.0.0.0 to
255.255.255.255. -/
def specIsBroadcast (f : ndFlow) : Prop :=
  f.ip_version = 4 ∧ f.lower_addr.s_addr = 0 ∧ f.upper_addr.s_addr = 0xffffffff

instance (f : ndFlow) : Decidable (specIsBroadcast f) := by
  unfold specIsBroadcast
  infer_instance

/-- The byte string of the primary digest in the order the specification gives:
interface name, IP version, IP protocol, VLAN id, lower address, upper address,
the lower MAC in the broadcast case, lower port, upper port. -/
def specPrimaryInput (t : Target) (device : Bytes) (f : ndFlow) : Bytes :=
  device
    ++ objRepr t.endian t.sizeof_ip_version f.ip_version
    ++ objRepr t.endian t.sizeof_ip_protocol f.ip_protocol
    ++ objRepr t.endian t.sizeof_vlan_id f.vlan_id
    ++ specAddrBytes t f.ip_version f.lower_addr
    ++ specAddrBytes t f.ip_version f.upper_addr
    ++ (if specIsBroadcast f then f.lower_mac.ll_addr_bytes else [])
    ++ f.lower_addr.port_bytes t.endian
    ++ f.upper_addr.port_bytes t.endian

/-- Two flows agree on the fields of the primary digest. -/
def sameHashedFields (f g : ndFlow) : Prop :=
  f.ip_version = g.ip_version ∧ f.ip_protocol = g.ip_protocol ∧
  f.vlan_id = g.vlan_id ∧
  f.lower_addr.s_addr = g.lower_addr.s_addr ∧
  f.upper_addr.s_addr = g.upper_addr.s_addr ∧
  f.lower_addr.sin6_addr = g.lower_addr.sin6_addr ∧
  f.upper_addr.sin6_addr = g.upper_addr.sin6_addr ∧
  f.lower_addr.port = g.lower_addr.port ∧
  f.upper_addr.port = g.upper_addr.port ∧
  f.lower_mac.ll_addr_bytes = g.lower_mac.ll_addr_bytes

/-- Two flows differ in nothing that the primary digest reads except, possibly,
the lower MAC. -/
def sameExceptLowerMac (f g : ndFlow) : Prop :=
  f.ip_version = g.ip_version ∧ f.ip_protocol = g.ip_protocol ∧
  f.vlan_id = g.vlan_id ∧
  f.lower_addr.s_addr = g.lower_addr.s_addr ∧
  f.upper_addr.s_addr = g.upper_addr.s_addr ∧
  f.lower_addr.sin6_addr = g.lower_addr.sin6_addr ∧
  f.upper_addr.sin6_addr = g.upper_addr.sin6_addr ∧
  f.lower_addr.port = g.lower_addr.port ∧
  f.upper_addr.port = g.upper_addr.port

/-! ## Flow-hash cache (nd-fhc.hpp, nd-fhc.cpp) -/

/-- A node of nd_fhc_list, a std::list of pairs of strings. The field it is the
identity of the node: the value every iterator to this node has. -/
structure nd_fhc_node where
  it : Nat
  first : Bytes
  second : Bytes
deriving DecidableEq, Repr

/-- The type nd_fhc_list; the front of the list is the head. -/
abbrev nd_fhc_list := List nd_fhc_node

/-- The type nd_fhc_map, an unordered_map from string to list iterator, as an
association list. -/
abbrev nd_fhc_map := List (Bytes × Nat)

/-- Member find of unordered_map: the mapped iterator, none for end(). -/
def map_find (m : nd_fhc_map) (k : Bytes) : Option Nat :=
  match m with
  | [] => none
  | e :: rest => if e.1 = k then some e.2 else map_find rest k

/-- Member erase of unordered_map, by key. -/
def map_erase (m : nd_fhc_map) (k : Bytes) : nd_fhc_map :=
  m.filter (fun e => e.1 ≠ k)

/-- Assignment through operator[] of unordered_map: the mapped value of an
existing key is overwritten, a missing key is inserted. -/
def map_assign (m : nd_fhc_map) (k : Bytes) (v : Nat) : nd_fhc_map :=
  match map_find m k with
  | some _ => m.map (fun e => if e.1 = k then (e.1, v) else e)
  | none => (k, v) :: m

/-- Dereference of a list iterator: the node it refers to, none when no such
node is in the list (undefined behaviour in C++). -/
def list_deref (l : nd_fhc_list) (i : Nat) : Option nd_fhc_node :=
  l.find? (fun n => n.it = i)

/-- Member erase of std::list, by iterator. -/
def list_erase (l : nd_fhc_list) (i : Nat) : nd_fhc_list :=
  l.eraseP (fun n => n.it = i)

/-- The class ndFlowHashCache. The member next_node is the allocator of list
nodes: the identity the next node created by push_front receives. The mutex is
left out: every member function holds it from entry to exit. -/
structure ndFlowHashCache where
  cache_size : Nat
  index : nd_fhc_list
  lookup : nd_fhc_map
  next_node : Nat
deriving DecidableEq, Repr

/-- The constructor ndFlowHashCache(cache_size). -/
def ndFlowHashCache.new (cache_size : Nat) : ndFlowHashCache :=
  { cache_size := cache_size, index := [], lookup := [], next_node := 0 }

/-- Member push_front of the list followed by taking index.begin(): the new
node gets a fresh identity, which is returned with the cache. -/
def ndFlowHashCache.push_front (c : ndFlowHashCache) (first second : Bytes) :
    ndFlowHashCache × Nat :=
  ({ c with index := ⟨c.next_node, first, second⟩ :: c.index,
            next_node := c.next_node + 1 }, c.next_node)

/-- The purge loop of ndFlowHashCache::Push, run for n iterations: the back of
the list is looked up in the map, erased from it when found, and popped from
the list. Taking back() of an empty list is undefined: none. -/
def ndFlowHashCache.purge : Nat → ndFlowHashCache → Option ndFlowHashCache
  | 0, c => some c
  | n + 1, c =>
    match c.index.getLast? with
    | none => none
    | some j =>
      let lookup :=
        match map_find c.lookup j.first with
        | none => c.lookup
        | some _ => map_erase c.lookup j.first
      ndFlowHashCache.purge n { c with lookup := lookup, index := c.index.dropLast }

/-- ndFlowHashCache::Push, with ndGC.fhc_purge_divisor as the first argument.
The result is none where the C++ code has undefined behaviour (division by a
zero divisor, back() of an empty list). -/
def ndFlowHashCache.Push (fhc_purge_divisor : Nat) (c : ndFlowHashCache)
    (lower_hash upper_hash : Bytes) : Option ndFlowHashCache :=
  match map_find c.lookup lower_hash with
  | some _ => some c
  | none =>
    let purged : Option ndFlowHashCache :=
      if c.lookup.length = c.cache_size then
        if fhc_purge_divisor = 0 then none
        else c.purge (c.cache_size / fhc_purge_divisor)
      else some c
    match purged with
    | none => none
    | some c1 =>
      let (c2, begin) := c1.push_front lower_hash upper_hash
      some { c2 with lookup := map_assign c2.lookup lower_hash begin }

/-- ndFlowHashCache::Pop. The second argument is the value the caller's
upper_hash holds at the call; the result is the return value, the value of
upper_hash at return, and the cache. The result is none where the stored
iterator refers to no node of the list (undefined behaviour in C++). -/
def ndFlowHashCache.Pop (c : ndFlowHashCache) (lower_hash upper_hash : Bytes) :
    Option (Bool × Bytes × ndFlowHashCache) :=
  match map_find c.lookup lower_hash with
  | none => some (false, upper_hash, c)
  | some i =>
    match list_deref c.index i with
    | none => none
    | some node =>
      let upper_hash := node.second
      let c1 := { c with index := list_erase c.index i }
      let (c2, begin) := c1.push_front lower_hash upper_hash
      some (true, upper_hash, { c2 with lookup := map_assign c2.lookup lower_hash begin })

/-- The enumeration nd_fhc_save (nd-config.hpp). -/
inductive nd_fhc_save where
  | ndFHC_DISABLED
  | ndFHC_PERSISTENT
  | ndFHC_VOLATILE
deriving DecidableEq, Repr

/-- Reading n bytes at s.c_str(): the buffer holds the string and a terminating
zero; reading past it is undefined (none). -/
def c_str_read (s : Bytes) (n : Nat) : Option Bytes :=
  if n ≤ s.length + 1 then some ((s ++ [0]).take n) else none

/-- The loop of ndFlowHashCache::Save over the list from begin() to end(): for
every node SHA1_DIGEST_LENGTH bytes of the key, then of the value. -/
def ndFlowHashCache.SaveLoop : nd_fhc_list → Option Bytes
  | [] => some []
  | n :: rest =>
    match c_str_read n.first SHA1_DIGEST_LENGTH,
          c_str_read n.second SHA1_DIGEST_LENGTH,
          ndFlowHashCache.SaveLoop rest with
    | some a, some b, some r => some (a ++ b ++ r)
    | _, _, _ => none

/-- Outcome of ndFlowHashCache::Save. -/
inductive SaveResult where
  | skipped
  | written (file : Bytes)
  | undefined
deriving DecidableEq, Repr

/-- ndFlowHashCache::Save: nothing happens when saving is disabled or the file
cannot be opened (hf is false); otherwise the file receives the records. -/
def ndFlowHashCache.Save (fhc_save : nd_fhc_save) (hf : Bool)
    (c : ndFlowHashCache) : SaveResult :=
  match fhc_save with
  | nd_fhc_save.ndFHC_DISABLED => SaveResult.skipped
  | _ =>
    if ¬ hf then SaveResult.skipped
    else
      match ndFlowHashCache.SaveLoop c.index with
      | some file => SaveResult.written file
      | none => SaveResult.undefined

/-- The do-while loop of ndFlowHashCache::Load on the unread rest of the file:
a record of 2 * SHA1_DIGEST_LENGTH bytes is read, the loop ends when fewer
bytes are left, otherwise the two halves are pushed. The first argument bounds
the number of iterations. -/
def ndFlowHashCache.LoadLoop (fhc_purge_divisor : Nat) :
    Nat → Bytes → ndFlowHashCache → Option ndFlowHashCache
  | 0, _, c => some c
  | fuel + 1, file, c =>
    if file.length < SHA1_DIGEST_LENGTH * 2 then some c
    else
      let digest := file.take (SHA1_DIGEST_LENGTH * 2)
      let digest_lower := digest.take SHA1_DIGEST_LENGTH
      let digest_mdata := (digest.drop SHA1_DIGEST_LENGTH).take SHA1_DIGEST_LENGTH
      match ndFlowHashCache.Push fhc_purge_divisor c digest_lower digest_mdata with
      | none => none
      | some c1 =>
        ndFlowHashCache.LoadLoop fhc_purge_divisor fuel
          (file.drop (SHA1_DIGEST_LENGTH * 2)) c1

/-- ndFlowHashCache::Load: file is the content of the state file, none when it
cannot be opened. Every iteration of the loop consumes a record, so the number
of records plus one bounds the iterations. -/
def ndFlowHashCache.Load (fhc_purge_divisor : Nat) (fhc_save : nd_fhc_save)
    (file : Option Bytes) (c : ndFlowHashCache) : Option ndFlowHashCache :=
  match fhc_save with
  | nd_fhc_save.ndFHC_DISABLED => some c
  | _ =>
    match file with
    | none => some c
    | some bytes =>
      ndFlowHashCache.LoadLoop fhc_purge_divisor
        (bytes.length / (SHA1_DIGEST_LENGTH * 2) + 1) bytes c

/-- The entries of the cache in recency order, most recently used first. -/
def ndFlowHashCache.entries (c : ndFlowHashCache) : List (Bytes × Bytes) :=
  c.index.map (fun n => (n.first, n.second))

/-- Consistency of the list and the map of a cache: the map holds exactly one
entry per list node, from the key of the node to the node; no two nodes share
a key or an identity; every node was handed out by the allocator. -/
def ndFlowHashCache.WF (c : ndFlowHashCache) : Prop :=
  c.lookup.Perm (c.index.map (fun n => (n.first, n.it))) ∧
  (c.index.map (fun n => n.first)).Nodup ∧
  (c.index.map (fun n => n.it)).Nodup ∧
  ∀ n ∈ c.index, n.it < c.next_node

instance (c : ndFlowHashCache) : Decidable c.WF := by
  unfold ndFlowHashCache.WF
  infer_instance

/-- An operation of the cache interface. -/
inductive FhcOp where
  | push (lower_hash upper_hash : Bytes)
  | pop (lower_hash : Bytes)
deriving DecidableEq, Repr

/-- One operation applied to a cache (the output argument of Pop starts empty
and is dropped). -/
def FhcOp.apply (fhc_purge_divisor : Nat) (c : ndFlowHashCache) :
    FhcOp → Option ndFlowHashCache
  | FhcOp.push k v => c.Push fhc_purge_divisor k v
  | FhcOp.pop k => (c.Pop k []).map (fun r => r.2.2)

/-- A sequence of operations applied from left to right. -/
def runOps (fhc_purge_divisor : Nat) :
    List FhcOp → ndFlowHashCache → Option ndFlowHashCache
  | [], c => some c
  | op :: ops, c =>
    match op.apply fhc_purge_divisor c with
    | none => none
    | some c1 => runOps fhc_purge_divisor ops c1

/-- The caches that a sequence of Push and Pop calls produces from the freshly
constructed cache of the given capacity. -/
def ndFlowHashCache.Reachable (fhc_purge_divisor cache_size : Nat)
    (c : ndFlowHashCache) : Prop :=
  ∃ ops, runOps fhc_purge_divisor ops (ndFlowHashCache.new cache_size) = some c

/-! ## Sharded flow map (nd-flow-map.cpp) -/

/-- The type nd_flow_ptr, a shared pointer to a flow: none is the null pointer,
some p refers to the flow object p. -/
abbrev nd_flow_ptr := Option Nat

/-- The type nd_flow_map, an unordered_map from digest to nd_flow_ptr, as an
association list (keys are unique in an unordered_map). -/
abbrev nd_flow_map := List (Bytes × nd_flow_ptr)

/-- Member find of nd_flow_map: the mapped pointer, none for end(). -/
def flow_find (m : nd_flow_map) (digest : Bytes) : Option nd_flow_ptr :=
  match m with
  | [] => none
  | e :: rest => if e.1 = digest then some e.2 else flow_find rest digest

/-- Member insert of nd_flow_map for a pair: an entry is added only when the
key is new; the second component is the flag of the returned nd_flow_insert. -/
def flow_insert (m : nd_flow_map) (fp : Bytes × nd_flow_ptr) : nd_flow_map × Bool :=
  match flow_find m fp.1 with
  | some _ => (m, false)
  | none => (fp :: m, true)

/-- Member erase of nd_flow_map at the position find returned for digest. -/
def flow_erase (m : nd_flow_map) (digest : Bytes) : nd_flow_map :=
  m.filter (fun e => e.1 ≠ digest)

/-- A call of lock (acquire is true) or unlock (acquire is false) on the mutex
of a bucket. -/
structure LockEvent where
  bucket : Nat
  acquire : Bool
deriving DecidableEq, Repr

/-- Ways in which a call fails to return normally. -/
inductive Stuck where
  | blocked
  | undefined
  | exception
deriving DecidableEq, Repr

/-- The class ndFlowMap. Every mutex of bucket_lock is a flag, true when held.
The member lock_log records the calls made on the mutexes, oldest first. -/
structure ndFlowMap where
  buckets : Nat
  bucket : List nd_flow_map
  bucket_lock : List Bool
  lock_log : List LockEvent
deriving DecidableEq, Repr

/-- The constructor ndFlowMap(buckets). -/
def ndFlowMap.new (buckets : Nat) : ndFlowMap :=
  { buckets := buckets, bucket := List.replicate buckets [],
    bucket_lock := List.replicate buckets false, lock_log := [] }

/-- Modelled from the spec: ndFlowMap::HashToBucket, defined in nd-flow-map.hpp,
which is not among the sources. The spec gives bucket_of(d) = first_byte(d) mod
B; the first byte of an empty string is its terminating zero. -/
def ndFlowMap.HashToBucket (m : ndFlowMap) (digest : Bytes) : Nat :=
  digest.headD 0 % m.buckets

/-- The call bucket_lock[b]->lock(): it returns once the mutex is free and then
holds it; on a held mutex the caller blocks. An index outside the vector is
undefined. -/
def ndFlowMap.mutex_lock (m : ndFlowMap) (b : Nat) : Except Stuck ndFlowMap :=
  match m.bucket_lock.get? b with
  | none => Except.error Stuck.undefined
  | some true => Except.error Stuck.blocked
  | some false =>
    Except.ok { m with bucket_lock := m.bucket_lock.set b true,
                       lock_log := m.lock_log ++ [⟨b, true⟩] }

/-- The call bucket_lock[b]->unlock(): unlocking a mutex that is not held is
undefined. -/
def ndFlowMap.mutex_unlock (m : ndFlowMap) (b : Nat) : Except Stuck ndFlowMap :=
  match m.bucket_lock.get? b with
  | none => Except.error Stuck.undefined
  | some false => Except.error Stuck.undefined
  | some true =>
    Except.ok { m with bucket_lock := m.bucket_lock.set b false,
                       lock_log := m.lock_log ++ [⟨b, false⟩] }

/-- ndFlowMap::Lookup: the returned pointer is null (none) when the digest is
not in its bucket. -/
def ndFlowMap.Lookup (m : ndFlowMap) (digest : Bytes) (acquire_lock : Bool) :
    Except Stuck (nd_flow_ptr × ndFlowMap) :=
  let b := m.HashToBucket digest
  match m.mutex_lock b with
  | Except.error e => Except.error e
  | Except.ok m1 =>
    match m1.bucket.get? b with
    | none => Except.error Stuck.undefined
    | some bk =>
      let f : nd_flow_ptr :=
        match flow_find bk digest with
        | some p => p
        | none => none
      if ¬ acquire_lock then
        match m1.mutex_unlock b with
        | Except.error e => Except.error e
        | Except.ok m2 => Except.ok (f, m2)
      else Except.ok (f, m1)

/-- ndFlowMap::Insert. -/
def ndFlowMap.Insert (m : ndFlowMap) (digest : Bytes) (flow : nd_flow_ptr)
    (unlocked : Bool) : Except Stuck (Bool × ndFlowMap) :=
  let b := m.HashToBucket digest
  let locked : Except Stuck ndFlowMap :=
    if ¬ unlocked then m.mutex_lock b else Except.ok m
  match locked with
  | Except.error e => Except.error e
  | Except.ok m1 =>
    match m1.bucket.get? b with
    | none => Except.error Stuck.undefined
    | some bk =>
      let fi := flow_insert bk (digest, flow)
      let m2 := { m1 with bucket := m1.bucket.set b fi.1 }
      let result := fi.2
      if ¬ unlocked then
        match m2.mutex_unlock b with
        | Except.error e => Except.error e
        | Except.ok m3 => Except.ok (result, m3)
      else Except.ok (result, m2)

/-- ndFlowMap::Delete: the lock_guard locks at its construction and unlocks
when the function is left. -/
def ndFlowMap.Delete (m : ndFlowMap) (digest : Bytes) :
    Except Stuck (Bool × ndFlowMap) :=
  let b := m.HashToBucket digest
  match m.mutex_lock b with
  | Except.error e => Except.error e
  | Except.ok m1 =>
    match m1.bucket.get? b with
    | none => Except.error Stuck.undefined
    | some bk =>
      let r : Bool × ndFlowMap :=
        match flow_find bk digest with
        | some _ => (true, { m1 with bucket := m1.bucket.set b (flow_erase bk digest) })
        | none => (false, m1)
      match r.2.mutex_unlock b with
      | Except.error e => Except.error e
      | Except.ok m2 => Except.ok (r.1, m2)

/-- ndFlowMap::Acquire(b): the bucket is returned with its lock held. -/
def ndFlowMap.Acquire (m : ndFlowMap) (b : Nat) :
    Except Stuck (nd_flow_map × ndFlowMap) :=
  if b ≥ m.buckets then Except.error Stuck.exception
  else
    match m.mutex_lock b with
    | Except.error e => Except.error e
    | Except.ok m1 =>
      match m1.bucket.get? b with
      | none => Except.error Stuck.undefined
      | some bk => Except.ok (bk, m1)

/-- ndFlowMap::Release(b), the overload taking a bucket index. -/
def ndFlowMap.ReleaseBucket (m : ndFlowMap) (b : Nat) : Except Stuck ndFlowMap :=
  if b ≥ m.buckets then Except.error Stuck.exception
  else m.mutex_unlock b

/-- ndFlowMap::Release(digest), the overload taking a digest. -/
def ndFlowMap.Release (m : ndFlowMap) (digest : Bytes) : Except Stuck ndFlowMap :=
  m.ReleaseBucket (m.HashToBucket digest)

/-- Shape of a flow map: as many buckets and mutexes as the constructor made,
and at least one of them. -/
def ndFlowMap.WF (m : ndFlowMap) : Prop :=
  0 < m.buckets ∧ m.bucket.length = m.buckets ∧ m.bucket_lock.length = m.buckets

instance (m : ndFlowMap) : Decidable m.WF := by
  unfold ndFlowMap.WF
  infer_instance

/-- The mutex of bucket b is free. -/
def ndFlowMap.lockFree (m : ndFlowMap) (b : Nat) : Prop :=
  m.bucket_lock.get? b = some false

/-- The mutex of bucket b is held. -/
def ndFlowMap.lockHeld (m : ndFlowMap) (b : Nat) : Prop :=
  m.bucket_lock.get? b = some true

instance (m : ndFlowMap) (b : Nat) : Decidable (m.lockFree b) := by
  unfold ndFlowMap.lockFree
  infer_instance

instance (m : ndFlowMap) (b : Nat) : Decidable (m.lockHeld b) := by
  unfold ndFlowMap.lockHeld
  infer_instance

/-- The entry stored under a digest: none when there is none, otherwise the
stored pointer. -/
def ndFlowMap.entry (m : ndFlowMap) (digest : Bytes) : Option nd_flow_ptr :=
  match m.bucket.get? (m.HashToBucket digest) with
  | none => none
  | some bk => flow_find bk digest

/-! ## Example inputs -/

/-- A Linux target on a little-endian machine with one-byte ip_version and
ip_protocol and a two-byte vlan_id. -/
def exTarget : Target :=
  { endian := Endian.little, sizeof_ip_version := 1, sizeof_ip_protocol := 1,
    sizeof_vlan_id := 2, sizeof_ndpi_protocol := 4, ND_PROTO_BITTORRENT := 37,
    ND_FLOW_BTIHASH_LEN := 20 }

/-- An address object with the given IPv4 word, port and link-layer byte. -/
def exAddr (s_addr port mac : Nat) : ndAddr :=
  { s_addr := s_addr, sin6_addr := fun _ => 0, sll_addr := fun _ => mac,
    port := port }

/-- All flags clear. -/
def exFlags : ndFlowFlags :=
  { detection_complete := false, detection_guessed := false,
    detection_init := false, detection_updated := false, dhc_hit := false,
    fhc_hit := false, expired := false, expiring := false,
    risks_checked := false, soft_dissector := false, tcp_fin := false,
    tcp_fin_ack := 0 }

/-- A DHCP discover: UDP from 0.0.0.0 port 68 to 255.255.255.255 port 67, sent
by the station whose MAC consists of the given byte. -/
def exDhcpFlow (mac : Nat) : ndFlow :=
  { ip_version := 4, ip_protocol := 17, vlan_id := 0,
    lower_mac := exAddr 0 0 mac, upper_mac := exAddr 0 0 0xff,
    lower_addr := exAddr 0 0x4400 0, upper_addr := exAddr 0xffffffff 0x4300 0,
    detected_protocol := 0, detected_application := 0, host_server_name := [],
    bt_info_hash := [], bt_info_hash_valid := false, origin := 0, direction := 0,
    dpi_thread_id := -1, ts_last_seen := 0,
    lower_packets := 0, upper_packets := 0, lower_bytes := 0, upper_bytes := 0,
    flags := exFlags, digest_lower := [], digest_mdata := [] }

/-- The cache c with a new list node for (first, second) at the head and the
map entry of first referring to it, for a key that the map does not hold. -/
def ndFlowHashCache.withHead (c : ndFlowHashCache) (first second : Bytes) :
    ndFlowHashCache :=
  { cache_size := c.cache_size,
    index := ⟨c.next_node, first, second⟩ :: c.index,
    lookup := (first, c.next_node) :: c.lookup,
    next_node := c.next_node + 1 }

/-- The list nodes that survive the purge of a Push: all but the last
cache_size / fhc_purge_divisor when the map holds cache_size entries, all
otherwise. -/
def ndFlowHashCache.survivors (fhc_purge_divisor : Nat) (c : ndFlowHashCache) :
    nd_fhc_list :=
  if c.lookup.length = c.cache_size then
    c.index.take (c.index.length - c.cache_size / fhc_purge_divisor)
  else c.index

/-- A cache of capacity 2 after Push of key 1 and then of key 2: it is full,
key 2 is the most recently used. -/
def exCache : ndFlowHashCache :=
  { cache_size := 2,
    index := [⟨1, [2], [20]⟩, ⟨0, [1], [10]⟩],
    lookup := [([2], 1), ([1], 0)],
    next_node := 2 }

/-- The Push operations for a list of (key, value) pairs, in order. -/
def pushOps (kvs : List (Bytes × Bytes)) : List FhcOp :=
  kvs.map (fun kv => FhcOp.push kv.1 kv.2)

/-- The file format as the specification gives it: for every entry a record of
the key followed by the value, no header and no framing. -/
def specRecords : List (Bytes × Bytes) → Bytes
  | [] => []
  | e :: rest => e.1 ++ e.2 ++ specRecords rest

/-- The answer of Pop that a caller sees: the return value and the value of
the output argument. -/
def popAnswer (r : Option (Bool × Bytes × ndFlowHashCache)) : Option (Bool × Bytes) :=
  r.map (fun x => (x.1, x.2.1))

/-- A digest of SHA1_DIGEST_LENGTH equal bytes. -/
def exDigest (b : Nat) : Bytes := List.replicate SHA1_DIGEST_LENGTH b

/-- The cache of capacity 2 after Push of one pair of digests. -/
def exSavedCache : ndFlowHashCache :=
  { cache_size := 2,
    index := [⟨0, exDigest 1, exDigest 2⟩],
    lookup := [(exDigest 1, 0)],
    next_node := 1 }

/-- The pointer that ndFlowMap::Lookup returns for the result of find: the
stored pointer, or the null pointer when find returned end(). -/
def lookupResult (r : Option nd_flow_ptr) : nd_flow_ptr :=
  match r with
  | some p => p
  | none => none

/-- A flow map with four buckets holding one flow, under a digest whose first
byte is 5 (bucket 1); every lock is free. -/
def exFlowMap : ndFlowMap :=
  { buckets := 4,
    bucket := [[], [([5, 1], some 7)], [], []],
    bucket_lock := [false, false, false, false],
    lock_log := [] }

/-- A call of the flow map interface that takes a digest. -/
inductive FlowMapOp where
  | lookup (digest : Bytes) (acquire_lock : Bool)
  | insert (digest : Bytes) (flow : nd_flow_ptr) (unlocked : Bool)
  | delete (digest : Bytes)
  | release (digest : Bytes)
deriving DecidableEq, Repr

/-- The digest argument of a call. -/
def FlowMapOp.digest : FlowMapOp → Bytes
  | FlowMapOp.lookup d _ => d
  | FlowMapOp.insert d _ _ => d
  | FlowMapOp.delete d => d
  | FlowMapOp.release d => d

/-- The flow map after a call, the returned value dropped. -/
def FlowMapOp.apply (m : ndFlowMap) : FlowMapOp → Except Stuck ndFlowMap
  | FlowMapOp.lookup d a =>
    match m.Lookup d a with
    | Except.ok r => Except.ok r.2
    | Except.error e => Except.error e
  | FlowMapOp.insert d f u =>
    match m.Insert d f u with
    | Except.ok r => Except.ok r.2
    | Except.error e => Except.error e
  | FlowMapOp.delete d =>
    match m.Delete d with
    | Except.ok r => Except.ok r.2
    | Except.error e => Except.error e
  | FlowMapOp.release d => m.Release d

/-- The flow map exFlowMap with the lock of bucket 1 held. -/
def exFlowMapHeld : ndFlowMap :=
  { exFlowMap with bucket_lock := [false, true, false, false] }

/-! ## Lower map (nd-flow.cpp) -/

/-- The enumeration ndAddr::Type, declared in nd-addr.hpp (not among the
sources); the constants are the ones nd-flow.cpp names. -/
inductive ndAddrType where
  | atNONE
  | atLOCAL
  | atLOCALNET
  | atRESERVED
  | atMULTICAST
  | atBROADCAST
  | atOTHER
  | atERROR
deriving DecidableEq, Repr

/-- The values of ndFlow::lower_map. -/
inductive LowerMap where
  | LOWER_UNKNOWN
  | LOWER_LOCAL
  | LOWER_OTHER
deriving DecidableEq, Repr

/-- The values of ndFlow::other_type. -/
inductive OtherType where
  | OTHER_UNKNOWN
  | OTHER_UNSUPPORTED
  | OTHER_LOCAL
  | OTHER_MULTICAST
  | OTHER_BROADCAST
  | OTHER_REMOTE
  | OTHER_ERROR
deriving DecidableEq, Repr

open ndAddrType LowerMap OtherType

/-- ndFlow::GetLowerMap: lm and ot are the values the two reference arguments
hold at the call, the result is their values at return. The chain of tests is
the one of the source, the duplicated second test included. -/
def ndFlow.GetLowerMap (f : ndFlow) (lt ut : ndAddrType) (lm : LowerMap)
    (ot : OtherType) : LowerMap × OtherType :=
  if lt = atERROR ∨ ut = atERROR then (lm, OTHER_ERROR)
  else if lt = atLOCAL ∧ ut = atLOCAL then (LOWER_LOCAL, OTHER_LOCAL)
  else if lt = atLOCAL ∧ ut = atLOCAL then (LOWER_LOCAL, OTHER_LOCAL)
  else if lt = atLOCAL ∧ ut = atLOCALNET then (LOWER_LOCAL, OTHER_LOCAL)
  else if lt = atLOCALNET ∧ ut = atLOCAL then (LOWER_LOCAL, OTHER_LOCAL)
  else if lt = atMULTICAST then (LOWER_OTHER, OTHER_MULTICAST)
  else if ut = atMULTICAST then (LOWER_LOCAL, OTHER_MULTICAST)
  else if lt = atBROADCAST then (LOWER_OTHER, OTHER_BROADCAST)
  else if ut = atBROADCAST then (LOWER_LOCAL, OTHER_BROADCAST)
  else if lt = atRESERVED ∧ ut = atLOCALNET then (LOWER_OTHER, OTHER_LOCAL)
  else if lt = atLOCALNET ∧ ut = atRESERVED then (LOWER_LOCAL, OTHER_LOCAL)
  else if f.ip_version ≠ 6 ∧ lt = atRESERVED ∧ ut = atRESERVED then
    (LOWER_LOCAL, OTHER_LOCAL)
  else if lt = atRESERVED ∧ ut = atLOCAL then (LOWER_OTHER, OTHER_REMOTE)
  else if lt = atLOCAL ∧ ut = atRESERVED then (LOWER_LOCAL, OTHER_REMOTE)
  else if lt = atLOCALNET ∧ ut = atLOCALNET then (LOWER_LOCAL, OTHER_LOCAL)
  else if lt = atOTHER then (LOWER_OTHER, OTHER_REMOTE)
  else if ut = atOTHER then (LOWER_LOCAL, OTHER_REMOTE)
  else (lm, ot)

/-! ## Instance supervisor (nd-instance.cpp) -/

/-- Protocol number of TCP (netinet/in.h). -/
def IPPROTO_TCP : Nat := 6

/-- The members of ndGlobalConfig (nd-config.hpp) that the embedded functions
of ndInstance read; the two booleans are the flag bits ndGF_AUTO_FLOW_EXPIRY and
ndGF_RUN_WITHOUT_SOURCES. -/
structure ndGlobalConfig where
  ttl_idle_flow : Nat
  ttl_idle_tcp_flow : Nat
  auto_flow_expiry : Bool
  run_without_sources : Bool
deriving DecidableEq, Repr

/-- Modelled from the spec: the plugin event bus, whose implementation
(ndPluginManager) is not among the sources. A broadcast appends the event to
the sequence of events delivered so far; the events are the ones nd-instance.cpp
broadcasts from ProcessUpdate, ExpireFlow and ProcessFlows, flow events carry
the flow and pkt_capture_stats the interface name. -/
inductive ndPluginEvent where
  | EVENT_STATUS_UPDATE
  | EVENT_UPDATE_INIT
  | EVENT_INTERFACES
  | EVENT_PKT_CAPTURE_STATS (iface : Bytes)
  | EVENT_PKT_GLOBAL_STATS
  | EVENT_FLOW_MAP
  | EVENT_UPDATE_COMPLETE
  | EVENT_FLOW_EXPIRING (flow : Nat)
  | EVENT_FLOW_EXPIRE (flow : Nat)
deriving DecidableEq, Repr

open ndPluginEvent

/-- An element of a bucket as the sweeps see it: the digest, and the shared
pointer with the identity of the flow object (ptr), its use_count() and the
flow object itself. Every flow object is held by one element of the map. -/
structure nd_flow_entry where
  digest : Bytes
  ptr : Nat
  use_count : Nat
  flow : ndFlow

/-- The counters of ndInstanceStatus that ProcessFlows writes. -/
structure ndInstanceStatus where
  flows : Nat
  flows_prev : Nat
  flows_purged : Nat
  flows_expiring : Nat
  flows_expired : Nat
  flows_active : Nat
  flows_in_use : Nat
deriving DecidableEq, Repr

/-- A capture thread: the answer of HasTerminated() and the capture state. -/
structure ndCaptureThread where
  terminated : Bool
  capture_state : Nat
deriving DecidableEq, Repr

/-- The type nd_capture_threads, a map from interface name to the vector of the
capture threads of the interface, in the order of iteration. -/
abbrev nd_capture_threads := List (Bytes × List ndCaptureThread)

/-- The detection threads by id, each with its queue of flows. -/
abbrev nd_detection_threads := List (Int × List Nat)

/-- The members of ndInstance that the embedded functions read or write:
the buckets of the flow map, the detection threads, the events broadcast so far
(plugins), the flows ExpireFlow was called for so far (a record kept for the
theorems), the status counters and the terminate flag that ShouldTerminate()
returns. -/
structure ndInstance where
  flow_buckets : List (List nd_flow_entry)
  thread_detection : nd_detection_threads
  plugin_events : List ndPluginEvent
  expire_calls : List Nat
  status : ndInstanceStatus
  terminate : Bool

/-- Member find of thread_detection: the queue of the thread, none for end(). -/
def thread_find (t : nd_detection_threads) (id : Int) : Option (List Nat) :=
  match t with
  | [] => none
  | x :: rest => if x.1 = id then some x.2 else thread_find rest id

/-- Modelled from the spec: ndDetectionThread::QueuePacket for a flow without a
packet (nd-detection.cpp is not among the sources): one item for the flow is
appended to the queue of the thread with the given id. -/
def QueuePacket (t : nd_detection_threads) (id : Int) (flow : Nat) :
    nd_detection_threads :=
  t.map (fun x => if x.1 = id then (x.1, x.2 ++ [flow]) else x)

/-- Modelled from the spec: ndFlowStats::Reset, declared in nd-flow.hpp (not
among the sources); the spec has reset clear the delta bookkeeping, which here
are the packet and byte counters of the flow. -/
def ndFlow.stats_Reset (f : ndFlow) (_full_reset : Bool) : ndFlow :=
  { f with lower_packets := 0, upper_packets := 0, lower_bytes := 0,
           upper_bytes := 0 }

/-- ndFlow::Reset. -/
def ndFlow.Reset (f : ndFlow) (full_reset : Bool) : ndFlow :=
  let f := f.stats_Reset full_reset
  if full_reset then
    { f with flags := { f.flags with
        detection_complete := false, detection_guessed := false,
        detection_init := false, detection_updated := false, dhc_hit := false,
        expired := false, expiring := false, risks_checked := false,
        soft_dissector := false } }
  else f

/-- Modelled from the spec: the default value of the parameter full_reset of
ndFlow::Reset, given in nd-flow.hpp (not among the sources). The spec has the
call without argument clear the delta bookkeeping only. -/
def Reset_default_full_reset : Bool := false

/-- The flow of an entry with its flags replaced. -/
def nd_flow_entry.withFlags (e : nd_flow_entry) (flags : ndFlowFlags) :
    nd_flow_entry :=
  { e with flow := { e.flow with flags := flags } }

/-- ndInstance::ExpireFlow on the flow of an entry: the return value, the
instance and the entry afterwards. The item queued by QueuePacket holds a copy
of the shared pointer, which adds one to use_count. -/
def ndInstance.ExpireFlow (inst : ndInstance) (e : nd_flow_entry) :
    Bool × ndInstance × nd_flow_entry :=
  let inst := { inst with expire_calls := inst.expire_calls ++ [e.ptr] }
  if e.flow.flags.detection_complete = true then
    (false, inst, e.withFlags { e.flow.flags with expired := true })
  else if e.flow.flags.expiring = false then
    let e := e.withFlags { e.flow.flags with expiring := true }
    match thread_find inst.thread_detection e.flow.dpi_thread_id with
    | some _ =>
      let inst := { inst with
        thread_detection := QueuePacket inst.thread_detection e.flow.dpi_thread_id e.ptr,
        plugin_events := inst.plugin_events ++ [EVENT_FLOW_EXPIRING e.ptr] }
      (true, inst, { e with use_count := e.use_count + 1 })
    | none => (false, inst, e.withFlags { e.flow.flags with expired := true })
  else (false, inst, e)

/-- The idle time-to-live that ProcessFlows selects for a flow (the nested
conditional expression of the source). -/
def ProcessFlows_ttl (cfg : ndGlobalConfig) (f : ndFlow) : Nat :=
  if f.ip_protocol ≠ IPPROTO_TCP then cfg.ttl_idle_flow
  else if f.flags.tcp_fin_ack ≠ 0 then cfg.ttl_idle_flow
  else cfg.ttl_idle_tcp_flow

/-- First part of the body of the loop of ProcessFlows over one element: the
in-use count and the idle check, which may call ExpireFlow. The time values are
of type time_t and far from its bounds, so they are integers here. -/
def ndInstance.ProcessFlows_idle (cfg : ndGlobalConfig) (now : Int)
    (inst : ndInstance) (e : nd_flow_entry) : ndInstance × nd_flow_entry :=
  let inst :=
    if e.use_count > 1 then
      { inst with status := { inst.status with
          flows_in_use := inst.status.flows_in_use + 1 } }
    else inst
  if e.flow.flags.expired = false then
    let ttl := ProcessFlows_ttl cfg e.flow
    if Int.ofNat (e.flow.ts_last_seen / 1000) + Int.ofNat ttl < now then
      let r := inst.ExpireFlow e
      if r.1 then
        ({ r.2.1 with status := { r.2.1.status with
            flows_expiring := r.2.1.status.flows_expiring + 1 } }, r.2.2)
      else (r.2.1, r.2.2)
    else (inst, e)
  else (inst, e)

/-- Second part of the body of the loop of ProcessFlows over one element: an
expired flow is counted and, when the map holds the only reference, announced
with flow_expire and erased (the result is none); a flow that is not expired is
counted as active and reset when detection has started and packets were seen. -/
def ndInstance.ProcessFlows_purge (inst : ndInstance) (e : nd_flow_entry) :
    ndInstance × Option nd_flow_entry :=
  if e.flow.flags.expired = true then
    let inst := { inst with status := { inst.status with
      flows_expired := inst.status.flows_expired + 1 } }
    if e.use_count = 1 then
      ({ inst with
          plugin_events := inst.plugin_events ++ [EVENT_FLOW_EXPIRE e.ptr],
          status := { inst.status with
            flows_purged := inst.status.flows_purged + 1 } }, none)
    else (inst, some e)
  else
    if e.flow.flags.detection_init then
      if e.flow.lower_packets ≠ 0 ∨ e.flow.upper_packets ≠ 0 then
        ({ inst with status := { inst.status with
            flows_active := inst.status.flows_active + 1 } },
         some { e with flow := e.flow.Reset Reset_default_full_reset })
      else (inst, some e)
    else (inst, some e)

/-- The body of the loop of ProcessFlows over one element of a bucket. -/
def ndInstance.ProcessFlows_entry (cfg : ndGlobalConfig) (now : Int)
    (inst : ndInstance) (e : nd_flow_entry) : ndInstance × Option nd_flow_entry :=
  let r := inst.ProcessFlows_idle cfg now e
  r.1.ProcessFlows_purge r.2

/-- The while loop of ProcessFlows over the elements of one bucket, from
begin() to end(): the instance afterwards and the elements left in the bucket.
Acquire and Release around the loop are left out. -/
def ndInstance.ProcessFlows_bucket (cfg : ndGlobalConfig) (now : Int) :
    ndInstance → List nd_flow_entry → ndInstance × List nd_flow_entry
  | inst, [] => (inst, [])
  | inst, e :: rest =>
    let r := inst.ProcessFlows_entry cfg now e
    let r2 := ndInstance.ProcessFlows_bucket cfg now r.1 rest
    (r2.1, match r.2 with
           | some e1 => e1 :: r2.2
           | none => r2.2)

/-- The for loop of ProcessFlows over the buckets. -/
def ndInstance.ProcessFlows_buckets (cfg : ndGlobalConfig) (now : Int) :
    ndInstance → List (List nd_flow_entry) → ndInstance × List (List nd_flow_entry)
  | inst, [] => (inst, [])
  | inst, fm :: rest =>
    let r := ndInstance.ProcessFlows_bucket cfg now inst fm
    let r2 := ndInstance.ProcessFlows_buckets cfg now r.1 rest
    (r2.1, r.2 :: r2.2)

/-- ndInstance::ProcessFlows, with the value of time(NULL) as an argument. The
locals that only feed the debug message are left out; status.flows is a size_t
and wraps around on subtraction. -/
def ndInstance.ProcessFlows (cfg : ndGlobalConfig) (now : Int) (inst : ndInstance) :
    ndInstance :=
  let inst := { inst with status := { inst.status with
    flows_purged := 0, flows_expiring := 0, flows_expired := 0,
    flows_active := 0, flows_in_use := 0 } }
  let r := ndInstance.ProcessFlows_buckets cfg now inst inst.flow_buckets
  let inst := { r.1 with flow_buckets := r.2 }
  { inst with status := { inst.status with
      flows_prev := inst.status.flows,
      flows := (inst.status.flows + 2 ^ 64 - inst.status.flows_purged % 2 ^ 64)
        % 2 ^ 64 } }

/-- The body of the loop of the forced expiry in DestroyCaptureThreads over one
element of a bucket. -/
def ndInstance.forceExpire_entry (inst : ndInstance) (e : nd_flow_entry) :
    ndInstance × nd_flow_entry :=
  if e.flow.flags.expired = false ∧ e.flow.flags.expiring = false then
    let r := inst.ExpireFlow e
    (r.2.1, r.2.2)
  else (inst, e)

/-- The forced expiry over the elements of one bucket. -/
def ndInstance.forceExpire_bucket :
    ndInstance → List nd_flow_entry → ndInstance × List nd_flow_entry
  | inst, [] => (inst, [])
  | inst, e :: rest =>
    let r := inst.forceExpire_entry e
    let r2 := ndInstance.forceExpire_bucket r.1 rest
    (r2.1, r.2 :: r2.2)

/-- The forced expiry over the buckets. -/
def ndInstance.forceExpire_buckets :
    ndInstance → List (List nd_flow_entry) → ndInstance × List (List nd_flow_entry)
  | inst, [] => (inst, [])
  | inst, fm :: rest =>
    let r := ndInstance.forceExpire_bucket inst fm
    let r2 := ndInstance.forceExpire_buckets r.1 rest
    (r2.1, r.2 :: r2.2)

/-- ndInstance::DestroyCaptureThreads: every capture thread is terminated and
deleted and the map of threads cleared; with expire_flows set, ExpireFlow is
called for every flow that is neither expired nor expiring. -/
def ndInstance.DestroyCaptureThreads (inst : ndInstance)
    (_threads : nd_capture_threads) (expire_flows : Bool) :
    ndInstance × nd_capture_threads :=
  if ¬ expire_flows then (inst, [])
  else
    let r := ndInstance.forceExpire_buckets inst inst.flow_buckets
    ({ r.1 with flow_buckets := r.2 }, [])

/-- Decrement of a size_t. -/
def size_t_dec (n : Nat) : Nat := (n + 2 ^ 64 - 1) % 2 ^ 64

/-- The count that ReapCaptureThreads computes: it starts at threads.size(),
the number of interfaces, and is decremented for every thread instance that has
terminated. -/
def ReapCaptureThreads_count (threads : nd_capture_threads) : Nat :=
  threads.foldl
    (fun count it =>
      it.2.foldl
        (fun count it_instance =>
          if it_instance.terminated then size_t_dec count else count)
        count)
    (threads.length % 2 ^ 64)

/-- Modelled from the spec: Terminate() of the thread base class (nd-thread.hpp
is not among the sources), which requests termination: it raises the flag that
ShouldTerminate() returns. -/
def ndInstance.Terminate (inst : ndInstance) : ndInstance :=
  { inst with terminate := true }

/-- ndInstance::ReapCaptureThreads: the returned count, the instance and the
capture threads afterwards. -/
def ndInstance.ReapCaptureThreads (cfg : ndGlobalConfig) (inst : ndInstance)
    (threads : nd_capture_threads) : Nat × ndInstance × nd_capture_threads :=
  let count := ReapCaptureThreads_count threads
  if inst.terminate = false ∧ count = 0 ∧ ¬ cfg.run_without_sources then
    let r := inst.DestroyCaptureThreads threads cfg.auto_flow_expiry
    (count, r.1.Terminate, r.2)
  else (count, inst, threads)

/-- Modelled from the spec: BroadcastEvent and BroadcastProcessorEvent of the
plugin manager, which deliver one event to the plugins. -/
def ndInstance.broadcast (inst : ndInstance) (ev : ndPluginEvent) : ndInstance :=
  { inst with plugin_events := inst.plugin_events ++ [ev] }

/-- The loop of ProcessUpdate over the capture threads by interface: the
statistics of the instances are gathered (not modelled) and pkt_capture_stats is
broadcast for the interface. Reading element 0 of an empty vector of instances
is undefined: none. -/
def ndInstance.ProcessUpdate_threads :
    ndInstance → nd_capture_threads → Option ndInstance
  | inst, [] => some inst
  | inst, it :: rest =>
    match it.2 with
    | [] => none
    | _ :: _ =>
      ndInstance.ProcessUpdate_threads
        (inst.broadcast (EVENT_PKT_CAPTURE_STATS it.1)) rest

/-- ndInstance::ProcessUpdate, with the value of time(NULL) in ProcessFlows as
an argument. UpdateStatus, the purge of the DNS hint cache, the refresh of the
interface addresses and SaveAgentStatus broadcast nothing and write none of
the members modelled here. -/
def ndInstance.ProcessUpdate (cfg : ndGlobalConfig) (now : Int)
    (inst : ndInstance) (threads : nd_capture_threads) : Option ndInstance :=
  let inst := inst.broadcast EVENT_STATUS_UPDATE
  let inst := inst.broadcast EVENT_UPDATE_INIT
  let inst := inst.broadcast EVENT_INTERFACES
  match inst.ProcessUpdate_threads threads with
  | none => none
  | some inst =>
    let inst := inst.broadcast EVENT_PKT_GLOBAL_STATS
    let inst := inst.broadcast EVENT_FLOW_MAP
    let inst := inst.broadcast EVENT_UPDATE_COMPLETE
    some (inst.ProcessFlows cfg now)

/-! ### Notions used by the theorems on the flow lifecycle -/

/-- The order of the lifecycle flags as the specification states it: expired
implies expiring, expiring implies detection_complete, detection_complete
implies detection_init. -/
def lifecycleOrdered (f : ndFlowFlags) : Prop :=
  (f.expired = true → f.expiring = true) ∧
  (f.expiring = true → f.detection_complete = true) ∧
  (f.detection_complete = true → f.detection_init = true)

instance (f : ndFlowFlags) : Decidable (lifecycleOrdered f) := by
  unfold lifecycleOrdered
  infer_instance

/-- No flag among detection_init, detection_complete, expiring and expired that
is true in f is false in g. -/
def flagsKept (f g : ndFlowFlags) : Prop :=
  (f.detection_init = true → g.detection_init = true) ∧
  (f.detection_complete = true → g.detection_complete = true) ∧
  (f.expiring = true → g.expiring = true) ∧
  (f.expired = true → g.expired = true)

instance (f g : ndFlowFlags) : Decidable (flagsKept f g) := by
  unfold flagsKept
  infer_instance

/-- The order that the code keeps: detection_complete implies detection_init,
and an expired flow is expiring or has completed detection. -/
def lifecycleKept (f : ndFlowFlags) : Prop :=
  (f.detection_complete = true → f.detection_init = true) ∧
  (f.expired = true → f.expiring = true ∨ f.detection_complete = true)

instance (f : ndFlowFlags) : Decidable (lifecycleKept f) := by
  unfold lifecycleKept
  infer_instance

/-- The idle threshold of a flow is exceeded at time now and the flow is not
expired: the condition under which ProcessFlows calls ExpireFlow. -/
def idleExceeded (cfg : ndGlobalConfig) (now : Int) (e : nd_flow_entry) : Prop :=
  e.flow.flags.expired = false ∧
  Int.ofNat (e.flow.ts_last_seen / 1000) + Int.ofNat (ProcessFlows_ttl cfg e.flow) < now

instance (cfg : ndGlobalConfig) (now : Int) (e : nd_flow_entry) :
    Decidable (idleExceeded cfg now e) := by
  unfold idleExceeded
  infer_instance

/-- The element after the idle check of a sweep that started from inst. -/
def idleEntry (cfg : ndGlobalConfig) (now : Int) (inst : ndInstance)
    (e : nd_flow_entry) : nd_flow_entry :=
  (inst.ProcessFlows_idle cfg now e).2

/-- After the idle check the flow is expired and the map holds the only
reference to it. -/
def purgeable (cfg : ndGlobalConfig) (now : Int) (inst : ndInstance)
    (e : nd_flow_entry) : Prop :=
  (idleEntry cfg now inst e).flow.flags.expired = true ∧
  (idleEntry cfg now inst e).use_count = 1

instance (cfg : ndGlobalConfig) (now : Int) (inst : ndInstance)
    (e : nd_flow_entry) : Decidable (purgeable cfg now inst e) := by
  unfold purgeable
  infer_instance

/-- The ids of the detection threads. -/
def ndInstance.threadIds (inst : ndInstance) : List Int :=
  inst.thread_detection.map Prod.fst

/-- The events that the body of the loop of ProcessFlows broadcasts for one
element in a sweep that started from inst: flow_expiring when the idle check
calls ExpireFlow and ExpireFlow queues the flow, flow_expire when the flow is
purged. -/
def flowEvents (cfg : ndGlobalConfig) (now : Int) (inst : ndInstance)
    (e : nd_flow_entry) : List ndPluginEvent :=
  (if idleExceeded cfg now e ∧ (inst.ExpireFlow e).1 = true
    then [EVENT_FLOW_EXPIRING e.ptr] else []) ++
  (if purgeable cfg now inst e then [EVENT_FLOW_EXPIRE e.ptr] else [])

/-- The event is a flow_expire event. -/
def isFlowExpire : ndPluginEvent → Bool
  | EVENT_FLOW_EXPIRE _ => true
  | _ => false

/-- The event is a flow_expiring or a flow_expire event. -/
def isFlowEvent : ndPluginEvent → Bool
  | EVENT_FLOW_EXPIRING _ => true
  | EVENT_FLOW_EXPIRE _ => true
  | _ => false

/-- The default idle times: 30 seconds, 300 seconds for TCP; automatic flow
expiry on, running without sources off. -/
def exConfig : ndGlobalConfig :=
  { ttl_idle_flow := 30, ttl_idle_tcp_flow := 300, auto_flow_expiry := true,
    run_without_sources := false }

/-- All status counters zero. -/
def exStatus : ndInstanceStatus :=
  { flows := 0, flows_prev := 0, flows_purged := 0, flows_expiring := 0,
    flows_expired := 0, flows_active := 0, flows_in_use := 0 }

/-- An instance with the given buckets, one detection thread with id 0 and an
empty queue, and no event broadcast so far. -/
def exInstance (buckets : List (List nd_flow_entry)) : ndInstance :=
  { flow_buckets := buckets, thread_detection := [(0, [])], plugin_events := [],
    expire_calls := [], status := exStatus, terminate := false }

/-- A UDP flow last seen at time 0 and owned by detection thread 0, with the
given lifecycle flags, held under digest 5 by flow object 7 with the given use
count. -/
def exEntry (detection_init detection_complete expiring expired : Bool)
    (use_count : Nat) : nd_flow_entry :=
  { digest := [5], ptr := 7, use_count := use_count,
    flow := { exDhcpFlow 1 with
      dpi_thread_id := 0, ts_last_seen := 0,
      flags := { exFlags with detection_init := detection_init,
                              detection_complete := detection_complete,
                              expiring := expiring, expired := expired } } }

/-- One update tick in the life of a flow: the time of the sweep, and what the
other threads did to the flow object and to the use count of its shared pointer
since the previous sweep. -/
structure UpdateTick where
  now : Int
  touch : nd_flow_entry → nd_flow_entry

/-- The element of the map at the start of a tick: digest and identity stay,
flow object and use count are as the other threads left them. -/
def UpdateTick.entry (t : UpdateTick) (e : nd_flow_entry) : nd_flow_entry :=
  { e with flow := (t.touch e).flow, use_count := (t.touch e).use_count }

/-- A sequence of update ticks seen from one flow: at every tick the body of
the loop of ProcessFlows runs on the flow; once the flow is erased the later
sweeps no longer find it. The result is the instance and, unless the flow was
erased, its element of the map. -/
def runTicks (cfg : ndGlobalConfig) :
    List UpdateTick → ndInstance → nd_flow_entry → ndInstance × Option nd_flow_entry
  | [], inst, e => (inst, some e)
  | t :: ts, inst, e =>
    let r := inst.ProcessFlows_entry cfg t.now (t.entry e)
    match r.2 with
    | none => (r.1, none)
    | some e1 => runTicks cfg ts r.1 e1

/-- A tick at time 1000 before which the other threads dropped every reference
to the flow but the one of the map. -/
def exTickSole : UpdateTick :=
  { now := 1000, touch := fun y => { y with use_count := 1 } }

/-- The capture threads of one interface, eth0, with two thread instances that
have both terminated. -/
def exThreadsFanout : nd_capture_threads :=
  [([101, 116, 104, 48], [⟨true, 0⟩, ⟨true, 0⟩])]

/-- The capture threads of two interfaces: eth0 with two terminated instances
and eth1 with one instance that is still running. -/
def exThreadsMixed : nd_capture_threads :=
  [([101, 116, 104, 48], [⟨true, 0⟩, ⟨true, 0⟩]),
   ([101, 116, 104, 49], [⟨false, 0⟩])]

/-- The capture threads of one interface, eth0, with one thread instance that
is running. -/
def exThreadsSingle : nd_capture_threads :=
  [([101, 116, 104, 48], [⟨false, 0⟩])]

/-- The flow of exDhcpFlow seen over IPv6 (only ip_version differs). -/
def exFlowV6 : ndFlow :=
  { exDhcpFlow 1 with ip_version := 6 }

/-- The address types that the address classifier assigns to an address it
could classify: every type but atNONE and atERROR. -/
def classifiedTypes : List ndAddrType :=
  [atLOCAL, atLOCALNET, atRESERVED, atMULTICAST, atBROADCAST, atOTHER]

/-- The purge loop of ndFlowHashCache::Push, run for n iterations, together
with the number of iterations that took the branch which logs that the index
was not found in the map. Taking back() of an empty list is undefined: none. -/
def ndFlowHashCache.purge_warnings :
    Nat → ndFlowHashCache → Option (ndFlowHashCache × Nat)
  | 0, c => some (c, 0)
  | n + 1, c =>
    match c.index.getLast? with
    | none => none
    | some j =>
      match map_find c.lookup j.first with
      | none =>
        (ndFlowHashCache.purge_warnings n { c with index := c.index.dropLast }).map
          (fun r => (r.1, r.2 + 1))
      | some _ =>
        ndFlowHashCache.purge_warnings n
          { c with lookup := map_erase c.lookup j.first, index := c.index.dropLast }

/-- The cache of capacity 2 after Push of two pairs of digests: the pair pushed
last is at the head. -/
def exSavedPair : ndFlowHashCache :=
  { cache_size := 2,
    index := [⟨1, exDigest 3, exDigest 4⟩, ⟨0, exDigest 1, exDigest 2⟩],
    lookup := [(exDigest 3, 1), (exDigest 1, 0)],
    next_node := 2 }

/-! ## Categories (nd-category.cpp) -/

/-- The type nd_cat_id_t (unsigned). -/
abbrev nd_cat_id_t := Nat

/-- The macro ND_CAT_UNKNOWN. -/
def ND_CAT_UNKNOWN : nd_cat_id_t := 0

/-- The enumeration ndCategories::Type. -/
inductive ndCategoriesType where
  | TYPE_NONE
  | TYPE_APP
  | TYPE_PROTO
  | TYPE_MAX
deriving DecidableEq, Repr

/-- The class ndCategory: the members tag (map from string to nd_cat_id_t) and
index (map from nd_cat_id_t to a set of unsigned), as association lists with
unique keys and the sets as lists. -/
structure ndCategory where
  tag : List (Bytes × nd_cat_id_t)
  index : List (nd_cat_id_t × List Nat)
deriving DecidableEq, Repr

/-- Modelled from the spec: a CIDR prefix in the network index
(ndRadixNetworkEntry is declared in nd-addr.hpp, which is not among the
sources): the address bytes in network order and the length of the prefix in
bits. -/
structure ndRadixNetworkEntry where
  addr : Bytes
  masklen : Nat
deriving DecidableEq, Repr

/-- The class ndCategories: categories (map from Type to ndCategory), domains
(unordered_map from nd_cat_id_t to an unordered_set of strings) in the order
of iteration, and the two network trees behind networks4 and networks6 as the
lists of their (prefix, category) nodes. The mutex is left out: every member
function modelled here holds it from entry to exit. -/
structure ndCategories where
  categories : List (ndCategoriesType × ndCategory)
  domains : List (nd_cat_id_t × List Bytes)
  networks4 : List (ndRadixNetworkEntry × nd_cat_id_t)
  networks6 : List (ndRadixNetworkEntry × nd_cat_id_t)
deriving DecidableEq, Repr

/-- ndCategories::IsMember(Type, nd_cat_id_t, unsigned). -/
def ndCategories.IsMember (c : ndCategories) (type : ndCategoriesType)
    (cat_id : nd_cat_id_t) (id : Nat) : Bool :=
  match c.categories.lookup type with
  | none => false
  | some ci =>
    match ci.index.lookup cat_id with
    | none => false
    | some mi =>
      if id ∉ mi then false
      else false

/-- ndCategories::IsMember(Type, const string &, unsigned). -/
def ndCategories.IsMember_tag (c : ndCategories) (type : ndCategoriesType)
    (cat_tag : Bytes) (id : Nat) : Bool :=
  match c.categories.lookup type with
  | none => false
  | some ci =>
    match ci.tag.lookup cat_tag with
    | none => false
    | some ti =>
      match ci.index.lookup ti with
      | none => false
      | some mi =>
        if id ∉ mi then false
        else true

/-- Member find_first_of of std::string for one character: the position of its
first occurrence, none for npos. -/
def string_find_first_of : Bytes → Nat → Option Nat
  | [], _ => none
  | b :: rest, ch =>
    if b = ch then some 0
    else (string_find_first_of rest ch).map (fun p => p + 1)

/-- The for loop over domains in ndCategories::LookupDotDirectory(const string
&): the key of the first category, in the order of iteration, whose set holds
search; none when the loop ends without a return. -/
def ndCategories.searchDomains :
    List (nd_cat_id_t × List Bytes) → Bytes → Option nd_cat_id_t
  | [], _ => none
  | it :: rest, search =>
    if search ∈ it.2 then some it.1
    else ndCategories.searchDomains rest search

/-- The do-while loop of ndCategories::LookupDotDirectory(const string &) from
the top of its body, with the value of search; 46 is the character '.'. The
first argument bounds the number of iterations; none when it is used up. -/
def ndCategories.LookupDotDirectory_loop (c : ndCategories) :
    Nat → Bytes → Option nd_cat_id_t
  | 0, _ => none
  | fuel + 1, search =>
    match ndCategories.searchDomains c.domains search with
    | some id => some id
    | none =>
      match string_find_first_of search 46 with
      | some p =>
        let search := search.drop (p + 1)
        if search.length ≠ 0 then
          ndCategories.LookupDotDirectory_loop c fuel search
        else some ND_CAT_UNKNOWN
      | none => some ND_CAT_UNKNOWN

/-- ndCategories::LookupDotDirectory(const string &). Every iteration but the
last shortens search, so the length of the domain plus one bounds the number
of iterations. -/
def ndCategories.LookupDotDirectory (c : ndCategories) (domain : Bytes) :
    Option nd_cat_id_t :=
  c.LookupDotDirectory_loop (domain.length + 1) domain

/-- The texts that follow each '.' of a string, from the first '.' on: the
suffixes obtained by repeatedly dropping the text up to and including the
first '.'. -/
def afterDots : Bytes → List Bytes
  | [] => []
  | b :: rest => if b = 46 then rest :: afterDots rest else afterDots rest

/-- The suffixes of a domain as the specification walks them: the domain
itself and then the text after each '.', from longest to shortest. -/
def dotSuffixes (domain : Bytes) : List Bytes :=
  domain :: afterDots domain

/-- The suffixes that the lookup loop searches: the domain itself and every
suffix after a '.' that is not empty. -/
def searchedSuffixes (domain : Bytes) : List Bytes :=
  domain :: (afterDots domain).filter (fun s => decide (s ≠ []))

/-- A string is in the domain set of some category. -/
def inSomeCategory (domains : List (nd_cat_id_t × List Bytes)) (s : Bytes) : Prop :=
  ∃ it ∈ domains, s ∈ it.2

instance (domains : List (nd_cat_id_t × List Bytes)) (s : Bytes) :
    Decidable (inSomeCategory domains s) := by
  unfold inSomeCategory
  infer_instance

/-- The result of the domain lookup as the suffix walk describes it: the
category that the search over the categories finds for the first searched
suffix found in any category, ND_CAT_UNKNOWN when none is found. -/
def specLookupDotDirectory (c : ndCategories) (domain : Bytes) : nd_cat_id_t :=
  ((searchedSuffixes domain).findSome? (ndCategories.searchDomains c.domains)).getD
    ND_CAT_UNKNOWN

/-- Categories as loaded from a category file and a directory: the application
category 1 with the tag adult and the members 5 and 9, no protocol categories,
the domain b.c and the network 10.0.0.0/8 in category 1. -/
def exCategories : ndCategories :=
  { categories :=
      [(ndCategoriesType.TYPE_APP,
          { tag := [([97, 100, 117, 108, 116], 1)], index := [(1, [5, 9])] }),
       (ndCategoriesType.TYPE_PROTO, { tag := [], index := [] })],
    domains := [(1, [[98, 46, 99]])],
    networks4 := [(⟨[10, 0, 0, 0], 8⟩, 1)],
    networks6 := [] }

/-- Categories whose directory file for category 1 held the line dom: with
nothing after the colon, which puts the empty string into the domain set. -/
def exCategoriesEmptyDomain : ndCategories :=
  { exCategories with domains := [(1, [[]])] }

/-- Categories in which the category with the id 0 has the domain a. -/
def exCategoriesZero : ndCategories :=
  { exCategories with domains := [(0, [[97]])] }

/-! ## Utilities (nd-util.cpp) -/

/-- The C library function isalnum in the "C" locale, on a byte value: digits,
upper-case and lower-case ASCII letters. -/
def isalnum (ch : Nat) : Bool :=
  decide ((48 ≤ ch ∧ ch ≤ 57) ∨ (65 ≤ ch ∧ ch ≤ 90) ∨ (97 ≤ ch ∧ ch ≤ 122))

/-- The C library function ispunct in the "C" locale: the printable ASCII
characters that are neither alphanumeric nor the space. -/
def ispunct (ch : Nat) : Bool :=
  decide ((33 ≤ ch ∧ ch ≤ 47) ∨ (58 ≤ ch ∧ ch ≤ 64) ∨ (91 ≤ ch ∧ ch ≤ 96) ∨
    (123 ≤ ch ∧ ch ≤ 126))

/-- The C library function isspace in the "C" locale: space, tab, newline,
vertical tab, form feed and carriage return. -/
def isspace (ch : Nat) : Bool :=
  decide (ch = 32 ∨ (9 ≤ ch ∧ ch ≤ 13))

/-- The C library function tolower in the "C" locale. -/
def tolower (ch : Nat) : Nat :=
  if 65 ≤ ch ∧ ch ≤ 90 then ch + 32 else ch

/-- The character classification of the C library in the locale in effect
(netifyd calls setlocale(LC_ALL, "") at start, so it is the locale of the
environment), on byte values. -/
structure CType where
  isalnum : Nat → Bool
  ispunct : Nat → Bool
  isspace : Nat → Bool
  tolower : Nat → Nat

/-- The classification of the "C" locale, which is also what single bytes get
in a UTF-8 locale. -/
def cLocale : CType :=
  { isalnum := isalnum, ispunct := ispunct, isspace := isspace, tolower := tolower }

/-- The lambda of nd_rtrim: true on the characters at which the search from the
end stops. -/
def nd_rtrim_stop (L : CType) (c : Nat) (ch : Nat) : Bool :=
  if c = 0 then ! L.isspace ch
  else decide (ch ≠ c)

/-- The function nd_rtrim(s, c): everything after the last character on which
the lambda is true is erased. -/
def nd_rtrim (L : CType) (s : Bytes) (c : Nat) : Bytes :=
  s.rdropWhile (fun ch => ! nd_rtrim_stop L c ch)

/-- The loop of the strict branch of nd_set_hostname; the arguments are the
number of iterations left (length - i), the buffer from src + i on, and dst.
Reading past the end of the buffer is undefined: none. The characters 45, 95
and 46 are '-', '_' and '.'. -/
def nd_set_hostname_strict (L : CType) : Nat → Bytes → Bytes → Option Bytes
  | 0, _, dst => some dst
  | _ + 1, [], _ => none
  | n + 1, ch :: rest, dst =>
    if L.isalnum ch ∨ ch = 45 ∨ ch = 95 ∨ ch = 46 then
      nd_set_hostname_strict L n rest (dst ++ [L.tolower ch])
    else some dst

/-- The loop of the other branch of nd_set_hostname, with the same arguments;
32 is the space and 95 the underscore. -/
def nd_set_hostname_loose (L : CType) : Nat → Bytes → Bytes → Option Bytes
  | 0, _, dst => some dst
  | _ + 1, [], _ => none
  | n + 1, ch :: rest, dst =>
    if L.isalnum ch ∨ L.ispunct ch ∨ ch = 32 ∨ ch = 0 then
      if ch = 0 then some (dst ++ [ch])
      else nd_set_hostname_loose L n rest (dst ++ [ch])
    else nd_set_hostname_loose L n rest (dst ++ [95])

/-- The function nd_set_hostname(string &dst, const char *src, size_t length,
bool strict): the value of dst at return, none when the loop reads past the
end of the buffer src. Bytes are the values of unsigned char. -/
def nd_set_hostname (L : CType) (src : Bytes) (length : Nat) (strict : Bool) :
    Option Bytes :=
  let dst : Option Bytes :=
    if strict then nd_set_hostname_strict L length src []
    else nd_set_hostname_loose L length src []
  dst.map (fun dst => nd_rtrim L dst 46)

/-- The characters a strict host name is built from: ASCII letters, digits,
'-', '_' and '.'. -/
def hostnameChar (ch : Nat) : Bool :=
  decide ((48 ≤ ch ∧ ch ≤ 57) ∨ (65 ≤ ch ∧ ch ≤ 90) ∨ (97 ≤ ch ∧ ch ≤ 122) ∨
    ch = 45 ∨ ch = 95 ∨ ch = 46)

/-- The characters of the class [a-z0-9._-]. -/
def hostnameLower (ch : Nat) : Bool :=
  decide ((97 ≤ ch ∧ ch ≤ 122) ∨ (48 ≤ ch ∧ ch ≤ 57) ∨ ch = 46 ∨ ch = 95 ∨ ch = 45)

/-- The sanitized name in the words of the specification: the longest prefix
of the first length bytes that consists of host name characters, in lower
case, with all trailing '.' removed. -/
def specHostname (src : Bytes) (length : Nat) : Bytes :=
  (((src.take length).takeWhile hostnameChar).map tolower).rdropWhile
    (fun ch => decide (ch = 46))

/-- The bytes of the text Www.Example.COM./x. -/
def exHostnameSrc : Bytes :=
  [87, 119, 119, 46, 69, 120, 97, 109, 112, 108, 101, 46, 67, 79, 77, 46, 47, 120]

/-- Member find of std::string for a string argument, from position 0: the
first position at which str occurs, none for npos. The empty string occurs at
position 0 of every string. -/
def string_find : Bytes → Bytes → Option Nat
  | [], str => if str = [] then some 0 else none
  | b :: rest, str =>
    if str.isPrefixOf (b :: rest) then some 0
    else (string_find rest str).map (fun p => p + 1)

/-- Member insert(pos, count, ch) of std::string, for pos within the string. -/
def string_insert (s : Bytes) (pos count ch : Nat) : Bytes :=
  s.take pos ++ List.replicate count ch ++ s.drop pos

/-- Member replace(pos, len, str) of std::string, for pos within the string:
the characters from pos on, at most len of them, give way to str. -/
def string_replace (s : Bytes) (pos len : Nat) (str : Bytes) : Bytes :=
  s.take pos ++ str ++ s.drop (pos + len)

/-- Member erase(pos, len) of std::string, for pos within the string. -/
def string_erase (s : Bytes) (pos len : Nat) : Bytes :=
  s.take pos ++ s.drop (pos + len)

/-- The body of the while loop of nd_expand_variables for the variable (first,
second) found at position p; 32 is the space. -/
def nd_expand_variables_body (output first second : Bytes) (p : Nat) : Bytes :=
  let output :=
    if second.length > first.length then
      string_insert output (p + first.length) (second.length - first.length) 32
    else output
  let output := string_replace output p second.length second
  if second.length < first.length then
    string_erase output (p + second.length) (first.length - second.length)
  else output

/-- The while loop of nd_expand_variables for one variable. The first argument
bounds the number of evaluations of the loop condition; none when it is used
up before the condition fails. -/
def nd_expand_variables_while (first second : Bytes) : Nat → Bytes → Option Bytes
  | 0, _ => none
  | fuel + 1, output =>
    match string_find output first with
    | none => some output
    | some p =>
      nd_expand_variables_while first second fuel
        (nd_expand_variables_body output first second p)

/-- The for loop of nd_expand_variables over the variables, in the order of
iteration of the map (ascending names). -/
def nd_expand_variables_for (fuel : Nat) : List (Bytes × Bytes) → Bytes → Option Bytes
  | [], output => some output
  | var :: rest, output =>
    match nd_expand_variables_while var.1 var.2 fuel output with
    | none => none
    | some output => nd_expand_variables_for fuel rest output

/-- The function nd_expand_variables: the value of output at return; fuel bounds
the iterations of each while loop, and the result is none when a loop has not
ended within the bound. -/
def nd_expand_variables (fuel : Nat) (input : Bytes) (vars : List (Bytes × Bytes)) :
    Option Bytes :=
  let output := input
  nd_expand_variables_for fuel vars output

/-- The variable map with the single variable $a whose value is $ab: the value
contains the name. -/
def exVarsSelf : List (Bytes × Bytes) :=
  [([36, 97], [36, 97, 98])]

/-- The variable map with a, whose value is x, and b, whose value is a. -/
def exVarsChain : List (Bytes × Bytes) :=
  [([97], [120]), ([98], [97])]

/-- The classification of a single-byte ISO-8859-1 locale of the GNU C library
(for instance LANG=fr_FR.ISO-8859-1): next to the ASCII letters and digits the
bytes 170, 181, 186, 192 to 214, 216 to 246 and 248 to 255 are letters, and
tolower maps the upper-case letters 192 to 214 and 216 to 222 to the byte 32
above them. -/
def latin1Locale : CType :=
  { isalnum := fun ch => isalnum ch || decide (ch = 170 ∨ ch = 181 ∨ ch = 186 ∨
      (192 ≤ ch ∧ ch ≤ 214) ∨ (216 ≤ ch ∧ ch ≤ 246) ∨ (248 ≤ ch ∧ ch ≤ 255)),
    ispunct := fun ch => ispunct ch || decide ((161 ≤ ch ∧ ch ≤ 191 ∧ ch ≠ 170 ∧
      ch ≠ 181 ∧ ch ≠ 186) ∨ ch = 215 ∨ ch = 247),
    isspace := isspace,
    tolower := fun ch =>
      if (192 ≤ ch ∧ ch ≤ 214) ∨ (216 ≤ ch ∧ ch ≤ 222) then ch + 32 else tolower ch }

/-- The bytes of the text CAFÉ.fr in ISO-8859-1; the byte 201 is the letter É. -/
def exHostnameLatin1 : Bytes :=
  [67, 65, 70, 201, 46, 102, 114]

/-! # Theorems -/

/-! ## Theorems: flow identity -/

theorem leBytes_length (n v : Nat) : (leBytes n v).length = n := by
  induction n generalizing v with
  | zero => rfl
  | succ n ih => simp [leBytes, ih]

theorem objRepr_length (e : Endian) (n v : Nat) : (objRepr e n v).length = n := by
  cases e <;> simp [objRepr, leBytes_length]

theorem HashCtx_primary (t : Target) (device : Bytes) (f : ndFlow)
    (key : Option Bytes) (key_length : Nat) (hkey : key = none ∨ key_length = 0) :
    (f.HashCtx t device false key key_length).data = specPrimaryInput t device f := by
  have hk : (match key with
      | some k => if key_length > 0 then sha1_write
          (f.HashCtx t device false none 0) (k.take key_length)
          else f.HashCtx t device false none 0
      | none => f.HashCtx t device false none 0) = f.HashCtx t device false none 0 := by
    rcases hkey with h | h
    · subst h; rfl
    · subst h; cases key <;> simp
  have hstep : f.HashCtx t device false key key_length
      = f.HashCtx t device false none 0 := by
    rw [← hk]
    cases key <;> simp [ndFlow.HashCtx]
  rw [hstep]
  unfold ndFlow.HashCtx specPrimaryInput specAddrBytes specIsBroadcast
  by_cases h4 : f.ip_version = 4
  · by_cases hb : f.lower_addr.s_addr = 0 ∧ f.upper_addr.s_addr = 0xffffffff
    · simp [h4, hb, sha1_write, sha1_init]
    · have hb2 : ¬ (f.lower_addr.s_addr = 0 ∧ f.upper_addr.s_addr = 4294967295) := hb
      simp [h4, hb2, sha1_write, sha1_init]
  · by_cases h6 : f.ip_version = 6
    · simp [h6, sha1_write, sha1_init]
    · simp [h4, h6, sha1_write, sha1_init]

theorem Hash_digest_lower (t : Target) (H : Bytes → Bytes) (device : Bytes)
    (f : ndFlow) (key : Option Bytes) (key_length : Nat) :
    (f.Hash t H device false key key_length).digest_lower
      = H (f.HashCtx t device false key key_length).data := by
  simp [ndFlow.Hash, sha1_result]

theorem specPrimaryInput_congr (t : Target) (device : Bytes) (f g : ndFlow)
    (h : sameHashedFields f g) :
    specPrimaryInput t device g = specPrimaryInput t device f := by
  obtain ⟨h1, h2, h3, h4, h5, h6, h7, h8, h9, h10⟩ := h
  simp only [specPrimaryInput, specAddrBytes, specIsBroadcast, ndAddr.in_addr_bytes,
    ndAddr.in6_addr_bytes, ndAddr.port_bytes, h1, h2, h3, h4, h5, h6, h7, h8, h9, h10]

theorem specPrimaryInput_mac (t : Target) (device : Bytes) (f g : ndFlow)
    (h : sameExceptLowerMac f g) (hb : specIsBroadcast f)
    (hmac : f.lower_mac.ll_addr_bytes ≠ g.lower_mac.ll_addr_bytes) :
    specPrimaryInput t device f ≠ specPrimaryInput t device g := by
  obtain ⟨h1, h2, h3, h4, h5, h6, h7, h8, h9⟩ := h
  have hbg : specIsBroadcast g := by
    obtain ⟨b1, b2, b3⟩ := hb
    exact ⟨h1 ▸ b1, h4 ▸ b2, h5 ▸ b3⟩
  intro heq
  apply hmac
  simp only [specPrimaryInput, specAddrBytes, ndAddr.in_addr_bytes,
    ndAddr.in6_addr_bytes, ndAddr.port_bytes, if_pos hb, if_pos hbg,
    ← h1, ← h2, ← h3, ← h4, ← h5, ← h6, ← h7, ← h8, ← h9, List.append_assoc,
    List.append_cancel_left_eq] at heq
  exact List.append_cancel_right heq

/-- C1: ndFlow::Hash with hash_mdata false and no extra key (a null key or a
key length of zero) sets digest_lower to SHA-1 of the interface name, the IP
version, the IP protocol, the VLAN id, the lower and the upper address (4 bytes
each for IPv4, 16 each for IPv6, none otherwise), the 6-byte lower MAC exactly
in the IPv4 case from 0.0.0.0 to 255.255.255.255, the lower port and the upper
port, in this order. Flows that agree on these fields get the same primary
digest whatever their other members are, and two broadcast flows that differ
only in the lower MAC are hashed over different byte strings. -/
theorem ndFlow_Hash_primary_digest (t : Target) (H : Bytes → Bytes) (device : Bytes)
    (f : ndFlow) (key : Option Bytes) (key_length : Nat)
    (hkey : key = none ∨ key_length = 0) :
    (f.Hash t H device false key key_length).digest_lower
        = H (specPrimaryInput t device f) ∧
    (∀ a : ndAddr, (a.in_addr_bytes t.endian).length = 4 ∧
        a.in6_addr_bytes.length = 16 ∧ a.ll_addr_bytes.length = 6 ∧
        (a.port_bytes t.endian).length = 2) ∧
    (∀ g : ndFlow, sameHashedFields f g →
        (g.Hash t H device false key key_length).digest_lower
          = (f.Hash t H device false key key_length).digest_lower) ∧
    (∀ g : ndFlow, sameExceptLowerMac f g → specIsBroadcast f →
        f.lower_mac.ll_addr_bytes ≠ g.lower_mac.ll_addr_bytes →
        (f.HashCtx t device false key key_length).data
          ≠ (g.HashCtx t device false key key_length).data) := by
  refine ⟨?_, ?_, ?_, ?_⟩
  · rw [Hash_digest_lower, HashCtx_primary t device f key key_length hkey]
  · intro a
    refine ⟨objRepr_length _ _ _, ?_, ?_, objRepr_length _ _ _⟩
    · simp [ndAddr.in6_addr_bytes]
    · simp [ndAddr.ll_addr_bytes, ETH_ALEN]
  · intro g hg
    rw [Hash_digest_lower, Hash_digest_lower,
      HashCtx_primary t device f key key_length hkey,
      HashCtx_primary t device g key key_length hkey,
      specPrimaryInput_congr t device f g hg]
  · intro g hg hb hmac
    rw [HashCtx_primary t device f key key_length hkey,
      HashCtx_primary t device g key key_length hkey]
    exact specPrimaryInput_mac t device f g hg hb hmac

theorem ndFlow_Hash_primary_digest_witness :
    ((none : Option Bytes) = none ∨ (0 : Nat) = 0) ∧
    ((exDhcpFlow 0xaa).Hash exTarget id [101, 116, 104, 48] false none 0).digest_lower
      = [101, 116, 104, 48, 4, 17, 0, 0, 0, 0, 0, 0, 255, 255, 255, 255,
         170, 170, 170, 170, 170, 170, 0, 68, 0, 67] ∧
    ((exDhcpFlow 0xaa).HashCtx exTarget [101, 116, 104, 48] false none 0).data
      ≠ ((exDhcpFlow 0xbb).HashCtx exTarget [101, 116, 104, 48] false none 0).data := by
  have h := ndFlow_Hash_primary_digest exTarget id [101, 116, 104, 48]
    (exDhcpFlow 0xaa) none 0 (Or.inl rfl)
  refine ⟨Or.inl rfl, ?_, ?_⟩
  · rw [h.1]
    decide
  · refine h.2.2.2 (exDhcpFlow 0xbb) ?_ ?_ ?_
    · exact ⟨rfl, rfl, rfl, rfl, rfl, rfl, rfl, rfl, rfl⟩
    · exact ⟨rfl, rfl, rfl⟩
    · decide

/-! ## Theorems: flow-hash cache -/

theorem map_find_eq_none {m : nd_fhc_map} {k : Bytes} :
    map_find m k = none ↔ ∀ e ∈ m, e.1 ≠ k := by
  induction m with
  | nil => simp [map_find]
  | cons e rest ih =>
    by_cases h : e.1 = k
    · simp [map_find, h]
    · simp [map_find, h, ih]

theorem map_find_mem {m : nd_fhc_map} {k : Bytes} {v : Nat}
    (h : map_find m k = some v) : (k, v) ∈ m := by
  induction m with
  | nil => simp [map_find] at h
  | cons e rest ih =>
    by_cases he : e.1 = k
    · simp [map_find, he] at h
      subst h
      subst he
      simp
    · simp [map_find, he] at h
      exact List.mem_cons_of_mem _ (ih h)

theorem map_find_of_mem {m : nd_fhc_map} {k : Bytes} {v : Nat}
    (hnd : (m.map Prod.fst).Nodup) (h : (k, v) ∈ m) : map_find m k = some v := by
  induction m with
  | nil => simp at h
  | cons e rest ih =>
    simp only [List.map_cons, List.nodup_cons] at hnd
    rcases List.mem_cons.mp h with h1 | h1
    · subst h1
      simp [map_find]
    · have hne : e.1 ≠ k := by
        intro heq
        apply hnd.1
        rw [heq]
        exact List.mem_map.mpr ⟨(k, v), h1, rfl⟩
      simp [map_find, hne, ih hnd.2 h1]

theorem map_find_perm {m m1 : nd_fhc_map} (hp : m.Perm m1)
    (hnd : (m.map Prod.fst).Nodup) (k : Bytes) : map_find m k = map_find m1 k := by
  have hnd1 : (m1.map Prod.fst).Nodup := (hp.map Prod.fst).nodup_iff.mp hnd
  cases h : map_find m k with
  | none =>
    symm
    rw [map_find_eq_none] at h ⊢
    intro e he
    exact h e (hp.mem_iff.mpr he)
  | some v =>
    symm
    exact map_find_of_mem hnd1 (hp.mem_iff.mp (map_find_mem h))

theorem index_keys_eq (l : nd_fhc_list) :
    (l.map (fun n => (n.first, n.it))).map Prod.fst = l.map (fun n => n.first) := by
  simp [List.map_map, Function.comp_def]

theorem WF_lookup_nodup {c : ndFlowHashCache} (hwf : c.WF) :
    (c.lookup.map Prod.fst).Nodup := by
  obtain ⟨hp, hk, _, _⟩ := hwf
  rw [(hp.map Prod.fst).nodup_iff, index_keys_eq]
  exact hk

theorem WF_find {c : ndFlowHashCache} (hwf : c.WF) (k : Bytes) :
    map_find c.lookup k = map_find (c.index.map (fun n => (n.first, n.it))) k :=
  map_find_perm hwf.1 (WF_lookup_nodup hwf) k

theorem WF_find_none {c : ndFlowHashCache} (hwf : c.WF) (k : Bytes) :
    map_find c.lookup k = none ↔ k ∉ c.index.map (fun n => n.first) := by
  rw [WF_find hwf, map_find_eq_none]
  constructor
  · intro h hk
    obtain ⟨n, hn, he⟩ := List.mem_map.mp hk
    exact h (n.first, n.it) (List.mem_map.mpr ⟨n, hn, rfl⟩) he
  · intro h e he hk
    obtain ⟨n, hn, hne⟩ := List.mem_map.mp he
    subst hne
    exact h (List.mem_map.mpr ⟨n, hn, hk⟩)

theorem WF_find_node {c : ndFlowHashCache} (hwf : c.WF) {n : nd_fhc_node}
    (hn : n ∈ c.index) : map_find c.lookup n.first = some n.it := by
  rw [WF_find hwf]
  apply map_find_of_mem
  · rw [index_keys_eq]
    exact hwf.2.1
  · exact List.mem_map.mpr ⟨n, hn, rfl⟩

theorem WF_length {c : ndFlowHashCache} (hwf : c.WF) :
    c.lookup.length = c.index.length := by
  rw [hwf.1.length_eq, List.length_map]

theorem WF_find_some {c : ndFlowHashCache} (hwf : c.WF) {k : Bytes} {i : Nat}
    (h : map_find c.lookup k = some i) :
    ∃ n ∈ c.index, n.first = k ∧ n.it = i := by
  have hm := hwf.1.mem_iff.mp (map_find_mem h)
  obtain ⟨n, hn, he⟩ := List.mem_map.mp hm
  simp only [Prod.mk.injEq] at he
  exact ⟨n, hn, he.1, he.2⟩

theorem purge_step_WF {c : ndFlowHashCache} (hwf : c.WF) {j : nd_fhc_node}
    (hj : c.index.getLast? = some j) :
    ({ c with lookup := map_erase c.lookup j.first,
              index := c.index.dropLast } : ndFlowHashCache).WF := by
  have hsplit : c.index.dropLast ++ [j] = c.index :=
    List.dropLast_append_getLast? j (by simp [hj])
  obtain ⟨hp, hk, hi, hb⟩ := hwf
  rw [← hsplit] at hp hk hi
  simp only [List.map_append, List.map_cons, List.map_nil] at hp hk hi
  have hk1 := List.nodup_append.mp hk
  have hi1 := List.nodup_append.mp hi
  refine ⟨?_, hk1.1, hi1.1, ?_⟩
  · have hf := hp.filter (fun e => decide (e.1 ≠ j.first))
    have hinit : (c.index.dropLast.map (fun n => (n.first, n.it))).filter
        (fun e => decide (e.1 ≠ j.first))
        = c.index.dropLast.map (fun n => (n.first, n.it)) := by
      apply List.filter_eq_self.mpr
      intro e he
      obtain ⟨n, hn, hne⟩ := List.mem_map.mp he
      subst hne
      have hdis := hk1.2.2
      have : n.first ≠ j.first := by
        intro heq
        exact hdis (List.mem_map.mpr ⟨n, hn, rfl⟩) (by simp [heq])
      simpa using this
    simp only [List.filter_append, hinit] at hf
    simpa [map_erase] using hf
  · intro n hn
    exact hb n (List.mem_of_mem_dropLast hn)

theorem purge_spec (n : Nat) (c : ndFlowHashCache) (hwf : c.WF)
    (hn : n ≤ c.index.length) :
    ∃ c1, c.purge n = some c1 ∧ c1.WF ∧
      c1.index = c.index.take (c.index.length - n) ∧
      c1.cache_size = c.cache_size ∧ c1.next_node = c.next_node := by
  induction n generalizing c with
  | zero => exact ⟨c, rfl, hwf, by simp, rfl, rfl⟩
  | succ n ih =>
    cases hj : c.index.getLast? with
    | none =>
      rw [List.getLast?_eq_none_iff] at hj
      rw [hj] at hn
      simp at hn
    | some j =>
      have hmem : j ∈ c.index := List.mem_of_getLast?_eq_some hj
      have hfind := WF_find_node hwf hmem
      have hwf1 := purge_step_WF hwf hj
      have hlen : n ≤ (c.index.dropLast).length := by
        rw [List.length_dropLast]
        omega
      obtain ⟨c1, h1, h2, h3, h4, h5⟩ := ih _ hwf1 hlen
      refine ⟨c1, ?_, h2, ?_, h4, h5⟩
      · simp only [ndFlowHashCache.purge, hj, hfind]
        exact h1
      · rw [h3]
        show (c.index.dropLast).take ((c.index.dropLast).length - n)
          = c.index.take (c.index.length - (n + 1))
        rw [List.dropLast_eq_take, List.take_take, List.length_take]
        congr 1
        omega

theorem withHead_WF {c : ndFlowHashCache} (hwf : c.WF) {k : Bytes} (v : Bytes)
    (habs : map_find c.lookup k = none) : (c.withHead k v).WF := by
  have hk := (WF_find_none hwf k).mp habs
  obtain ⟨hp, hkn, hin, hb⟩ := hwf
  refine ⟨?_, ?_, ?_, ?_⟩
  · simpa [ndFlowHashCache.withHead] using hp
  · simpa [ndFlowHashCache.withHead] using And.intro (by simpa using hk) hkn
  · have : c.next_node ∉ c.index.map (fun n => n.it) := by
      intro h
      obtain ⟨n, hn, he⟩ := List.mem_map.mp h
      have := hb n hn
      omega
    simpa [ndFlowHashCache.withHead] using And.intro (by simpa using this) hin
  · intro n hn
    simp only [ndFlowHashCache.withHead, List.mem_cons] at hn ⊢
    rcases hn with h | h
    · subst h
      simp
    · have := hb n h
      omega

theorem Push_absent_spec (d : Nat) (c : ndFlowHashCache) (k v : Bytes)
    (hwf : c.WF) (hd : 1 ≤ d) (habs : map_find c.lookup k = none) :
    ∃ c1 : ndFlowHashCache, c1.WF ∧ c1.cache_size = c.cache_size ∧
      c1.next_node = c.next_node ∧
      c1.index = c.survivors d ∧ map_find c1.lookup k = none ∧
      c.Push d k v = some (c1.withHead k v) := by
  have hkey := (WF_find_none hwf k).mp habs
  have hlen := WF_length hwf
  have hd0 : d ≠ 0 := by omega
  by_cases hfull : c.lookup.length = c.cache_size
  · have hq : c.cache_size / d ≤ c.index.length := by
      rw [← hlen, hfull]
      exact Nat.div_le_self _ _
    obtain ⟨c1, h1, h2, h3, h4, h5⟩ := purge_spec (c.cache_size / d) c hwf hq
    have habs1 : map_find c1.lookup k = none := by
      rw [WF_find_none h2, h3]
      intro hmem
      obtain ⟨n, hn, he⟩ := List.mem_map.mp hmem
      exact hkey (List.mem_map.mpr ⟨n, List.mem_of_mem_take hn, he⟩)
    refine ⟨c1, h2, h4, h5, ?_, habs1, ?_⟩
    · simp [ndFlowHashCache.survivors, hfull, h3]
    · simp [ndFlowHashCache.Push, habs, hfull, hd0, h1, ndFlowHashCache.push_front,
        map_assign, habs1, ndFlowHashCache.withHead]
  · refine ⟨c, hwf, rfl, rfl, ?_, habs, ?_⟩
    · simp [ndFlowHashCache.survivors, hfull]
    · simp [ndFlowHashCache.Push, habs, hfull, ndFlowHashCache.push_front,
        map_assign, ndFlowHashCache.withHead]

theorem map_find_assign_self (m : nd_fhc_map) (k : Bytes) (v : Nat) :
    map_find (map_assign m k v) k = some v := by
  unfold map_assign
  cases h : map_find m k with
  | none => simp [map_find]
  | some i =>
    simp only
    induction m with
    | nil => simp [map_find] at h
    | cons e rest ih =>
      by_cases he : e.1 = k
      · simp [map_find, he]
      · simp only [map_find, he, if_false] at h
        simp [map_find, he, ih h]

theorem Pop_present_spec (c : ndFlowHashCache) (key out : Bytes) (i : Nat)
    (hwf : c.WF) (h : map_find c.lookup key = some i) :
    ∃ (pre post : nd_fhc_list) (n : nd_fhc_node) (c1 : ndFlowHashCache),
      c.index = pre ++ n :: post ∧ n.first = key ∧ n.it = i ∧
      c.Pop key out = some (true, n.second, c1) ∧
      c1.index = ⟨c.next_node, key, n.second⟩ :: (pre ++ post) ∧
      c1.cache_size = c.cache_size ∧ c1.WF := by
  obtain ⟨n, hn, hnk, hni⟩ := WF_find_some hwf h
  obtain ⟨pre, post, hsplit⟩ := List.append_of_mem hn
  obtain ⟨hp, hkn, hin, hb⟩ := hwf
  rw [hsplit] at hp hkn hin
  have hpre : ∀ b ∈ pre, ¬ (b.it = i) := by
    intro b hb1 hbi
    simp only [List.map_append, List.map_cons] at hin
    have := (List.nodup_append.mp hin).2.2
    exact this (List.mem_map.mpr ⟨b, hb1, rfl⟩) (by simp [hbi, hni])
  have hderef : list_deref c.index i = some n := by
    unfold list_deref
    rw [hsplit, List.find?_append]
    have h0 : List.find? (fun n => decide (n.it = i)) pre = none := by
      rw [List.find?_eq_none]
      intro b hb1
      simpa using hpre b hb1
    simp [h0, hni]
  have herase : list_erase c.index i = pre ++ post := by
    unfold list_erase
    rw [hsplit, List.eraseP_append_right _ (by simpa using hpre)]
    simp [hni]
  have hkeys : ∀ m ∈ pre ++ post, m.first ≠ key := by
    intro m hm hmk
    have hperm : (pre ++ n :: post).Perm (n :: (pre ++ post)) := List.perm_middle
    have hnd := (hperm.map (fun n => n.first)).nodup_iff.mp hkn
    simp only [List.map_cons, List.nodup_cons] at hnd
    exact hnd.1 (List.mem_map.mpr ⟨m, hm, by rw [hmk, hnk]⟩)
  refine ⟨pre, post, n,
    { cache_size := c.cache_size,
      index := ⟨c.next_node, key, n.second⟩ :: (pre ++ post),
      lookup := map_assign c.lookup key c.next_node,
      next_node := c.next_node + 1 }, hsplit, hnk, hni, ?_, rfl, rfl, ?_⟩
  · simp only [ndFlowHashCache.Pop, h, hderef, herase, ndFlowHashCache.push_front]
  · have hperm : (pre ++ n :: post).Perm (n :: (pre ++ post)) := List.perm_middle
    refine ⟨?_, ?_, ?_, ?_⟩
    · show (map_assign c.lookup key c.next_node).Perm _
      unfold map_assign
      rw [h]
      simp only
      have h1 := (hp.trans (hperm.map _)).map
        (fun e : Bytes × Nat => if e.1 = key then (e.1, c.next_node) else e)
      simp only [List.map_cons, hnk, if_true] at h1
      have h2 : List.map (fun e : Bytes × Nat => if e.1 = key then (e.1, c.next_node) else e)
          (List.map (fun n => (n.first, n.it)) (pre ++ post))
          = List.map (fun n => (n.first, n.it)) (pre ++ post) := by
        rw [List.map_map]
        apply List.map_congr_left
        intro m hm
        simp [hkeys m hm]
      rw [h2] at h1
      simpa using h1
    · have hnd := (hperm.map (fun n => n.first)).nodup_iff.mp hkn
      simpa [hnk] using hnd
    · have hnd := (hperm.map (fun n => n.it)).nodup_iff.mp hin
      simp only [List.map_cons, List.nodup_cons] at hnd ⊢
      refine ⟨?_, hnd.2⟩
      intro hmem
      obtain ⟨m, hm, he⟩ := List.mem_map.mp hmem
      have hm1 : m ∈ c.index := by
        rw [hsplit]
        rcases List.mem_append.mp hm with h3 | h3
        · exact List.mem_append_left _ h3
        · exact List.mem_append_right _ (List.mem_cons_of_mem _ h3)
      have := hb m hm1
      rw [he] at this
      omega
    · intro m hm
      rcases List.mem_cons.mp hm with h3 | h3
      · subst h3
        show c.next_node < c.next_node + 1
        omega
      · have hm1 : m ∈ c.index := by
          rw [hsplit]
          rcases List.mem_append.mp h3 with h4 | h4
          · exact List.mem_append_left _ h4
          · exact List.mem_append_right _ (List.mem_cons_of_mem _ h4)
        have := hb m hm1
        show m.it < c.next_node + 1
        omega

/-- C2: for every consistent cache state, every key the map does not hold and
every purge divisor of at least 1, Push succeeds; when the map holds exactly
cache_size entries the cache_size / fhc_purge_divisor nodes at the tail of the
recency list are removed and nothing else, otherwise nothing is removed; then a
node for (key, value) is inserted at the head. The surviving nodes keep their
identity, key, value and relative order, and the map refers to exactly the
nodes of the new list. -/
theorem ndFlowHashCache_Push_absent (d : Nat) (c : ndFlowHashCache)
    (key value : Bytes) (hwf : c.WF) (hd : 1 ≤ d)
    (habs : map_find c.lookup key = none) :
    ∃ c1 : ndFlowHashCache, c.Push d key value = some c1 ∧
      c1.cache_size = c.cache_size ∧ c1.WF ∧
      (c.lookup.length = c.cache_size →
        c1.index = ⟨c.next_node, key, value⟩ ::
            c.index.take (c.index.length - c.cache_size / d) ∧
        (c.index.drop (c.index.length - c.cache_size / d)).length
            = c.cache_size / d) ∧
      (c.lookup.length ≠ c.cache_size →
        c1.index = ⟨c.next_node, key, value⟩ :: c.index) ∧
      (∀ n ∈ c1.index, map_find c1.lookup n.first = some n.it) ∧
      (∀ k, k ∉ c1.index.map (fun n => n.first) → map_find c1.lookup k = none) := by
  obtain ⟨c0, h1, h2, h3, h4, h5, h6⟩ := Push_absent_spec d c key value hwf hd habs
  have hwf1 := withHead_WF h1 value h5
  refine ⟨c0.withHead key value, h6, h2, hwf1, ?_, ?_, ?_, ?_⟩
  · intro hfull
    constructor
    · simp [ndFlowHashCache.withHead, h3, h4, ndFlowHashCache.survivors, hfull]
    · have hlen := WF_length hwf
      have hq : c.cache_size / d ≤ c.cache_size := Nat.div_le_self _ _
      rw [List.length_drop]
      generalize c.cache_size / d = q at hq ⊢
      omega
  · intro hfull
    simp [ndFlowHashCache.withHead, h3, h4, ndFlowHashCache.survivors, hfull]
  · intro n hn
    exact WF_find_node hwf1 hn
  · intro k hk
    exact (WF_find_none hwf1 k).mpr hk

theorem ndFlowHashCache_Push_absent_witness :
    exCache.WF ∧ 1 ≤ 2 ∧ map_find exCache.lookup [3] = none ∧
    ∃ c1 : ndFlowHashCache, exCache.Push 2 [3] [30] = some c1 ∧
      c1.index = [⟨2, [3], [30]⟩, ⟨1, [2], [20]⟩] := by
  refine ⟨by decide, by decide, by decide, ?_⟩
  obtain ⟨c1, h1, _, _, h4, _⟩ :=
    ndFlowHashCache_Push_absent 2 exCache [3] [30] (by decide) (by decide) (by decide)
  exact ⟨c1, h1, (h4 (by decide)).1⟩

/-- C3: for every cache state and every key the map already holds, Push of that
key with any value returns the cache unchanged (list, map, stored value and
size). Hence Push is idempotent: on every cache, a second Push of the same pair
right after a first one that returned changes nothing. -/
theorem ndFlowHashCache_Push_present (d : Nat) (c : ndFlowHashCache)
    (key value : Bytes) (i : Nat) (hpres : map_find c.lookup key = some i) :
    c.Push d key value = some c ∧
    ∀ (c0 c1 : ndFlowHashCache) (k v : Bytes),
      c0.Push d k v = some c1 → c1.Push d k v = some c1 := by
  constructor
  · simp [ndFlowHashCache.Push, hpres]
  · intro c0 c1 k v h
    cases hf : map_find c0.lookup k with
    | some j =>
      simp only [ndFlowHashCache.Push, hf, Option.some.injEq] at h
      subst h
      simp [ndFlowHashCache.Push, hf]
    | none =>
      simp only [ndFlowHashCache.Push, hf] at h
      split at h
      · simp at h
      · rename_i c2 hc2
        simp only [ndFlowHashCache.push_front, Option.some.injEq] at h
        subst h
        simp [ndFlowHashCache.Push, map_find_assign_self]

theorem ndFlowHashCache_Push_present_witness :
    map_find exCache.lookup [1] = some 0 ∧
    exCache.Push 2 [1] [99] = some exCache := by
  exact ⟨by decide,
    (ndFlowHashCache_Push_present 2 exCache [1] [99] 0 (by decide)).1⟩

/-- C4: for every consistent cache state and key: when the map holds the key,
Pop returns true, outputs the value stored in the list node of the key, and
replaces that node by a new node with the same key and value at the head, the
other nodes keeping their identity, value and relative order (the cache stays
consistent, so the map refers to exactly the nodes of the new list); when the
map does not hold the key, Pop returns false and changes neither the cache nor
the output argument. -/
theorem ndFlowHashCache_Pop_spec (c : ndFlowHashCache) (key out : Bytes)
    (hwf : c.WF) :
    (∀ i, map_find c.lookup key = some i →
      ∃ (pre post : nd_fhc_list) (n : nd_fhc_node) (c1 : ndFlowHashCache),
        c.index = pre ++ n :: post ∧ n.first = key ∧ n.it = i ∧
        c.Pop key out = some (true, n.second, c1) ∧
        c1.index = ⟨c.next_node, key, n.second⟩ :: (pre ++ post) ∧
        c1.cache_size = c.cache_size ∧ c1.WF ∧
        c1.entries.Perm c.entries) ∧
    (map_find c.lookup key = none → c.Pop key out = some (false, out, c)) := by
  constructor
  · intro i h
    obtain ⟨pre, post, n, c1, h1, h2, h3, h4, h5, h6, h7⟩ :=
      Pop_present_spec c key out i hwf h
    refine ⟨pre, post, n, c1, h1, h2, h3, h4, h5, h6, h7, ?_⟩
    unfold ndFlowHashCache.entries
    rw [h5, h1]
    have hperm : (pre ++ n :: post).Perm (n :: (pre ++ post)) := List.perm_middle
    have := (hperm.map (fun n : nd_fhc_node => (n.first, n.second))).symm
    simpa [h2] using this
  · intro h
    simp [ndFlowHashCache.Pop, h]

theorem ndFlowHashCache_Pop_spec_witness :
    exCache.WF ∧
    (∃ c1 : ndFlowHashCache, exCache.Pop [1] [] = some (true, [10], c1) ∧
      c1.index = [⟨2, [1], [10]⟩, ⟨1, [2], [20]⟩]) ∧
    exCache.Pop [7] [5] = some (false, [5], exCache) := by
  refine ⟨by decide, ?_, ?_⟩
  · exact ⟨_, rfl, rfl⟩
  · exact (ndFlowHashCache_Pop_spec exCache [7] [5] (by decide)).2 (by decide)

theorem Push_WF (d : Nat) (c c1 : ndFlowHashCache) (k v : Bytes) (hd : 1 ≤ d)
    (hwf : c.WF) (h : c.Push d k v = some c1) :
    c1.WF ∧ c1.cache_size = c.cache_size := by
  cases hf : map_find c.lookup k with
  | some j =>
    simp only [ndFlowHashCache.Push, hf, Option.some.injEq] at h
    subst h
    exact ⟨hwf, rfl⟩
  | none =>
    obtain ⟨c0, h1, h2, _, _, h5, h6⟩ := Push_absent_spec d c k v hwf hd hf
    rw [h6, Option.some.injEq] at h
    subst h
    exact ⟨withHead_WF h1 v h5, h2⟩

theorem Push_bound (d : Nat) (c c1 : ndFlowHashCache) (k v : Bytes) (hd : 1 ≤ d)
    (hwf : c.WF) (hb : c.index.length ≤ c.cache_size ∨ c.cache_size / d = 0)
    (h : c.Push d k v = some c1) :
    c1.index.length ≤ c1.cache_size ∨ c1.cache_size / d = 0 := by
  cases hf : map_find c.lookup k with
  | some j =>
    simp only [ndFlowHashCache.Push, hf, Option.some.injEq] at h
    subst h
    exact hb
  | none =>
    obtain ⟨c0, h1, h2, _, h4, h5, h6⟩ := Push_absent_spec d c k v hwf hd hf
    rw [h6, Option.some.injEq] at h
    subst h
    have hlen := WF_length hwf
    rcases hb with hb | hb
    · by_cases hq : c.cache_size / d = 0
      · right
        simpa [ndFlowHashCache.withHead, h2] using hq
      · left
        simp only [ndFlowHashCache.withHead, List.length_cons, h4, h2,
          ndFlowHashCache.survivors]
        split
        · rename_i hfull
          rw [List.length_take]
          have hq2 : c.cache_size / d ≤ c.cache_size := Nat.div_le_self _ _
          generalize c.cache_size / d = q at hq hq2 ⊢
          omega
        · rename_i hfull
          omega
    · right
      simpa [ndFlowHashCache.withHead, h2] using hb

theorem Pop_inv (c c1 : ndFlowHashCache) (k out v : Bytes) (r : Bool)
    (hwf : c.WF) (h : c.Pop k out = some (r, v, c1)) :
    c1.WF ∧ c1.cache_size = c.cache_size ∧ c1.index.length = c.index.length := by
  cases hf : map_find c.lookup k with
  | some i =>
    obtain ⟨pre, post, n, c2, h1, _, _, h4, h5, h6, h7⟩ :=
      Pop_present_spec c k out i hwf hf
    rw [h4] at h
    simp only [Option.some.injEq, Prod.mk.injEq] at h
    obtain ⟨_, _, h⟩ := h
    subst h
    refine ⟨h7, h6, ?_⟩
    rw [h5, h1]
    simp
    omega
  | none =>
    simp only [ndFlowHashCache.Pop, hf, Option.some.injEq, Prod.mk.injEq] at h
    obtain ⟨_, _, h⟩ := h
    subst h
    exact ⟨hwf, rfl, rfl⟩

theorem new_WF (cap : Nat) : (ndFlowHashCache.new cap).WF := by
  simp [ndFlowHashCache.WF, ndFlowHashCache.new]

theorem runOps_inv (d : Nat) (hd : 1 ≤ d) (ops : List FhcOp)
    (c c1 : ndFlowHashCache) (hwf : c.WF)
    (hb : c.index.length ≤ c.cache_size ∨ c.cache_size / d = 0)
    (h : runOps d ops c = some c1) :
    c1.WF ∧ c1.cache_size = c.cache_size ∧
      (c1.index.length ≤ c1.cache_size ∨ c1.cache_size / d = 0) := by
  induction ops generalizing c with
  | nil =>
    simp only [runOps, Option.some.injEq] at h
    subst h
    exact ⟨hwf, rfl, hb⟩
  | cons op ops ih =>
    simp only [runOps] at h
    cases hop : op.apply d c with
    | none => simp [hop] at h
    | some c2 =>
      rw [hop] at h
      simp only at h
      cases op with
      | push k v =>
        have hp : c.Push d k v = some c2 := hop
        obtain ⟨hw2, hc2⟩ := Push_WF d c c2 k v hd hwf hp
        have hb2 := Push_bound d c c2 k v hd hwf hb hp
        obtain ⟨a, b, e⟩ := ih c2 hw2 hb2 h
        exact ⟨a, b.trans hc2, e⟩
      | pop k =>
        have hp : (c.Pop k []).map (fun r => r.2.2) = some c2 := hop
        cases hpop : c.Pop k [] with
        | none => simp [hpop] at hp
        | some r =>
          obtain ⟨r1, r2, r3⟩ := r
          rw [hpop] at hp
          simp only [Option.map_some', Option.some.injEq] at hp
          subst hp
          obtain ⟨hw2, hc2, hl2⟩ := Pop_inv c r3 k [] r2 r1 hwf hpop
          have hb2 : r3.index.length ≤ r3.cache_size ∨ r3.cache_size / d = 0 := by
            rw [hl2, hc2]
            exact hb
          obtain ⟨a, b, e⟩ := ih r3 hw2 hb2 h
          exact ⟨a, b.trans hc2, e⟩

theorem Reachable_inv (d cap : Nat) (hd : 1 ≤ d) (c : ndFlowHashCache)
    (h : c.Reachable d cap) :
    c.WF ∧ c.cache_size = cap ∧
      (c.index.length ≤ c.cache_size ∨ c.cache_size / d = 0) := by
  obtain ⟨ops, hops⟩ := h
  exact runOps_inv d hd ops (ndFlowHashCache.new cap) c (new_WF cap)
    (Or.inl (by simp [ndFlowHashCache.new])) hops

theorem index_keys_entries (c : ndFlowHashCache) :
    c.index.map (fun n => n.first) = c.entries.map Prod.fst := by
  simp [ndFlowHashCache.entries, List.map_map, Function.comp_def]

theorem Push_no_purge (d : Nat) (c : ndFlowHashCache) (k v : Bytes) (hd : 1 ≤ d)
    (habs : map_find c.lookup k = none)
    (hq : c.lookup.length ≠ c.cache_size ∨ c.cache_size / d = 0) :
    c.Push d k v = some (c.withHead k v) := by
  have hd0 : d ≠ 0 := by omega
  by_cases hfull : c.lookup.length = c.cache_size
  · have hq0 : c.cache_size / d = 0 := by
      rcases hq with h | h
      · exact absurd hfull h
      · exact h
    simp [ndFlowHashCache.Push, habs, hfull, hd0, hq0, ndFlowHashCache.purge,
      ndFlowHashCache.push_front, map_assign, ndFlowHashCache.withHead]
  · simp [ndFlowHashCache.Push, habs, hfull, ndFlowHashCache.push_front,
      map_assign, ndFlowHashCache.withHead]

theorem runOps_append (d : Nat) (a b : List FhcOp) (c : ndFlowHashCache) :
    runOps d (a ++ b) c = (runOps d a c).bind (runOps d b) := by
  induction a generalizing c with
  | nil => simp [runOps]
  | cons op a ih =>
    simp only [List.cons_append, runOps]
    cases op.apply d c with
    | none => simp
    | some c1 => simp [ih]

theorem pushes_no_purge (d : Nat) (hd : 1 ≤ d) (kvs : List (Bytes × Bytes))
    (c : ndFlowHashCache) (hwf : c.WF) (hnd : (kvs.map Prod.fst).Nodup)
    (hdis : ∀ kv ∈ kvs, kv.1 ∉ c.index.map (fun n => n.first))
    (hq : c.index.length + kvs.length ≤ c.cache_size ∨ c.cache_size / d = 0) :
    ∃ c1 : ndFlowHashCache, runOps d (pushOps kvs) c = some c1 ∧ c1.WF ∧
      c1.cache_size = c.cache_size ∧ c1.entries = kvs.reverse ++ c.entries := by
  induction kvs generalizing c with
  | nil => exact ⟨c, rfl, hwf, rfl, by simp⟩
  | cons kv rest ih =>
    have habs : map_find c.lookup kv.1 = none :=
      (WF_find_none hwf kv.1).mpr (hdis kv (List.mem_cons_self _ _))
    have hlen := WF_length hwf
    have hq1 : c.lookup.length ≠ c.cache_size ∨ c.cache_size / d = 0 := by
      rcases hq with h | h
      · left
        simp only [List.length_cons] at h
        omega
      · exact Or.inr h
    have hpush := Push_no_purge d c kv.1 kv.2 hd habs hq1
    have hwf1 := withHead_WF hwf kv.2 habs
    simp only [List.map_cons, List.nodup_cons] at hnd
    have hdis1 : ∀ e ∈ rest, e.1 ∉ (c.withHead kv.1 kv.2).index.map (fun n => n.first) := by
      intro e he
      simp only [ndFlowHashCache.withHead, List.map_cons, List.mem_cons, not_or]
      constructor
      · intro heq
        exact hnd.1 (List.mem_map.mpr ⟨e, he, heq⟩)
      · exact hdis e (List.mem_cons_of_mem _ he)
    have hq2 : (c.withHead kv.1 kv.2).index.length + rest.length
        ≤ (c.withHead kv.1 kv.2).cache_size ∨ (c.withHead kv.1 kv.2).cache_size / d = 0 := by
      rcases hq with h | h
      · left
        simp only [ndFlowHashCache.withHead, List.length_cons] at h ⊢
        omega
      · exact Or.inr h
    obtain ⟨c1, h1, h2, h3, h4⟩ := ih (c.withHead kv.1 kv.2) hwf1 hnd.2 hdis1 hq2
    refine ⟨c1, ?_, h2, h3, ?_⟩
    · simp only [pushOps, List.map_cons, runOps, FhcOp.apply, hpush]
      exact h1
    · rw [h4]
      simp [ndFlowHashCache.entries, ndFlowHashCache.withHead]

/-- C5: the cache is not bounded by its capacity when the purge amount
cache_size / fhc_purge_divisor is zero. With cache_size 3 and the default
divisor 10, five Push calls with distinct keys all return and leave five
entries in the list and in the map. -/
theorem ndFlowHashCache_exceeds_capacity :
    ∃ c : ndFlowHashCache,
      runOps 10 (pushOps [([1], [11]), ([2], [12]), ([3], [13]), ([4], [14]),
        ([5], [15])]) (ndFlowHashCache.new 3) = some c ∧
      c.cache_size = 3 ∧ c.index.length = 5 ∧ c.lookup.length = 5 ∧
      ¬ (c.index.length ≤ c.cache_size) :=
  ⟨_, rfl, rfl, rfl, rfl, by decide⟩

theorem take_not_mem_drop {α : Type} {l : List α} (hnd : l.Nodup) {q : Nat}
    {a : α} (ha : a ∈ l.take q) : a ∉ l.drop q := by
  rw [← List.take_append_drop q l] at hnd
  exact fun hb => (List.nodup_append.mp hnd).2.2 ha hb

theorem pushes_then_one (cap d : Nat) (init : List (Bytes × Bytes))
    (last : Bytes × Bytes) (hd : 1 ≤ d) (hlen : init.length = cap)
    (hnd : ((init ++ [last]).map Prod.fst).Nodup) :
    ∃ c : ndFlowHashCache,
      runOps d (pushOps (init ++ [last])) (ndFlowHashCache.new cap) = some c ∧
      c.WF ∧
      c.index.map (fun n => n.first)
        = last.1 :: ((init.map Prod.fst).drop (cap / d)).reverse := by
  simp only [List.map_append, List.map_cons, List.map_nil] at hnd
  have hnd1 := List.nodup_append.mp hnd
  obtain ⟨c1, h1, h2, h3, h4⟩ := pushes_no_purge d hd init (ndFlowHashCache.new cap)
    (new_WF cap) hnd1.1 (by simp [ndFlowHashCache.new])
    (Or.inl (by simp [ndFlowHashCache.new, hlen]))
  have hent : c1.entries = init.reverse := by
    rw [h4]
    simp [ndFlowHashCache.entries, ndFlowHashCache.new]
  have hkeys : c1.index.map (fun n => n.first) = (init.map Prod.fst).reverse := by
    rw [index_keys_entries, hent, List.map_reverse]
  have hilen : c1.index.length = cap := by
    have := congrArg List.length hkeys
    simpa [hlen] using this
  have hcs : c1.cache_size = cap := by
    rw [h3]
    rfl
  have hfull : c1.lookup.length = c1.cache_size := by
    rw [WF_length h2, hilen, hcs]
  have habs : map_find c1.lookup last.1 = none := by
    rw [WF_find_none h2, hkeys, List.mem_reverse]
    intro hmem
    exact hnd1.2.2 hmem (by simp)
  obtain ⟨c0, g1, g2, g3, g4, g5, g6⟩ := Push_absent_spec d c1 last.1 last.2 h2 hd habs
  refine ⟨c0.withHead last.1 last.2, ?_, withHead_WF g1 last.2 g5, ?_⟩
  · have hops : pushOps (init ++ [last]) = pushOps init ++ [FhcOp.push last.1 last.2] := by
      simp [pushOps]
    rw [hops, runOps_append, h1]
    simp [runOps, FhcOp.apply, g6]
  · have hq : cap / d ≤ cap := Nat.div_le_self _ _
    simp only [ndFlowHashCache.withHead, List.map_cons, g4, ndFlowHashCache.survivors,
      hfull, if_true, List.map_take, hkeys, hilen, hcs]
    rw [List.take_reverse, List.length_map, hlen]
    congr 3
    generalize cap / d = q at hq ⊢
    omega

/-- C6 as amended: from the empty cache of capacity cap with a purge divisor d
such that 1 ≤ d ≤ cap, the cap + 1 Push calls for pairwise distinct keys all
return, and afterwards Pop misses (returns false and changes nothing) for every
one of the first cap / d pushed keys; there is at least one such key. -/
theorem fhc_lru_eviction (cap d : Nat) (kvs : List (Bytes × Bytes))
    (hd : 1 ≤ d) (hdc : d ≤ cap) (hlen : kvs.length = cap + 1)
    (hnd : (kvs.map Prod.fst).Nodup) :
    ∃ c : ndFlowHashCache,
      runOps d (pushOps kvs) (ndFlowHashCache.new cap) = some c ∧
      (∀ kv ∈ kvs.take (cap / d), ∀ out, c.Pop kv.1 out = some (false, out, c)) ∧
      (∃ kv ∈ kvs.take (cap / d), ∀ out, c.Pop kv.1 out = some (false, out, c)) := by
  have hne : kvs ≠ [] := by
    intro h
    rw [h] at hlen
    simp at hlen
  have hsplit : kvs.dropLast ++ [kvs.getLast hne] = kvs := List.dropLast_append_getLast hne
  have hinit : kvs.dropLast.length = cap := by
    rw [List.length_dropLast, hlen]
    rfl
  rw [← hsplit] at hnd
  obtain ⟨c, h1, h2, h3⟩ :=
    pushes_then_one cap d kvs.dropLast (kvs.getLast hne) hd hinit hnd
  rw [hsplit] at h1
  have hq : cap / d ≤ cap := Nat.div_le_self _ _
  have hq1 : 1 ≤ cap / d := (Nat.one_le_div_iff (by omega)).mpr hdc
  have hall : ∀ kv ∈ kvs.take (cap / d), ∀ out, c.Pop kv.1 out = some (false, out, c) := by
    intro kv hkv out
    have htake : kvs.take (cap / d) = kvs.dropLast.take (cap / d) := by
      conv_lhs => rw [← hsplit]
      exact List.take_append_of_le_length (by omega)
    rw [htake] at hkv
    simp only [List.map_append, List.map_cons, List.map_nil] at hnd
    have hnd1 := List.nodup_append.mp hnd
    have hk1 : kv.1 ∈ (kvs.dropLast.map Prod.fst).take (cap / d) := by
      rw [← List.map_take]
      exact List.mem_map.mpr ⟨kv, hkv, rfl⟩
    have hk2 : kv.1 ∉ (kvs.dropLast.map Prod.fst).drop (cap / d) :=
      take_not_mem_drop hnd1.1 hk1
    have hk3 : kv.1 ≠ (kvs.getLast hne).1 := by
      intro heq
      have hm : kv.1 ∈ kvs.dropLast.map Prod.fst :=
        List.mem_map.mpr ⟨kv, List.mem_of_mem_take hkv, rfl⟩
      exact hnd1.2.2 hm (by simp [heq])
    have habs : map_find c.lookup kv.1 = none := by
      rw [WF_find_none h2, h3]
      simp only [List.mem_cons, List.mem_reverse, not_or]
      exact ⟨hk3, hk2⟩
    simp [ndFlowHashCache.Pop, habs]
  refine ⟨c, h1, hall, ?_⟩
  have hpos : 0 < (kvs.take (cap / d)).length := by
    rw [List.length_take, hlen]
    omega
  obtain ⟨kv, hkv⟩ := List.exists_mem_of_length_pos hpos
  exact ⟨kv, hkv, hall kv hkv⟩

theorem fhc_lru_eviction_witness :
    1 ≤ 2 ∧ 2 ≤ 2 ∧
    ([([1], [10]), ([2], [20]), ([3], [30])] : List (Bytes × Bytes)).length = 2 + 1 ∧
    (([([1], [10]), ([2], [20]), ([3], [30])] : List (Bytes × Bytes)).map Prod.fst).Nodup ∧
    ∃ c : ndFlowHashCache,
      runOps 2 (pushOps [([1], [10]), ([2], [20]), ([3], [30])])
        (ndFlowHashCache.new 2) = some c ∧
      c.Pop [1] [7] = some (false, [7], c) := by
  refine ⟨by decide, by decide, by decide, by decide, ?_⟩
  obtain ⟨c, h1, h2, _⟩ := fhc_lru_eviction 2 2
    [([1], [10]), ([2], [20]), ([3], [30])] (by decide) (by decide) (by decide)
    (by decide)
  exact ⟨c, h1, h2 ([1], [10]) (by decide) [7]⟩

/-- C6 as stated fails: with capacity 1 and purge divisor 2 the purge amount is
1 / 2 = 0, so after 1 + 1 Push calls with distinct keys both keys are still
retrievable via Pop, and none of the first 1 / 2 pushed keys (there is none)
misses. -/
theorem fhc_lru_eviction_counterexample :
    ∃ c : ndFlowHashCache,
      runOps 2 (pushOps [([1], [10]), ([2], [20])]) (ndFlowHashCache.new 1) = some c ∧
      (∃ c1, c.Pop [1] [] = some (true, [10], c1)) ∧
      (∃ c1, c.Pop [2] [] = some (true, [20], c1)) ∧
      ¬ ∃ kv ∈ ([([1], [10]), ([2], [20])] : List (Bytes × Bytes)).take (1 / 2),
          (c.Pop kv.1 []).map (fun r => r.1) = some false :=
  ⟨_, rfl, ⟨_, rfl⟩, ⟨_, rfl⟩, fun ⟨kv, hkv, _⟩ => List.not_mem_nil kv hkv⟩

theorem c_str_read_digest (s : Bytes) (h : s.length = SHA1_DIGEST_LENGTH) :
    c_str_read s SHA1_DIGEST_LENGTH = some s := by
  unfold c_str_read
  rw [if_pos (by omega)]
  congr 1
  rw [List.take_append_of_le_length (by omega), ← h, List.take_length]

theorem SaveLoop_digests (l : nd_fhc_list)
    (h20 : ∀ n ∈ l, n.first.length = SHA1_DIGEST_LENGTH ∧
      n.second.length = SHA1_DIGEST_LENGTH) :
    ndFlowHashCache.SaveLoop l
      = some (specRecords (l.map (fun n => (n.first, n.second)))) := by
  induction l with
  | nil => rfl
  | cons n rest ih =>
    have hn := h20 n (List.mem_cons_self _ _)
    have hrest := ih (fun m hm => h20 m (List.mem_cons_of_mem _ hm))
    simp [ndFlowHashCache.SaveLoop, c_str_read_digest _ hn.1,
      c_str_read_digest _ hn.2, hrest, specRecords]

theorem specRecords_length (l : List (Bytes × Bytes))
    (h20 : ∀ e ∈ l, e.1.length = SHA1_DIGEST_LENGTH ∧ e.2.length = SHA1_DIGEST_LENGTH) :
    (specRecords l).length = SHA1_DIGEST_LENGTH * 2 * l.length := by
  induction l with
  | nil => rfl
  | cons e rest ih =>
    have he := h20 e (List.mem_cons_self _ _)
    have hrest := ih (fun m hm => h20 m (List.mem_cons_of_mem _ hm))
    simp only [specRecords, List.length_append, he.1, he.2, hrest, List.length_cons]
    simp only [SHA1_DIGEST_LENGTH]
    omega

theorem LoadLoop_records (d : Nat) (l : List (Bytes × Bytes)) (fuel : Nat)
    (c : ndFlowHashCache) (hfuel : l.length < fuel)
    (h20 : ∀ e ∈ l, e.1.length = SHA1_DIGEST_LENGTH ∧ e.2.length = SHA1_DIGEST_LENGTH) :
    ndFlowHashCache.LoadLoop d fuel (specRecords l) c = runOps d (pushOps l) c := by
  induction l generalizing fuel c with
  | nil =>
    cases fuel with
    | zero => simp at hfuel
    | succ fuel => simp [ndFlowHashCache.LoadLoop, specRecords, pushOps, runOps,
        SHA1_DIGEST_LENGTH]
  | cons e rest ih =>
    cases fuel with
    | zero => simp at hfuel
    | succ fuel =>
      have he := h20 e (List.mem_cons_self _ _)
      have h20r : ∀ m ∈ rest, m.1.length = SHA1_DIGEST_LENGTH ∧
          m.2.length = SHA1_DIGEST_LENGTH := fun m hm => h20 m (List.mem_cons_of_mem _ hm)
      have hlen : ¬ (specRecords (e :: rest)).length < SHA1_DIGEST_LENGTH * 2 := by
        rw [specRecords_length _ h20]
        simp only [List.length_cons, SHA1_DIGEST_LENGTH]
        omega
      have hrec : specRecords (e :: rest) = (e.1 ++ e.2) ++ specRecords rest := rfl
      have h40 : (e.1 ++ e.2).length = SHA1_DIGEST_LENGTH * 2 := by
        rw [List.length_append, he.1, he.2]
        omega
      have ht : (specRecords (e :: rest)).take (SHA1_DIGEST_LENGTH * 2) = e.1 ++ e.2 := by
        rw [hrec, ← h40, List.take_left]
      have hdr : (specRecords (e :: rest)).drop (SHA1_DIGEST_LENGTH * 2)
          = specRecords rest := by
        rw [hrec, ← h40, List.drop_left]
      have hk : (e.1 ++ e.2).take SHA1_DIGEST_LENGTH = e.1 := by
        rw [← he.1, List.take_left]
      have hv : ((e.1 ++ e.2).drop SHA1_DIGEST_LENGTH).take SHA1_DIGEST_LENGTH = e.2 := by
        have hdrop : (e.1 ++ e.2).drop SHA1_DIGEST_LENGTH = e.2 := by
          rw [← he.1, List.drop_left]
        rw [hdrop, ← he.2, List.take_length]
      have hf : rest.length < fuel := by
        simp only [List.length_cons] at hfuel
        omega
      rw [ndFlowHashCache.LoadLoop, if_neg hlen]
      simp only [ht, hdr, hk, hv, pushOps, List.map_cons, runOps, FhcOp.apply]
      cases c.Push d e.1 e.2 with
      | none => rfl
      | some c1 => exact ih fuel c1 hf h20r

theorem entries_value_unique {l : List (Bytes × Bytes)} (hnd : (l.map Prod.fst).Nodup)
    {k v w : Bytes} (hv : (k, v) ∈ l) (hw : (k, w) ∈ l) : v = w := by
  induction l with
  | nil => simp at hv
  | cons e rest ih =>
    simp only [List.map_cons, List.nodup_cons] at hnd
    rcases List.mem_cons.mp hv with h1 | h1 <;> rcases List.mem_cons.mp hw with h2 | h2
    · rw [← h1] at h2
      exact (Prod.mk.inj h2).2.symm ▸ rfl
    · subst h1
      exact absurd (List.mem_map.mpr ⟨(k, w), h2, rfl⟩) hnd.1
    · subst h2
      exact absurd (List.mem_map.mpr ⟨(k, v), h1, rfl⟩) hnd.1
    · exact ih hnd.2 h1 h2

theorem Pop_view (c : ndFlowHashCache) (key out : Bytes) (hwf : c.WF) :
    (∃ v, (key, v) ∈ c.entries ∧ popAnswer (c.Pop key out) = some (true, v)) ∨
    (key ∉ c.entries.map Prod.fst ∧ popAnswer (c.Pop key out) = some (false, out)) := by
  cases hf : map_find c.lookup key with
  | some i =>
    left
    obtain ⟨pre, post, n, c1, h1, h2, _, h4, _⟩ := Pop_present_spec c key out i hwf hf
    refine ⟨n.second, ?_, ?_⟩
    · unfold ndFlowHashCache.entries
      rw [h1]
      exact List.mem_map.mpr ⟨n, by simp, by rw [h2]⟩
    · rw [h4]
      rfl
  | none =>
    right
    refine ⟨?_, ?_⟩
    · rw [← index_keys_entries]
      exact (WF_find_none hwf key).mp hf
    · simp [ndFlowHashCache.Pop, hf, popAnswer]

theorem Pop_answer_perm (c c2 : ndFlowHashCache) (hwf : c.WF) (hwf2 : c2.WF)
    (hperm : c2.entries.Perm c.entries) (key out : Bytes) :
    popAnswer (c2.Pop key out) = popAnswer (c.Pop key out) := by
  have hnd : (c.entries.map Prod.fst).Nodup := by
    rw [← index_keys_entries]
    exact hwf.2.1
  rcases Pop_view c key out hwf with ⟨v, hv, ha⟩ | ⟨hk, ha⟩ <;>
    rcases Pop_view c2 key out hwf2 with ⟨v2, hv2, ha2⟩ | ⟨hk2, ha2⟩
  · rw [ha, ha2, entries_value_unique hnd hv (hperm.mem_iff.mp hv2)]
  · exact absurd (List.mem_map.mpr ⟨(key, v), hperm.mem_iff.mpr hv, rfl⟩) hk2
  · exact absurd (List.mem_map.mpr ⟨(key, v2), hperm.mem_iff.mp hv2, rfl⟩) hk
  · rw [ha, ha2]

theorem Load_saved (d cap : Nat) (c : ndFlowHashCache) (mode : nd_fhc_save)
    (hd : 1 ≤ d) (hreach : c.Reachable d cap)
    (hmode : mode ≠ nd_fhc_save.ndFHC_DISABLED)
    (h20 : ∀ n ∈ c.index, n.first.length = SHA1_DIGEST_LENGTH ∧
      n.second.length = SHA1_DIGEST_LENGTH) :
    ∃ c2 : ndFlowHashCache,
      ndFlowHashCache.Load d mode (some (specRecords c.entries))
        (ndFlowHashCache.new cap) = some c2 ∧
      c2.WF ∧ c2.cache_size = cap ∧ c2.entries = c.entries.reverse := by
  obtain ⟨hwf, hcap, hb⟩ := Reachable_inv d cap hd c hreach
  have h20e : ∀ e ∈ c.entries, e.1.length = SHA1_DIGEST_LENGTH ∧
      e.2.length = SHA1_DIGEST_LENGTH := by
    intro e he
    obtain ⟨n, hn, hne⟩ := List.mem_map.mp he
    subst hne
    exact h20 n hn
  have hnd : (c.entries.map Prod.fst).Nodup := by
    rw [← index_keys_entries]
    exact hwf.2.1
  have hlenE : c.entries.length = c.index.length := by
    simp [ndFlowHashCache.entries]
  obtain ⟨c2, h1, h2, h3, h4⟩ := pushes_no_purge d hd c.entries
    (ndFlowHashCache.new cap) (new_WF cap) hnd (by simp [ndFlowHashCache.new])
    (by
      rcases hb with h | h
      · left
        simp only [ndFlowHashCache.new, List.length_nil, hlenE]
        omega
      · right
        simpa [ndFlowHashCache.new, hcap] using h)
  refine ⟨c2, ?_, h2, h3, ?_⟩
  · have hfuel : c.entries.length
        < (specRecords c.entries).length / (SHA1_DIGEST_LENGTH * 2) + 1 := by
      rw [specRecords_length _ h20e, Nat.mul_div_cancel_left _ (by decide)]
      omega
    cases mode with
    | ndFHC_DISABLED => exact absurd rfl hmode
    | ndFHC_PERSISTENT =>
      simp only [ndFlowHashCache.Load]
      rw [LoadLoop_records d _ _ _ hfuel h20e]
      exact h1
    | ndFHC_VOLATILE =>
      simp only [ndFlowHashCache.Load]
      rw [LoadLoop_records d _ _ _ hfuel h20e]
      exact h1
  · rw [h4]
    simp [ndFlowHashCache.entries, ndFlowHashCache.new]

/-- C7: for every purge divisor of at least 1 and every cache that Push and Pop
calls produce from the empty cache of capacity cap, whose keys and values are
all 20-byte digests, with saving enabled and the file opened: Save writes the
headerless sequence of 40-byte records, key followed by value, one per entry
from the head of the recency list on; and Load of these bytes into an empty
cache of the same capacity returns a cache in which Pop gives, for every key,
the same hit or miss answer and the same value as in the saved cache. -/
theorem fhc_save_load_roundtrip (d cap : Nat) (c : ndFlowHashCache)
    (mode : nd_fhc_save) (hd : 1 ≤ d) (hreach : c.Reachable d cap)
    (hmode : mode ≠ nd_fhc_save.ndFHC_DISABLED)
    (h20 : ∀ n ∈ c.index, n.first.length = SHA1_DIGEST_LENGTH ∧
      n.second.length = SHA1_DIGEST_LENGTH) :
    c.Save mode true = SaveResult.written (specRecords c.entries) ∧
    (specRecords c.entries).length = 40 * c.index.length ∧
    ∃ c2 : ndFlowHashCache,
      ndFlowHashCache.Load d mode (some (specRecords c.entries))
        (ndFlowHashCache.new cap) = some c2 ∧
      c2.cache_size = c.cache_size ∧
      ∀ key out, popAnswer (c2.Pop key out) = popAnswer (c.Pop key out) := by
  obtain ⟨hwf, hcap, _⟩ := Reachable_inv d cap hd c hreach
  refine ⟨?_, ?_, ?_⟩
  · have hs := SaveLoop_digests c.index h20
    cases mode with
    | ndFHC_DISABLED => exact absurd rfl hmode
    | ndFHC_PERSISTENT => simp [ndFlowHashCache.Save, hs, ndFlowHashCache.entries]
    | ndFHC_VOLATILE => simp [ndFlowHashCache.Save, hs, ndFlowHashCache.entries]
  · have h20e : ∀ e ∈ c.entries, e.1.length = SHA1_DIGEST_LENGTH ∧
        e.2.length = SHA1_DIGEST_LENGTH := by
      intro e he
      obtain ⟨n, hn, hne⟩ := List.mem_map.mp he
      subst hne
      exact h20 n hn
    rw [specRecords_length _ h20e]
    simp [ndFlowHashCache.entries, SHA1_DIGEST_LENGTH]
  · obtain ⟨c2, h1, h2, h3, h4⟩ := Load_saved d cap c mode hd hreach hmode h20
    refine ⟨c2, h1, by rw [h3, hcap], ?_⟩
    intro key out
    apply Pop_answer_perm c c2 hwf h2
    rw [h4]
    exact List.reverse_perm _

theorem fhc_save_load_roundtrip_witness :
    1 ≤ 10 ∧ exSavedCache.Reachable 10 2 ∧
    nd_fhc_save.ndFHC_PERSISTENT ≠ nd_fhc_save.ndFHC_DISABLED ∧
    (∀ n ∈ exSavedCache.index, n.first.length = SHA1_DIGEST_LENGTH ∧
      n.second.length = SHA1_DIGEST_LENGTH) ∧
    exSavedCache.Save nd_fhc_save.ndFHC_PERSISTENT true
      = SaveResult.written (exDigest 1 ++ exDigest 2) := by
  have hr : exSavedCache.Reachable 10 2 :=
    ⟨[FhcOp.push (exDigest 1) (exDigest 2)], rfl⟩
  have h20 : ∀ n ∈ exSavedCache.index, n.first.length = SHA1_DIGEST_LENGTH ∧
      n.second.length = SHA1_DIGEST_LENGTH := by decide
  refine ⟨by decide, hr, by decide, h20, ?_⟩
  have h := (fhc_save_load_roundtrip 10 2 exSavedCache nd_fhc_save.ndFHC_PERSISTENT
    (by decide) hr (by decide) h20).1
  rw [h]
  rfl

/-! ## Theorems: sharded flow map -/

theorem HashToBucket_lt (m : ndFlowMap) (hwf : m.WF) (d : Bytes) :
    m.HashToBucket d < m.buckets :=
  Nat.mod_lt _ hwf.1

theorem set_restore (l : List Bool) (b : Nat) (x y : Bool) (h : l.get? b = some x) :
    (l.set b y).set b x = l := by
  rw [List.get?_eq_getElem?] at h
  apply List.ext_getElem?
  intro i
  by_cases hi : b = i
  · subst hi
    rw [List.getElem?_set_self', List.getElem?_set_self', h]
    rfl
  · rw [List.getElem?_set_ne hi, List.getElem?_set_ne hi]

theorem get?_set_same (l : List Bool) (b : Nat) (x y : Bool) (h : l.get? b = some x) :
    (l.set b y).get? b = some y := by
  rw [List.get?_eq_getElem?] at h ⊢
  rw [List.getElem?_set_self', h]
  rfl

theorem bucket_get (m : ndFlowMap) (hwf : m.WF) (d : Bytes) :
    ∃ bk, m.bucket.get? (m.HashToBucket d) = some bk := by
  have h := HashToBucket_lt m hwf d
  have h2 : m.HashToBucket d < m.bucket.length := by
    rw [hwf.2.1]
    exact h
  exact ⟨m.bucket.get ⟨_, h2⟩, List.get?_eq_get h2⟩

theorem Lookup_release_spec (m : ndFlowMap) (d : Bytes) (hwf : m.WF)
    (hfree : m.lockFree (m.HashToBucket d)) :
    m.Lookup d false = Except.ok (lookupResult (m.entry d),
      { m with lock_log := m.lock_log ++
          [⟨m.HashToBucket d, true⟩, ⟨m.HashToBucket d, false⟩] }) := by
  obtain ⟨bk, hbk⟩ := bucket_get m hwf d
  unfold ndFlowMap.lockFree at hfree
  have h1 := get?_set_same m.bucket_lock _ false true hfree
  have h2 := set_restore m.bucket_lock _ false true hfree
  simp only [ndFlowMap.Lookup, ndFlowMap.mutex_lock, hfree, hbk, ndFlowMap.mutex_unlock,
    h1, h2, ndFlowMap.entry, lookupResult]
  simp

theorem Lookup_acquire_spec (m : ndFlowMap) (d : Bytes) (hwf : m.WF)
    (hfree : m.lockFree (m.HashToBucket d)) :
    m.Lookup d true = Except.ok (lookupResult (m.entry d),
      { m with bucket_lock := m.bucket_lock.set (m.HashToBucket d) true,
               lock_log := m.lock_log ++ [⟨m.HashToBucket d, true⟩] }) := by
  obtain ⟨bk, hbk⟩ := bucket_get m hwf d
  unfold ndFlowMap.lockFree at hfree
  simp only [ndFlowMap.Lookup, ndFlowMap.mutex_lock, hfree, hbk, ndFlowMap.entry,
    lookupResult]
  simp

theorem Insert_locking_spec (m : ndFlowMap) (d : Bytes) (f : nd_flow_ptr)
    (bk : nd_flow_map) (hbk : m.bucket.get? (m.HashToBucket d) = some bk)
    (hfree : m.lockFree (m.HashToBucket d)) :
    m.Insert d f false = Except.ok ((flow_insert bk (d, f)).2,
      { m with bucket := m.bucket.set (m.HashToBucket d) (flow_insert bk (d, f)).1,
               lock_log := m.lock_log ++
                 [⟨m.HashToBucket d, true⟩, ⟨m.HashToBucket d, false⟩] }) := by
  unfold ndFlowMap.lockFree at hfree
  have h1 := get?_set_same m.bucket_lock _ false true hfree
  have h2 := set_restore m.bucket_lock _ false true hfree
  simp only [List.get?_eq_getElem?] at hbk hfree h1
  simp [ndFlowMap.Insert, ndFlowMap.mutex_lock, hfree, hbk, ndFlowMap.mutex_unlock,
    h1, h2]

theorem Insert_unlocked_spec (m : ndFlowMap) (d : Bytes) (f : nd_flow_ptr)
    (bk : nd_flow_map) (hbk : m.bucket.get? (m.HashToBucket d) = some bk) :
    m.Insert d f true = Except.ok ((flow_insert bk (d, f)).2,
      { m with bucket := m.bucket.set (m.HashToBucket d) (flow_insert bk (d, f)).1 }) := by
  simp only [List.get?_eq_getElem?] at hbk
  simp [ndFlowMap.Insert, hbk]

theorem Delete_spec (m : ndFlowMap) (d : Bytes)
    (bk : nd_flow_map) (hbk : m.bucket.get? (m.HashToBucket d) = some bk)
    (hfree : m.lockFree (m.HashToBucket d)) :
    m.Delete d = Except.ok ((flow_find bk d).isSome,
      { m with bucket := if (flow_find bk d).isSome
                 then m.bucket.set (m.HashToBucket d) (flow_erase bk d) else m.bucket,
               lock_log := m.lock_log ++
                 [⟨m.HashToBucket d, true⟩, ⟨m.HashToBucket d, false⟩] }) := by
  unfold ndFlowMap.lockFree at hfree
  have h1 := get?_set_same m.bucket_lock _ false true hfree
  have h2 := set_restore m.bucket_lock _ false true hfree
  simp only [List.get?_eq_getElem?] at hbk hfree h1
  cases hf : flow_find bk d with
  | none =>
    simp [ndFlowMap.Delete, ndFlowMap.mutex_lock, hfree, hbk, hf,
      ndFlowMap.mutex_unlock, h1, h2]
  | some p =>
    simp [ndFlowMap.Delete, ndFlowMap.mutex_lock, hfree, hbk, hf,
      ndFlowMap.mutex_unlock, h1, h2]

theorem Release_spec (m : ndFlowMap) (d : Bytes) (hwf : m.WF)
    (hheld : m.lockHeld (m.HashToBucket d)) :
    m.Release d = Except.ok
      { m with bucket_lock := m.bucket_lock.set (m.HashToBucket d) false,
               lock_log := m.lock_log ++ [⟨m.HashToBucket d, false⟩] } := by
  have hlt := HashToBucket_lt m hwf d
  unfold ndFlowMap.lockHeld at hheld
  have hge : ¬ (m.HashToBucket d ≥ m.buckets) := by omega
  simp only [ndFlowMap.Release, ndFlowMap.ReleaseBucket, if_neg hge,
    ndFlowMap.mutex_unlock, hheld]

theorem flow_find_insert_self (bk : nd_flow_map) (d : Bytes) (f : nd_flow_ptr) :
    flow_find (flow_insert bk (d, f)).1 d
      = (match flow_find bk d with
         | some p => some p
         | none => some f) := by
  unfold flow_insert
  cases h : flow_find bk d with
  | none => simp [flow_find]
  | some p => simp [h]

theorem flow_find_insert_other (bk : nd_flow_map) (d d2 : Bytes) (f : nd_flow_ptr)
    (hne : d2 ≠ d) : flow_find (flow_insert bk (d, f)).1 d2 = flow_find bk d2 := by
  unfold flow_insert
  cases h : flow_find bk d with
  | none => simp [flow_find, Ne.symm hne]
  | some p => simp

theorem flow_find_erase_self (bk : nd_flow_map) (d : Bytes) :
    flow_find (flow_erase bk d) d = none := by
  induction bk with
  | nil => rfl
  | cons e rest ih =>
    by_cases he : e.1 = d
    · simpa [flow_erase, he] using ih
    · have : flow_erase (e :: rest) d = e :: flow_erase rest d := by
        simp [flow_erase, he]
      rw [this]
      simp [flow_find, he, ih]

theorem flow_find_erase_other (bk : nd_flow_map) (d d2 : Bytes) (hne : d2 ≠ d) :
    flow_find (flow_erase bk d) d2 = flow_find bk d2 := by
  induction bk with
  | nil => rfl
  | cons e rest ih =>
    by_cases he : e.1 = d
    · have h2 : e.1 ≠ d2 := by
        rw [he]
        exact Ne.symm hne
      have : flow_erase (e :: rest) d = flow_erase rest d := by
        simp [flow_erase, he]
      rw [this]
      simpa [flow_find, h2] using ih
    · have : flow_erase (e :: rest) d = e :: flow_erase rest d := by
        simp [flow_erase, he]
      rw [this]
      by_cases h2 : e.1 = d2
      · simp [flow_find, h2]
      · simpa [flow_find, h2] using ih

theorem entry_after_set (m m1 : ndFlowMap) (b : Nat) (bk bk1 : nd_flow_map)
    (hb : m.bucket.get? b = some bk) (h1 : m1.buckets = m.buckets)
    (h2 : m1.bucket = m.bucket.set b bk1) (d2 : Bytes) :
    m1.entry d2 = if m.HashToBucket d2 = b then flow_find bk1 d2 else m.entry d2 := by
  have hh : m1.HashToBucket d2 = m.HashToBucket d2 := by
    simp [ndFlowMap.HashToBucket, h1]
  simp only [List.get?_eq_getElem?] at hb
  unfold ndFlowMap.entry
  rw [hh, h2]
  by_cases hc : m.HashToBucket d2 = b
  · simp [hc, List.getElem?_set_self', hb]
  · simp [hc, List.getElem?_set_ne (Ne.symm hc)]

theorem entry_eq_find (m : ndFlowMap) (d : Bytes) (bk : nd_flow_map)
    (hb : m.bucket.get? (m.HashToBucket d) = some bk) :
    m.entry d = flow_find bk d := by
  unfold ndFlowMap.entry
  rw [hb]

theorem Lookup_returns (m : ndFlowMap) (d : Bytes) (a : Bool) (hwf : m.WF)
    (hfree : m.lockFree (m.HashToBucket d)) :
    ∃ m2, m.Lookup d a = Except.ok (lookupResult (m.entry d), m2) := by
  cases a with
  | false => exact ⟨_, Lookup_release_spec m d hwf hfree⟩
  | true => exact ⟨_, Lookup_acquire_spec m d hwf hfree⟩

theorem Insert_returns (m : ndFlowMap) (d : Bytes) (f : nd_flow_ptr)
    (unlocked : Bool) (bk : nd_flow_map)
    (hbk : m.bucket.get? (m.HashToBucket d) = some bk)
    (hlock : unlocked = false → m.lockFree (m.HashToBucket d)) :
    ∃ m1 : ndFlowMap, m.Insert d f unlocked
        = Except.ok ((flow_insert bk (d, f)).2, m1) ∧
      m1.buckets = m.buckets ∧ m1.bucket_lock = m.bucket_lock ∧
      m1.bucket = m.bucket.set (m.HashToBucket d) (flow_insert bk (d, f)).1 := by
  cases unlocked with
  | false => exact ⟨_, Insert_locking_spec m d f bk hbk (hlock rfl), rfl, rfl, rfl⟩
  | true => exact ⟨_, Insert_unlocked_spec m d f bk hbk, rfl, rfl, rfl⟩

/-- C8: for every flow map with at least one bucket, digest d and flow pointer
f, with the lock of the bucket of d free unless the caller states to hold it:
Insert returns, and returns true exactly when no entry with digest d was
present. When it returns true the entry of d is f and a following Lookup of d
returns f; when it returns false the entry of d is the one stored before and
Lookup returns the pointer stored before. The entries under every other digest,
the number of buckets and the state of the locks are unchanged. -/
theorem ndFlowMap_Insert_spec (m : ndFlowMap) (d : Bytes) (f : nd_flow_ptr)
    (unlocked : Bool) (hwf : m.WF)
    (hlock : unlocked = false → m.lockFree (m.HashToBucket d)) :
    ∃ (r : Bool) (m1 : ndFlowMap), m.Insert d f unlocked = Except.ok (r, m1) ∧
      (r = true ↔ m.entry d = none) ∧
      (r = true → m1.entry d = some f ∧
        ∀ a, m1.lockFree (m1.HashToBucket d) →
          ∃ m2, m1.Lookup d a = Except.ok (f, m2)) ∧
      (r = false → m1.entry d = m.entry d ∧
        ∀ a, m1.lockFree (m1.HashToBucket d) →
          ∃ m2, m1.Lookup d a = Except.ok (lookupResult (m.entry d), m2)) ∧
      (∀ d2, d2 ≠ d → m1.entry d2 = m.entry d2) ∧
      m1.buckets = m.buckets ∧ m1.bucket.length = m.bucket.length ∧
      m1.bucket_lock = m.bucket_lock ∧ m1.WF := by
  obtain ⟨bk, hbk⟩ := bucket_get m hwf d
  obtain ⟨m1, h1, h2, h3, h4⟩ := Insert_returns m d f unlocked bk hbk hlock
  have hent := entry_eq_find m d bk hbk
  have hset := entry_after_set m m1 _ bk _ hbk h2 h4
  have hlen : m1.bucket.length = m.bucket.length := by
    rw [h4, List.length_set]
  have hwf1 : m1.WF := by
    obtain ⟨w1, w2, w3⟩ := hwf
    exact ⟨h2 ▸ w1, by rw [hlen, w2, h2], by rw [h3, w3, h2]⟩
  have hself : m1.entry d = (match flow_find bk d with
      | some p => some p
      | none => some f) := by
    rw [hset d, if_pos rfl, flow_find_insert_self]
  refine ⟨_, m1, h1, ?_, ?_, ?_, ?_, h2, hlen, h3, hwf1⟩
  · rw [hent]
    unfold flow_insert
    cases flow_find bk d <;> simp
  · intro hr
    have hnone : flow_find bk d = none := by
      unfold flow_insert at hr
      cases hf : flow_find bk d with
      | none => rfl
      | some p => simp [hf] at hr
    have he1 : m1.entry d = some f := by
      rw [hself, hnone]
    refine ⟨he1, ?_⟩
    intro a hfree
    obtain ⟨m2, hm2⟩ := Lookup_returns m1 d a hwf1 hfree
    rw [he1] at hm2
    exact ⟨m2, hm2⟩
  · intro hr
    have hsome : ∃ p, flow_find bk d = some p := by
      unfold flow_insert at hr
      cases hf : flow_find bk d with
      | none => simp [hf] at hr
      | some p => exact ⟨p, rfl⟩
    obtain ⟨p, hp⟩ := hsome
    have he1 : m1.entry d = m.entry d := by
      rw [hself, hent, hp]
    refine ⟨he1, ?_⟩
    intro a hfree
    obtain ⟨m2, hm2⟩ := Lookup_returns m1 d a hwf1 hfree
    rw [he1] at hm2
    exact ⟨m2, hm2⟩
  · intro d2 hne
    rw [hset d2]
    by_cases hc : m.HashToBucket d2 = m.HashToBucket d
    · rw [if_pos hc, flow_find_insert_other bk d d2 f hne]
      unfold ndFlowMap.entry
      rw [hc, hbk]
    · rw [if_neg hc]

theorem ndFlowMap_Insert_spec_witness :
    exFlowMap.WF ∧ exFlowMap.lockFree (exFlowMap.HashToBucket [9, 2]) ∧
    ∃ (m1 : ndFlowMap), exFlowMap.Insert [9, 2] (some 8) false = Except.ok (true, m1) ∧
      m1.entry [9, 2] = some (some 8) ∧ m1.entry [5, 1] = some (some 7) := by
  refine ⟨by decide, by decide, ?_⟩
  obtain ⟨r, m1, h1, h2, h3, _, h5, _⟩ :=
    ndFlowMap_Insert_spec exFlowMap [9, 2] (some 8) false (by decide) (fun _ => by decide)
  have hr : r = true := h2.mpr (by decide)
  subst hr
  exact ⟨m1, h1, (h3 rfl).1, by rw [h5 [5, 1] (by decide)]; decide⟩

theorem entry_congr (m m1 : ndFlowMap) (h1 : m1.buckets = m.buckets)
    (h2 : m1.bucket = m.bucket) (d : Bytes) : m1.entry d = m.entry d := by
  simp [ndFlowMap.entry, ndFlowMap.HashToBucket, h1, h2]

/-- C9: for every flow map with at least one bucket and digest d, with the lock
of the bucket of d free: Delete returns, and returns true exactly when an entry
with digest d was present; afterwards there is no entry under d and Lookup of d
returns the null pointer, and the entries under every other digest, the number
of buckets and the state of the locks are unchanged. When d was absent Delete
returns false and buckets, entries and locks are all unchanged. -/
theorem ndFlowMap_Delete_spec (m : ndFlowMap) (d : Bytes) (hwf : m.WF)
    (hfree : m.lockFree (m.HashToBucket d)) :
    ∃ (r : Bool) (m1 : ndFlowMap), m.Delete d = Except.ok (r, m1) ∧
      (r = true ↔ ∃ p, m.entry d = some p) ∧
      m1.entry d = none ∧
      (∀ a, ∃ m2, m1.Lookup d a = Except.ok (none, m2)) ∧
      (∀ d2, d2 ≠ d → m1.entry d2 = m.entry d2) ∧
      (m.entry d = none → r = false ∧ m1.bucket = m.bucket) ∧
      m1.buckets = m.buckets ∧ m1.bucket_lock = m.bucket_lock ∧ m1.WF := by
  obtain ⟨bk, hbk⟩ := bucket_get m hwf d
  have hdel := Delete_spec m d bk hbk hfree
  have hent := entry_eq_find m d bk hbk
  cases hf : flow_find bk d with
  | none =>
    rw [hf] at hdel
    simp only [Option.isSome_none, Bool.false_eq_true, if_false] at hdel
    have hwf1 : ({ m with lock_log := m.lock_log ++
        [⟨m.HashToBucket d, true⟩, ⟨m.HashToBucket d, false⟩] } : ndFlowMap).WF := hwf
    have he1 : ({ m with lock_log := m.lock_log ++
        [⟨m.HashToBucket d, true⟩, ⟨m.HashToBucket d, false⟩] } : ndFlowMap).entry d
        = none := (entry_congr _ m rfl rfl d).trans (hent.trans hf)
    refine ⟨false, _, hdel, ?_, he1, ?_, ?_, ?_, rfl, rfl, hwf1⟩
    · rw [hent, hf]
      simp
    · intro a
      obtain ⟨m2, hm2⟩ := Lookup_returns _ d a hwf1 hfree
      rw [he1] at hm2
      exact ⟨m2, hm2⟩
    · intro d2 _
      exact entry_congr _ m rfl rfl d2
    · intro _
      exact ⟨rfl, rfl⟩
  | some p =>
    rw [hf] at hdel
    simp only [Option.isSome_some, if_true] at hdel
    have hwf1 : ({ m with
        bucket := m.bucket.set (m.HashToBucket d) (flow_erase bk d),
        lock_log := m.lock_log ++
          [⟨m.HashToBucket d, true⟩, ⟨m.HashToBucket d, false⟩] } : ndFlowMap).WF := by
      obtain ⟨w1, w2, w3⟩ := hwf
      exact ⟨w1, by simpa using w2, w3⟩
    have hset := entry_after_set m _ _ bk (flow_erase bk d) hbk
      (rfl : ({ m with
        bucket := m.bucket.set (m.HashToBucket d) (flow_erase bk d),
        lock_log := m.lock_log ++
          [⟨m.HashToBucket d, true⟩, ⟨m.HashToBucket d, false⟩] } : ndFlowMap).buckets
        = m.buckets) rfl
    have he1 := hset d
    rw [if_pos rfl, flow_find_erase_self] at he1
    refine ⟨true, _, hdel, ?_, he1, ?_, ?_, ?_, rfl, rfl, hwf1⟩
    · rw [hent, hf]
      simp
    · intro a
      obtain ⟨m2, hm2⟩ := Lookup_returns _ d a hwf1 hfree
      rw [he1] at hm2
      exact ⟨m2, hm2⟩
    · intro d2 hne
      rw [hset d2]
      by_cases hc : m.HashToBucket d2 = m.HashToBucket d
      · rw [if_pos hc, flow_find_erase_other bk d d2 hne]
        unfold ndFlowMap.entry
        rw [hc, hbk]
      · rw [if_neg hc]
    · intro hnone
      rw [hent, hf] at hnone
      exact absurd hnone (by simp)

theorem ndFlowMap_Delete_spec_witness :
    exFlowMap.WF ∧ exFlowMap.lockFree (exFlowMap.HashToBucket [5, 1]) ∧
    ∃ (m1 : ndFlowMap), exFlowMap.Delete [5, 1] = Except.ok (true, m1) ∧
      m1.entry [5, 1] = none := by
  refine ⟨by decide, by decide, ?_⟩
  obtain ⟨r, m1, h1, h2, h3, _⟩ :=
    ndFlowMap_Delete_spec exFlowMap [5, 1] (by decide) (by decide)
  have hr : r = true := h2.mpr ⟨some 7, by decide⟩
  subst hr
  exact ⟨m1, h1, h3⟩

theorem mutex_lock_log (m m1 : ndFlowMap) (b : Nat)
    (h : m.mutex_lock b = Except.ok m1) :
    m1.lock_log = m.lock_log ++ [⟨b, true⟩] ∧ m1.bucket = m.bucket ∧
      m1.buckets = m.buckets := by
  unfold ndFlowMap.mutex_lock at h
  split at h
  · simp at h
  · simp at h
  · simp only [Except.ok.injEq] at h
    subst h
    exact ⟨rfl, rfl, rfl⟩

theorem mutex_unlock_log (m m1 : ndFlowMap) (b : Nat)
    (h : m.mutex_unlock b = Except.ok m1) :
    m1.lock_log = m.lock_log ++ [⟨b, false⟩] ∧ m1.bucket = m.bucket ∧
      m1.buckets = m.buckets := by
  unfold ndFlowMap.mutex_unlock at h
  split at h
  · simp at h
  · simp at h
  · simp only [Except.ok.injEq] at h
    subst h
    exact ⟨rfl, rfl, rfl⟩

theorem Lookup_log (m m1 : ndFlowMap) (d : Bytes) (a : Bool) (r : nd_flow_ptr)
    (h : m.Lookup d a = Except.ok (r, m1)) :
    ∃ evs, m1.lock_log = m.lock_log ++ evs ∧
      ∀ e ∈ evs, e.bucket = m.HashToBucket d := by
  unfold ndFlowMap.Lookup at h
  simp only at h
  cases hl : m.mutex_lock (m.HashToBucket d) with
  | error e => simp [hl] at h
  | ok m2 =>
    obtain ⟨g1, -, -⟩ := mutex_lock_log m m2 _ hl
    rw [hl] at h
    simp only at h
    cases hb : m2.bucket[m.HashToBucket d]? with
    | none => simp [hb] at h
    | some bk =>
      simp only [List.get?_eq_getElem?, hb] at h
      cases a with
      | true =>
        simp only [Bool.not_eq_true, Bool.true_eq_false, if_false, Except.ok.injEq,
          Prod.mk.injEq] at h
        obtain ⟨-, h2⟩ := h
        exact ⟨_, g1, by simp⟩
      | false =>
        simp only [Bool.not_eq_true, if_true] at h
        cases hu : m2.mutex_unlock (m.HashToBucket d) with
        | error e => simp [hu] at h
        | ok m3 =>
          obtain ⟨g2, -, -⟩ := mutex_unlock_log m2 m3 _ hu
          rw [hu] at h
          simp only [Except.ok.injEq, Prod.mk.injEq] at h
          obtain ⟨-, h2⟩ := h
          subst h2
          refine ⟨[⟨m.HashToBucket d, true⟩, ⟨m.HashToBucket d, false⟩], ?_, by simp⟩
          rw [g2, g1]
          simp

theorem Insert_log (m m1 : ndFlowMap) (d : Bytes) (f : nd_flow_ptr) (u r : Bool)
    (h : m.Insert d f u = Except.ok (r, m1)) :
    ∃ evs, m1.lock_log = m.lock_log ++ evs ∧
      ∀ e ∈ evs, e.bucket = m.HashToBucket d := by
  unfold ndFlowMap.Insert at h
  cases u with
  | true =>
    cases hb : m.bucket[m.HashToBucket d]? with
    | none => simp [hb] at h
    | some bk =>
      simp [hb] at h
      obtain ⟨-, h2⟩ := h
      subst h2
      exact ⟨[], by simp, by simp⟩
  | false =>
    cases hl : m.mutex_lock (m.HashToBucket d) with
    | error e => simp [hl] at h
    | ok m2 =>
      obtain ⟨g1, -, -⟩ := mutex_lock_log m m2 _ hl
      cases hb : m2.bucket[m.HashToBucket d]? with
      | none => simp [hl, hb] at h
      | some bk =>
        simp only [Bool.not_eq_true, if_true, hl, List.get?_eq_getElem?, hb] at h
        split at h
        · simp at h
        · rename_i m3 hu
          obtain ⟨g2, -, -⟩ := mutex_unlock_log _ m3 _ hu
          simp only [Except.ok.injEq, Prod.mk.injEq] at h
          obtain ⟨-, h2⟩ := h
          subst h2
          refine ⟨[⟨m.HashToBucket d, true⟩, ⟨m.HashToBucket d, false⟩], ?_, by simp⟩
          rw [g2]
          show m2.lock_log ++ _ = _
          rw [g1]
          simp

theorem Delete_log (m m1 : ndFlowMap) (d : Bytes) (r : Bool)
    (h : m.Delete d = Except.ok (r, m1)) :
    ∃ evs, m1.lock_log = m.lock_log ++ evs ∧
      ∀ e ∈ evs, e.bucket = m.HashToBucket d := by
  unfold ndFlowMap.Delete at h
  cases hl : m.mutex_lock (m.HashToBucket d) with
  | error e => simp [hl] at h
  | ok m2 =>
    obtain ⟨g1, -, -⟩ := mutex_lock_log m m2 _ hl
    cases hb : m2.bucket[m.HashToBucket d]? with
    | none => simp [hl, hb] at h
    | some bk =>
      cases hf : flow_find bk d with
      | none =>
        simp only [hl, List.get?_eq_getElem?, hb, hf] at h
        split at h
        · simp at h
        · rename_i m3 hu
          obtain ⟨g2, -, -⟩ := mutex_unlock_log _ m3 _ hu
          simp only [Except.ok.injEq, Prod.mk.injEq] at h
          obtain ⟨-, h2⟩ := h
          subst h2
          refine ⟨[⟨m.HashToBucket d, true⟩, ⟨m.HashToBucket d, false⟩], ?_, by simp⟩
          rw [g2, g1]
          simp
      | some p =>
        simp only [hl, List.get?_eq_getElem?, hb, hf] at h
        split at h
        · simp at h
        · rename_i m3 hu
          obtain ⟨g2, -, -⟩ := mutex_unlock_log _ m3 _ hu
          simp only [Except.ok.injEq, Prod.mk.injEq] at h
          obtain ⟨-, h2⟩ := h
          subst h2
          refine ⟨[⟨m.HashToBucket d, true⟩, ⟨m.HashToBucket d, false⟩], ?_, by simp⟩
          rw [g2]
          show m2.lock_log ++ _ = _
          rw [g1]
          simp

theorem Release_log (m m1 : ndFlowMap) (d : Bytes)
    (h : m.Release d = Except.ok m1) :
    ∃ evs, m1.lock_log = m.lock_log ++ evs ∧
      ∀ e ∈ evs, e.bucket = m.HashToBucket d := by
  unfold ndFlowMap.Release ndFlowMap.ReleaseBucket at h
  split at h
  · simp at h
  · obtain ⟨g, -, -⟩ := mutex_unlock_log m m1 _ h
    exact ⟨_, g, by simp⟩

theorem FlowMapOp_log (op : FlowMapOp) (m m1 : ndFlowMap)
    (h : op.apply m = Except.ok m1) :
    ∃ evs, m1.lock_log = m.lock_log ++ evs ∧
      ∀ e ∈ evs, e.bucket = m.HashToBucket op.digest := by
  cases op with
  | lookup d a =>
    simp only [FlowMapOp.apply] at h
    split at h
    · rename_i r hr
      simp only [Except.ok.injEq] at h
      subst h
      exact Lookup_log m r.2 d a r.1 hr
    · simp at h
  | insert d f u =>
    simp only [FlowMapOp.apply] at h
    split at h
    · rename_i r hr
      simp only [Except.ok.injEq] at h
      subst h
      exact Insert_log m r.2 d f u r.1 hr
    · simp at h
  | delete d =>
    simp only [FlowMapOp.apply] at h
    split at h
    · rename_i r hr
      simp only [Except.ok.injEq] at h
      subst h
      exact Delete_log m r.2 d r.1 hr
    · simp at h
  | release d => exact Release_log m m1 d h

/-- C10: with every bucket lock an explicit held/free flag and every lock or
unlock call recorded: when the lock of bucket_of(d) is free, Lookup(d) without
acquire, Insert(d, f) without the caller-holds-lock flag and Delete(d) return
with every lock in the state it was found in, having locked and unlocked the
lock of bucket_of(d) and no other; Lookup(d) with acquire returns with the lock
of bucket_of(d) held, no other lock changed and one lock call on that bucket.
Insert with the caller-holds-lock flag calls no lock operation. Release(d) on a
held lock frees the lock of bucket_of(d) and changes no other. Hence every lock
call made by an operation is on the bucket of its digest, and operations on
digests of different buckets never use the same lock. -/
theorem ndFlowMap_lock_frame (m : ndFlowMap) (d : Bytes) (f : nd_flow_ptr)
    (hwf : m.WF) :
    (m.lockFree (m.HashToBucket d) →
      (∃ r m1, m.Lookup d false = Except.ok (r, m1) ∧
        m1.bucket_lock = m.bucket_lock ∧
        m1.lock_log = m.lock_log ++
          [⟨m.HashToBucket d, true⟩, ⟨m.HashToBucket d, false⟩]) ∧
      (∃ r m1, m.Insert d f false = Except.ok (r, m1) ∧
        m1.bucket_lock = m.bucket_lock ∧
        m1.lock_log = m.lock_log ++
          [⟨m.HashToBucket d, true⟩, ⟨m.HashToBucket d, false⟩]) ∧
      (∃ r m1, m.Delete d = Except.ok (r, m1) ∧
        m1.bucket_lock = m.bucket_lock ∧
        m1.lock_log = m.lock_log ++
          [⟨m.HashToBucket d, true⟩, ⟨m.HashToBucket d, false⟩]) ∧
      (∃ r m1, m.Lookup d true = Except.ok (r, m1) ∧
        m1.lockHeld (m.HashToBucket d) ∧
        (∀ b2, b2 ≠ m.HashToBucket d →
          m1.bucket_lock.get? b2 = m.bucket_lock.get? b2) ∧
        m1.lock_log = m.lock_log ++ [⟨m.HashToBucket d, true⟩])) ∧
    (∃ r m1, m.Insert d f true = Except.ok (r, m1) ∧
      m1.bucket_lock = m.bucket_lock ∧ m1.lock_log = m.lock_log) ∧
    (m.lockHeld (m.HashToBucket d) →
      ∃ m1, m.Release d = Except.ok m1 ∧
        m1.lockFree (m.HashToBucket d) ∧
        (∀ b2, b2 ≠ m.HashToBucket d →
          m1.bucket_lock.get? b2 = m.bucket_lock.get? b2) ∧
        m1.bucket = m.bucket ∧
        m1.lock_log = m.lock_log ++ [⟨m.HashToBucket d, false⟩]) ∧
    (∀ (op : FlowMapOp) (n n1 : ndFlowMap), op.apply n = Except.ok n1 →
      ∃ evs, n1.lock_log = n.lock_log ++ evs ∧
        ∀ e ∈ evs, e.bucket = n.HashToBucket op.digest) ∧
    (∀ (op1 op2 : FlowMapOp) (n n1 k k1 : ndFlowMap) (evs1 evs2 : List LockEvent),
      n.HashToBucket op1.digest ≠ k.HashToBucket op2.digest →
      op1.apply n = Except.ok n1 → op2.apply k = Except.ok k1 →
      n1.lock_log = n.lock_log ++ evs1 → k1.lock_log = k.lock_log ++ evs2 →
      ∀ e1 ∈ evs1, ∀ e2 ∈ evs2, e1.bucket ≠ e2.bucket) := by
  obtain ⟨bk, hbk⟩ := bucket_get m hwf d
  refine ⟨?_, ?_, ?_, ?_, ?_⟩
  · intro hfree
    refine ⟨?_, ?_, ?_, ?_⟩
    · exact ⟨_, _, Lookup_release_spec m d hwf hfree, rfl, rfl⟩
    · exact ⟨_, _, Insert_locking_spec m d f bk hbk hfree, rfl, rfl⟩
    · exact ⟨_, _, Delete_spec m d bk hbk hfree, rfl, rfl⟩
    · refine ⟨_, _, Lookup_acquire_spec m d hwf hfree, ?_, ?_, rfl⟩
      · exact get?_set_same m.bucket_lock _ false true hfree
      · intro b2 hb2
        show (m.bucket_lock.set (m.HashToBucket d) true).get? b2 = _
        rw [List.get?_eq_getElem?, List.get?_eq_getElem?,
          List.getElem?_set_ne (Ne.symm hb2)]
  · exact ⟨_, _, Insert_unlocked_spec m d f bk hbk, rfl, rfl⟩
  · intro hheld
    refine ⟨_, Release_spec m d hwf hheld, ?_, ?_, rfl, rfl⟩
    · exact get?_set_same m.bucket_lock _ true false hheld
    · intro b2 hb2
      show (m.bucket_lock.set (m.HashToBucket d) false).get? b2 = _
      rw [List.get?_eq_getElem?, List.get?_eq_getElem?,
        List.getElem?_set_ne (Ne.symm hb2)]
  · intro op n n1 h
    exact FlowMapOp_log op n n1 h
  · intro op1 op2 n n1 k k1 evs1 evs2 hne h1 h2 g1 g2 e1 he1 e2 he2 heq
    obtain ⟨a1, p1, q1⟩ := FlowMapOp_log op1 n n1 h1
    obtain ⟨a2, p2, q2⟩ := FlowMapOp_log op2 k k1 h2
    have x1 : evs1 = a1 := List.append_cancel_left (g1.symm.trans p1)
    have x2 : evs2 = a2 := List.append_cancel_left (g2.symm.trans p2)
    subst x1
    subst x2
    exact hne ((q1 e1 he1).symm.trans (heq.trans (q2 e2 he2)))

theorem ndFlowMap_lock_frame_witness :
    exFlowMap.WF ∧ exFlowMap.lockFree (exFlowMap.HashToBucket [5, 1]) ∧
    (∃ r m1, exFlowMap.Lookup [5, 1] true = Except.ok (r, m1) ∧
      m1.bucket_lock = [false, true, false, false] ∧
      m1.lock_log = [⟨1, true⟩]) ∧
    exFlowMapHeld.WF ∧ exFlowMapHeld.lockHeld (exFlowMapHeld.HashToBucket [5, 1]) ∧
    (∃ m1, exFlowMapHeld.Release [5, 1] = Except.ok m1 ∧
      m1.lockFree (exFlowMapHeld.HashToBucket [5, 1])) := by
  have h2 := ndFlowMap_lock_frame exFlowMapHeld [5, 1] none (by decide)
  refine ⟨by decide, by decide, ⟨_, _, rfl, rfl, rfl⟩, by decide, by decide, ?_⟩
  obtain ⟨m1, g1, g2, _⟩ := h2.2.2.1 (by decide)
  exact ⟨m1, g1, g2⟩

/-! ## Theorems: lower map -/

/-- C19: for every lower and upper address type of which at least one is the
error type, every IP version and every previous value of the two outputs,
ndFlow::GetLowerMap sets other_type to error and leaves lower_map as it was;
on a fresh flow lower_map therefore stays unknown. -/
theorem GetLowerMap_error (f : ndFlow) (lt ut : ndAddrType) (lm : LowerMap)
    (ot : OtherType) (herr : lt = atERROR ∨ ut = atERROR) :
    f.GetLowerMap lt ut lm ot = (lm, OTHER_ERROR) ∧
    f.GetLowerMap lt ut LOWER_UNKNOWN OTHER_UNKNOWN = (LOWER_UNKNOWN, OTHER_ERROR) := by
  constructor <;> simp [ndFlow.GetLowerMap, herr]

theorem GetLowerMap_error_witness :
    ((atRESERVED : ndAddrType) = atERROR ∨ (atERROR : ndAddrType) = atERROR) ∧
    (exDhcpFlow 1).GetLowerMap atRESERVED atERROR LOWER_LOCAL OTHER_REMOTE
      = (LOWER_LOCAL, OTHER_ERROR) :=
  ⟨Or.inr rfl,
    (GetLowerMap_error (exDhcpFlow 1) atRESERVED atERROR LOWER_LOCAL OTHER_REMOTE
      (Or.inr rfl)).1⟩

/-- C20: for every flow (hence every IP version) and every previous value of
the outputs, ndFlow::GetLowerMap gives (local, local) for (local, local) and for
(local, local-net), (other, remote) for (reserved, local) and (local, remote)
for (local, reserved). -/
theorem GetLowerMap_exact_rows (f : ndFlow) (lm : LowerMap) (ot : OtherType) :
    f.GetLowerMap atLOCAL atLOCAL lm ot = (LOWER_LOCAL, OTHER_LOCAL) ∧
    f.GetLowerMap atLOCAL atLOCALNET lm ot = (LOWER_LOCAL, OTHER_LOCAL) ∧
    f.GetLowerMap atRESERVED atLOCAL lm ot = (LOWER_OTHER, OTHER_REMOTE) ∧
    f.GetLowerMap atLOCAL atRESERVED lm ot = (LOWER_LOCAL, OTHER_REMOTE) := by
  refine ⟨?_, ?_, ?_, ?_⟩ <;> simp [ndFlow.GetLowerMap]

/-! ## Theorems: flow lifecycle and update tick -/

theorem QueuePacket_ids (t : nd_detection_threads) (id : Int) (p : Nat) :
    (QueuePacket t id p).map Prod.fst = t.map Prod.fst := by
  unfold QueuePacket
  rw [List.map_map]
  apply List.map_congr_left
  intro x _
  by_cases h : x.1 = id <;> simp [h]

theorem thread_find_isSome (t : nd_detection_threads) (id : Int) :
    (thread_find t id).isSome = decide (id ∈ t.map Prod.fst) := by
  induction t with
  | nil => simp [thread_find]
  | cons x rest ih =>
    by_cases h : x.1 = id
    · simp [thread_find, h]
    · have h2 : ¬ id = x.1 := fun h3 => h h3.symm
      simp [thread_find, h, h2, ih]

theorem thread_find_congr (t t1 : nd_detection_threads) (id : Int)
    (h : t1.map Prod.fst = t.map Prod.fst) :
    (thread_find t1 id).isSome = (thread_find t id).isSome := by
  rw [thread_find_isSome, thread_find_isSome, h]

theorem ExpireFlow_frame (inst : ndInstance) (e : nd_flow_entry) :
    (inst.ExpireFlow e).2.1.threadIds = inst.threadIds ∧
    (inst.ExpireFlow e).2.1.status = inst.status ∧
    (inst.ExpireFlow e).2.1.terminate = inst.terminate ∧
    (inst.ExpireFlow e).2.1.flow_buckets = inst.flow_buckets ∧
    (inst.ExpireFlow e).2.1.expire_calls = inst.expire_calls ++ [e.ptr] ∧
    (inst.ExpireFlow e).2.1.plugin_events = inst.plugin_events ++
      (if (inst.ExpireFlow e).1 then [EVENT_FLOW_EXPIRING e.ptr] else []) ∧
    (inst.ExpireFlow e).2.2.digest = e.digest ∧
    (inst.ExpireFlow e).2.2.ptr = e.ptr := by
  unfold ndInstance.ExpireFlow
  by_cases hdc : e.flow.flags.detection_complete = true
  · simp [hdc, ndInstance.threadIds, nd_flow_entry.withFlags]
  · by_cases hex : e.flow.flags.expiring = false
    · cases hf : thread_find inst.thread_detection e.flow.dpi_thread_id with
      | none => simp [hdc, hex, hf, ndInstance.threadIds, nd_flow_entry.withFlags]
      | some q =>
        simp [hdc, hex, hf, ndInstance.threadIds, nd_flow_entry.withFlags,
          QueuePacket_ids]
    · simp [hdc, hex, ndInstance.threadIds]

theorem ExpireFlow_congr (inst inst1 : ndInstance) (e : nd_flow_entry)
    (h : inst1.threadIds = inst.threadIds) :
    (inst1.ExpireFlow e).1 = (inst.ExpireFlow e).1 ∧
    (inst1.ExpireFlow e).2.2 = (inst.ExpireFlow e).2.2 := by
  have hf := thread_find_congr inst.thread_detection inst1.thread_detection
    e.flow.dpi_thread_id h
  unfold ndInstance.ExpireFlow
  by_cases hdc : e.flow.flags.detection_complete = true
  · simp [hdc]
  · by_cases hex : e.flow.flags.expiring = false
    · cases h1 : thread_find inst.thread_detection e.flow.dpi_thread_id with
      | none =>
        cases h2 : thread_find inst1.thread_detection e.flow.dpi_thread_id with
        | none => simp [hdc, hex, h1, h2, nd_flow_entry.withFlags]
        | some q => simp [h1, h2] at hf
      | some q =>
        cases h2 : thread_find inst1.thread_detection e.flow.dpi_thread_id with
        | none => simp [h1, h2] at hf
        | some q2 => simp [hdc, hex, h1, h2, nd_flow_entry.withFlags]
    · simp [hdc, hex]

theorem ProcessFlows_idle_frame (cfg : ndGlobalConfig) (now : Int)
    (inst : ndInstance) (e : nd_flow_entry) :
    (inst.ProcessFlows_idle cfg now e).1.threadIds = inst.threadIds ∧
    (inst.ProcessFlows_idle cfg now e).1.terminate = inst.terminate ∧
    (inst.ProcessFlows_idle cfg now e).1.status.flows_purged
      = inst.status.flows_purged ∧
    (inst.ProcessFlows_idle cfg now e).1.expire_calls = inst.expire_calls ++
      (if idleExceeded cfg now e then [e.ptr] else []) ∧
    (inst.ProcessFlows_idle cfg now e).1.plugin_events = inst.plugin_events ++
      (if idleExceeded cfg now e ∧ (inst.ExpireFlow e).1 = true
        then [EVENT_FLOW_EXPIRING e.ptr] else []) ∧
    (inst.ProcessFlows_idle cfg now e).2.digest = e.digest ∧
    (inst.ProcessFlows_idle cfg now e).2.ptr = e.ptr := by
  have key : ∀ i2 : ndInstance, i2.threadIds = inst.threadIds →
      i2.terminate = inst.terminate →
      i2.status.flows_purged = inst.status.flows_purged →
      i2.expire_calls = inst.expire_calls → i2.plugin_events = inst.plugin_events →
      (i2.ExpireFlow e).1 = (inst.ExpireFlow e).1 ∧
      (i2.ExpireFlow e).2.1.threadIds = inst.threadIds ∧
      (i2.ExpireFlow e).2.1.terminate = inst.terminate ∧
      (i2.ExpireFlow e).2.1.status.flows_purged = inst.status.flows_purged ∧
      (i2.ExpireFlow e).2.1.expire_calls = inst.expire_calls ++ [e.ptr] ∧
      (i2.ExpireFlow e).2.1.plugin_events = inst.plugin_events ++
        (if (inst.ExpireFlow e).1 then [EVENT_FLOW_EXPIRING e.ptr] else []) ∧
      (i2.ExpireFlow e).2.2.digest = e.digest ∧
      (i2.ExpireFlow e).2.2.ptr = e.ptr := by
    intro i2 h1 h2 h3 h4 h5
    obtain ⟨a1, a2, a3, _, a5, a6, a7, a8⟩ := ExpireFlow_frame i2 e
    have hc := (ExpireFlow_congr inst i2 e h1).1
    refine ⟨hc, a1.trans h1, a3.trans h2, ?_, ?_, ?_, a7, a8⟩
    · rw [a2, h3]
    · rw [a5, h4]
    · rw [a6, h5, hc]
  unfold ndInstance.ProcessFlows_idle idleExceeded
  by_cases hexp : e.flow.flags.expired = false
  · by_cases hidle : Int.ofNat (e.flow.ts_last_seen / 1000)
        + Int.ofNat (ProcessFlows_ttl cfg e.flow) < now
    · by_cases huse : e.use_count > 1
      · obtain ⟨k1, k2, k3, k4, k5, k6, k7, k8⟩ :=
          key { inst with status := { inst.status with
            flows_in_use := inst.status.flows_in_use + 1 } } rfl rfl rfl rfl rfl
        simp only [huse, hexp, hidle, if_true, and_self, true_and]
        split <;> simp_all [ndInstance.threadIds]
      · obtain ⟨k1, k2, k3, k4, k5, k6, k7, k8⟩ := key inst rfl rfl rfl rfl rfl
        simp only [huse, hexp, hidle, if_true, if_false, and_self, true_and]
        split <;> simp_all [ndInstance.threadIds]
    · by_cases huse : e.use_count > 1
      · simp only [huse, hexp, hidle, if_true, if_false, and_self, false_and,
          true_and, List.append_nil]
        try simp [ndInstance.threadIds]
      · simp only [huse, hexp, hidle, if_true, if_false, and_self, false_and,
          true_and, List.append_nil]
        try simp [ndInstance.threadIds]
  · by_cases huse : e.use_count > 1
    · simp only [huse, hexp, if_true, if_false, and_self, false_and,
        true_and, List.append_nil]
      try simp [ndInstance.threadIds]
    · simp only [huse, hexp, if_true, if_false, and_self, false_and,
        true_and, List.append_nil]
      try simp [ndInstance.threadIds]

theorem ProcessFlows_idle_entry (cfg : ndGlobalConfig) (now : Int)
    (inst : ndInstance) (e : nd_flow_entry) :
    (inst.ProcessFlows_idle cfg now e).2
      = if idleExceeded cfg now e then (inst.ExpireFlow e).2.2 else e := by
  have key : ∀ i2 : ndInstance, i2.threadIds = inst.threadIds →
      (i2.ExpireFlow e).2.2 = (inst.ExpireFlow e).2.2 :=
    fun i2 h => (ExpireFlow_congr inst i2 e h).2
  unfold ndInstance.ProcessFlows_idle idleExceeded
  by_cases hexp : e.flow.flags.expired = false
  · by_cases hidle : Int.ofNat (e.flow.ts_last_seen / 1000)
        + Int.ofNat (ProcessFlows_ttl cfg e.flow) < now
    · by_cases huse : e.use_count > 1
      · simp only [huse, hexp, hidle, if_true, and_self]
        split <;> exact key _ rfl
      · simp only [huse, hexp, hidle, if_true, if_false, and_self]
        split <;> rfl
    · simp only [hexp, hidle, if_true, if_false, and_false]
  · simp only [hexp, if_false, false_and, Bool.true_eq_false]

theorem idleEntry_congr (cfg : ndGlobalConfig) (now : Int)
    (inst inst1 : ndInstance) (e : nd_flow_entry)
    (h : inst1.threadIds = inst.threadIds) :
    idleEntry cfg now inst1 e = idleEntry cfg now inst e := by
  unfold idleEntry
  rw [ProcessFlows_idle_entry, ProcessFlows_idle_entry,
    (ExpireFlow_congr inst inst1 e h).2]

theorem ProcessFlows_purge_frame (inst : ndInstance) (e : nd_flow_entry) :
    (inst.ProcessFlows_purge e).1.threadIds = inst.threadIds ∧
    (inst.ProcessFlows_purge e).1.terminate = inst.terminate ∧
    (inst.ProcessFlows_purge e).1.expire_calls = inst.expire_calls ∧
    (inst.ProcessFlows_purge e).1.status.flows_purged = inst.status.flows_purged +
      (if e.flow.flags.expired = true ∧ e.use_count = 1 then 1 else 0) ∧
    (inst.ProcessFlows_purge e).1.plugin_events = inst.plugin_events ++
      (if e.flow.flags.expired = true ∧ e.use_count = 1
        then [EVENT_FLOW_EXPIRE e.ptr] else []) ∧
    ((inst.ProcessFlows_purge e).2 = none ↔
      e.flow.flags.expired = true ∧ e.use_count = 1) ∧
    (∀ e1, (inst.ProcessFlows_purge e).2 = some e1 →
      e1.digest = e.digest ∧ e1.ptr = e.ptr ∧ e1.use_count = e.use_count ∧
      e1.flow.flags = e.flow.flags) := by
  unfold ndInstance.ProcessFlows_purge
  by_cases hexp : e.flow.flags.expired = true
  · by_cases huse : e.use_count = 1
    · simp [hexp, huse, ndInstance.threadIds]
    · simp [hexp, huse, ndInstance.threadIds]
  · by_cases hinit : e.flow.flags.detection_init = true
    · by_cases hp : e.flow.lower_packets ≠ 0 ∨ e.flow.upper_packets ≠ 0
      · simp [hexp, hinit, hp, ndInstance.threadIds, ndFlow.Reset,
          Reset_default_full_reset, ndFlow.stats_Reset]
      · simp [hexp, hinit, hp, ndInstance.threadIds]
    · simp [hexp, hinit, ndInstance.threadIds]

theorem ProcessFlows_entry_spec (cfg : ndGlobalConfig) (now : Int)
    (inst0 inst : ndInstance) (e : nd_flow_entry)
    (h : inst.threadIds = inst0.threadIds) :
    (inst.ProcessFlows_entry cfg now e).1.threadIds = inst0.threadIds ∧
    (inst.ProcessFlows_entry cfg now e).1.terminate = inst.terminate ∧
    (inst.ProcessFlows_entry cfg now e).1.expire_calls = inst.expire_calls ++
      (if idleExceeded cfg now e then [e.ptr] else []) ∧
    (inst.ProcessFlows_entry cfg now e).1.status.flows_purged
      = inst.status.flows_purged + (if purgeable cfg now inst0 e then 1 else 0) ∧
    (inst.ProcessFlows_entry cfg now e).1.plugin_events
      = inst.plugin_events ++ flowEvents cfg now inst0 e ∧
    ((inst.ProcessFlows_entry cfg now e).2 = none ↔ purgeable cfg now inst0 e) ∧
    (∀ e1, (inst.ProcessFlows_entry cfg now e).2 = some e1 →
      e1.digest = e.digest ∧ e1.ptr = e.ptr ∧
      e1.flow.flags = (idleEntry cfg now inst0 e).flow.flags) := by
  obtain ⟨a1, a2, a3, a4, a5, a6, a7⟩ := ProcessFlows_idle_frame cfg now inst e
  obtain ⟨b1, b2, b3, b4, b5, b6, b7⟩ :=
    ProcessFlows_purge_frame (inst.ProcessFlows_idle cfg now e).1
      (inst.ProcessFlows_idle cfg now e).2
  have hid : (inst.ProcessFlows_idle cfg now e).2 = idleEntry cfg now inst0 e :=
    idleEntry_congr cfg now inst0 inst e h
  have hex : (inst.ExpireFlow e).1 = (inst0.ExpireFlow e).1 :=
    (ExpireFlow_congr inst0 inst e h).1
  have hpurge : ((inst.ProcessFlows_idle cfg now e).2.flow.flags.expired = true ∧
      (inst.ProcessFlows_idle cfg now e).2.use_count = 1) = purgeable cfg now inst0 e := by
    unfold purgeable
    rw [hid]
  unfold ndInstance.ProcessFlows_entry
  simp only
  refine ⟨?_, ?_, ?_, ?_, ?_, ?_, ?_⟩
  · rw [b1, a1, h]
  · rw [b2, a2]
  · rw [b3, a4]
  · rw [b4, a3]
    simp only [hpurge]
  · rw [b5, a5, List.append_assoc]
    simp only [hpurge, hex, flowEvents, a7]
  · rw [b6]
    simp only [hpurge]
  · intro e1 he1
    obtain ⟨c1, c2, _, c4⟩ := b7 e1 he1
    refine ⟨c1.trans a6, c2.trans a7, ?_⟩
    rw [c4, hid]

theorem ProcessFlows_bucket_spec (cfg : ndGlobalConfig) (now : Int)
    (inst0 : ndInstance) (es : List nd_flow_entry) (inst : ndInstance)
    (h : inst.threadIds = inst0.threadIds) :
    (ndInstance.ProcessFlows_bucket cfg now inst es).1.threadIds = inst0.threadIds ∧
    (ndInstance.ProcessFlows_bucket cfg now inst es).1.terminate = inst.terminate ∧
    (ndInstance.ProcessFlows_bucket cfg now inst es).1.expire_calls
      = inst.expire_calls ++
        (es.filter (fun e => decide (idleExceeded cfg now e))).map (fun e => e.ptr) ∧
    (ndInstance.ProcessFlows_bucket cfg now inst es).1.status.flows_purged
      = inst.status.flows_purged +
        (es.filter (fun e => decide (purgeable cfg now inst0 e))).length ∧
    (ndInstance.ProcessFlows_bucket cfg now inst es).1.plugin_events
      = inst.plugin_events ++ es.flatMap (flowEvents cfg now inst0) ∧
    (ndInstance.ProcessFlows_bucket cfg now inst es).2.map (fun e => (e.digest, e.ptr))
      = (es.filter (fun e => decide (¬ purgeable cfg now inst0 e))).map
          (fun e => (e.digest, e.ptr)) := by
  induction es generalizing inst with
  | nil => simp [ndInstance.ProcessFlows_bucket, h]
  | cons e rest ih =>
    obtain ⟨a1, a2, a3, a4, a5, a6, a7⟩ := ProcessFlows_entry_spec cfg now inst0 inst e h
    obtain ⟨b1, b2, b3, b4, b5, b6⟩ := ih (inst.ProcessFlows_entry cfg now e).1 a1
    simp only [ndInstance.ProcessFlows_bucket]
    refine ⟨b1, b2.trans a2, ?_, ?_, ?_, ?_⟩
    · rw [b3, a3, List.append_assoc]
      by_cases hc : idleExceeded cfg now e <;> simp [hc]
    · rw [b4, a4]
      by_cases hc : purgeable cfg now inst0 e
      · simp [hc]
        omega
      · simp [hc]
    · rw [b5, a5, List.append_assoc]
      simp
    · cases hr : (inst.ProcessFlows_entry cfg now e).2 with
      | none =>
        have hp := a6.mp hr
        simp [hp, b6]
      | some e1 =>
        have hp : ¬ purgeable cfg now inst0 e := fun hp => by
          rw [a6.mpr hp] at hr
          simp at hr
        obtain ⟨c1, c2, _⟩ := a7 e1 hr
        simp [hp, b6, c1, c2]

theorem ProcessFlows_buckets_spec (cfg : ndGlobalConfig) (now : Int)
    (inst0 : ndInstance) (bs : List (List nd_flow_entry)) (inst : ndInstance)
    (h : inst.threadIds = inst0.threadIds) :
    (ndInstance.ProcessFlows_buckets cfg now inst bs).1.threadIds = inst0.threadIds ∧
    (ndInstance.ProcessFlows_buckets cfg now inst bs).1.terminate = inst.terminate ∧
    (ndInstance.ProcessFlows_buckets cfg now inst bs).1.expire_calls
      = inst.expire_calls ++
        (bs.flatten.filter (fun e => decide (idleExceeded cfg now e))).map
          (fun e => e.ptr) ∧
    (ndInstance.ProcessFlows_buckets cfg now inst bs).1.status.flows_purged
      = inst.status.flows_purged +
        (bs.flatten.filter (fun e => decide (purgeable cfg now inst0 e))).length ∧
    (ndInstance.ProcessFlows_buckets cfg now inst bs).1.plugin_events
      = inst.plugin_events ++ bs.flatten.flatMap (flowEvents cfg now inst0) ∧
    (ndInstance.ProcessFlows_buckets cfg now inst bs).2.map
        (fun fm => fm.map (fun e => (e.digest, e.ptr)))
      = bs.map (fun fm =>
          (fm.filter (fun e => decide (¬ purgeable cfg now inst0 e))).map
            (fun e => (e.digest, e.ptr))) := by
  induction bs generalizing inst with
  | nil => simp [ndInstance.ProcessFlows_buckets, h]
  | cons fm rest ih =>
    obtain ⟨a1, a2, a3, a4, a5, a6⟩ := ProcessFlows_bucket_spec cfg now inst0 fm inst h
    obtain ⟨b1, b2, b3, b4, b5, b6⟩ :=
      ih (ndInstance.ProcessFlows_bucket cfg now inst fm).1 a1
    simp only [ndInstance.ProcessFlows_buckets]
    refine ⟨b1, b2.trans a2, ?_, ?_, ?_, ?_⟩
    · rw [b3, a3]
      simp
    · rw [b4, a4]
      simp
      omega
    · rw [b5, a5]
      simp
    · simp [a6, b6]

theorem ProcessFlows_spec (cfg : ndGlobalConfig) (now : Int) (inst : ndInstance) :
    (inst.ProcessFlows cfg now).threadIds = inst.threadIds ∧
    (inst.ProcessFlows cfg now).terminate = inst.terminate ∧
    (inst.ProcessFlows cfg now).expire_calls = inst.expire_calls ++
      (inst.flow_buckets.flatten.filter
        (fun e => decide (idleExceeded cfg now e))).map (fun e => e.ptr) ∧
    (inst.ProcessFlows cfg now).status.flows_purged =
      (inst.flow_buckets.flatten.filter
        (fun e => decide (purgeable cfg now inst e))).length ∧
    (inst.ProcessFlows cfg now).plugin_events = inst.plugin_events ++
      inst.flow_buckets.flatten.flatMap (flowEvents cfg now inst) ∧
    (inst.ProcessFlows cfg now).flow_buckets.map
        (fun fm => fm.map (fun e => (e.digest, e.ptr)))
      = inst.flow_buckets.map (fun fm =>
          (fm.filter (fun e => decide (¬ purgeable cfg now inst e))).map
            (fun e => (e.digest, e.ptr))) := by
  obtain ⟨a1, a2, a3, a4, a5, a6⟩ := ProcessFlows_buckets_spec cfg now inst
    inst.flow_buckets
    { inst with status := { inst.status with
        flows_purged := 0, flows_expiring := 0, flows_expired := 0,
        flows_active := 0, flows_in_use := 0 } } rfl
  refine ⟨a1, a2, a3, ?_, a5, a6⟩
  have h := a4
  simp only [Nat.zero_add] at h
  exact h

theorem flowEvents_filter_expire (cfg : ndGlobalConfig) (now : Int)
    (inst : ndInstance) (es : List nd_flow_entry) :
    (es.flatMap (flowEvents cfg now inst)).filter isFlowExpire
      = (es.filter (fun e => decide (purgeable cfg now inst e))).map
          (fun e => EVENT_FLOW_EXPIRE e.ptr) := by
  induction es with
  | nil => rfl
  | cons e rest ih =>
    simp only [List.flatMap_cons, List.filter_append, ih]
    by_cases hp : purgeable cfg now inst e <;>
      by_cases hq : idleExceeded cfg now e ∧ (inst.ExpireFlow e).1 = true <;>
      simp [flowEvents, hp, hq, isFlowExpire]

theorem flowEvents_all_flow (cfg : ndGlobalConfig) (now : Int)
    (inst : ndInstance) (es : List nd_flow_entry) :
    ∀ ev ∈ es.flatMap (flowEvents cfg now inst), isFlowEvent ev = true := by
  intro ev hev
  obtain ⟨e, _, he⟩ := List.mem_flatMap.mp hev
  unfold flowEvents at he
  rcases List.mem_append.mp he with h | h
  · split at h
    · simp only [List.mem_singleton] at h
      subst h
      rfl
    · simp at h
  · split at h
    · simp only [List.mem_singleton] at h
      subst h
      rfl
    · simp at h

theorem ExpireFlow_flags (inst : ndInstance) (e : nd_flow_entry) :
    flagsKept e.flow.flags (inst.ExpireFlow e).2.2.flow.flags ∧
    (lifecycleKept e.flow.flags →
      lifecycleKept (inst.ExpireFlow e).2.2.flow.flags) := by
  unfold ndInstance.ExpireFlow flagsKept lifecycleKept
  by_cases hdc : e.flow.flags.detection_complete = true
  · simp [hdc, nd_flow_entry.withFlags]
  · by_cases hex : e.flow.flags.expiring = false
    · cases hf : thread_find inst.thread_detection e.flow.dpi_thread_id with
      | none => simp [hdc, hex, hf, nd_flow_entry.withFlags]
      | some q => simp [hdc, hex, hf, nd_flow_entry.withFlags]
    · simp [hdc, hex]

theorem flagsKept_refl (f : ndFlowFlags) : flagsKept f f :=
  ⟨id, id, id, id⟩

/-- C11 as amended: ndInstance::ExpireFlow, the forced expiry of
DestroyCaptureThreads, the idle check and the whole loop body of the
ProcessFlows sweep, and ndFlow::Reset without full_reset never turn a true flag
among detection_init, detection_complete, expiring and expired into false; and
if before the operation detection_complete implies detection_init and expired
implies expiring or detection_complete, then the same holds afterwards. -/
theorem flow_flags_monotone (cfg : ndGlobalConfig) (now : Int)
    (inst : ndInstance) (e : nd_flow_entry) :
    (flagsKept e.flow.flags (inst.ExpireFlow e).2.2.flow.flags ∧
      (lifecycleKept e.flow.flags →
        lifecycleKept (inst.ExpireFlow e).2.2.flow.flags)) ∧
    (flagsKept e.flow.flags (inst.forceExpire_entry e).2.flow.flags ∧
      (lifecycleKept e.flow.flags →
        lifecycleKept (inst.forceExpire_entry e).2.flow.flags)) ∧
    (flagsKept e.flow.flags (inst.ProcessFlows_idle cfg now e).2.flow.flags ∧
      (lifecycleKept e.flow.flags →
        lifecycleKept (inst.ProcessFlows_idle cfg now e).2.flow.flags)) ∧
    (∀ e1, (inst.ProcessFlows_entry cfg now e).2 = some e1 →
      flagsKept e.flow.flags e1.flow.flags ∧
      (lifecycleKept e.flow.flags → lifecycleKept e1.flow.flags)) ∧
    (e.flow.Reset false).flags = e.flow.flags := by
  have hE := ExpireFlow_flags inst e
  have hI : flagsKept e.flow.flags (inst.ProcessFlows_idle cfg now e).2.flow.flags ∧
      (lifecycleKept e.flow.flags →
        lifecycleKept (inst.ProcessFlows_idle cfg now e).2.flow.flags) := by
    rw [ProcessFlows_idle_entry]
    split
    · exact hE
    · exact ⟨flagsKept_refl _, id⟩
  refine ⟨hE, ?_, hI, ?_, ?_⟩
  · unfold ndInstance.forceExpire_entry
    split
    · exact hE
    · exact ⟨flagsKept_refl _, id⟩
  · intro e1 h1
    obtain ⟨_, _, _, _, _, _, a7⟩ := ProcessFlows_entry_spec cfg now inst inst e rfl
    obtain ⟨_, _, c3⟩ := a7 e1 h1
    rw [c3]
    exact hI
  · simp [ndFlow.Reset, ndFlow.stats_Reset]

/-- C11 as stated fails. ExpireFlow on a flow with detection complete sets
expired and leaves expiring clear, so expired no longer implies expiring; on a
fresh flow it sets expiring with detection_complete clear, so expiring no
longer implies detection_complete; and ndFlow::Reset with full_reset clears
detection_init of a flow that had it set. -/
theorem flow_flags_monotone_counterexample :
    (lifecycleOrdered (exEntry true true false false 1).flow.flags ∧
      ¬ lifecycleOrdered
        ((exInstance []).ExpireFlow (exEntry true true false false 1)).2.2.flow.flags) ∧
    (lifecycleOrdered (exEntry false false false false 1).flow.flags ∧
      ¬ lifecycleOrdered
        ((exInstance []).ExpireFlow (exEntry false false false false 1)).2.2.flow.flags) ∧
    ¬ flagsKept (exEntry true false false false 1).flow.flags
        ((exEntry true false false false 1).flow.Reset true).flags := by
  refine ⟨⟨by decide, by decide⟩, ⟨by decide, by decide⟩, by decide⟩

/-- C12: in a ProcessFlows sweep ExpireFlow is called, in the order of the map,
for exactly the flows whose expired flag is false and for which
floor(ts_last_seen / 1000) + ttl < now, where ttl is ttl_idle_flow when the
protocol is not TCP, ttl_idle_flow when it is TCP and tcp_fin_ack is non-zero,
and ttl_idle_tcp_flow when it is TCP and tcp_fin_ack is zero; the same holds
for the idle check of a single flow. A flow whose idle time equals the
threshold exactly is not submitted, and an expired flow is never submitted. -/
theorem ProcessFlows_submits (cfg : ndGlobalConfig) (now : Int)
    (inst : ndInstance) (e : nd_flow_entry) :
    (inst.ProcessFlows cfg now).expire_calls = inst.expire_calls ++
      (inst.flow_buckets.flatten.filter
        (fun x => decide (idleExceeded cfg now x))).map (fun x => x.ptr) ∧
    (inst.ProcessFlows_idle cfg now e).1.expire_calls = inst.expire_calls ++
      (if idleExceeded cfg now e then [e.ptr] else []) ∧
    (idleExceeded cfg now e ↔
      e.flow.flags.expired = false ∧
      Int.ofNat (e.flow.ts_last_seen / 1000)
        + Int.ofNat (ProcessFlows_ttl cfg e.flow) < now) ∧
    (e.flow.ip_protocol ≠ IPPROTO_TCP →
      ProcessFlows_ttl cfg e.flow = cfg.ttl_idle_flow) ∧
    (e.flow.ip_protocol = IPPROTO_TCP → e.flow.flags.tcp_fin_ack ≠ 0 →
      ProcessFlows_ttl cfg e.flow = cfg.ttl_idle_flow) ∧
    (e.flow.ip_protocol = IPPROTO_TCP → e.flow.flags.tcp_fin_ack = 0 →
      ProcessFlows_ttl cfg e.flow = cfg.ttl_idle_tcp_flow) ∧
    (Int.ofNat (e.flow.ts_last_seen / 1000)
        + Int.ofNat (ProcessFlows_ttl cfg e.flow) = now →
      ¬ idleExceeded cfg now e) ∧
    (e.flow.flags.expired = true → ¬ idleExceeded cfg now e) := by
  refine ⟨(ProcessFlows_spec cfg now inst).2.2.1,
    (ProcessFlows_idle_frame cfg now inst e).2.2.2.1, Iff.rfl, ?_, ?_, ?_, ?_, ?_⟩
  · intro h
    simp [ProcessFlows_ttl, h]
  · intro h h2
    simp [ProcessFlows_ttl, h, h2]
  · intro h h2
    simp [ProcessFlows_ttl, h, h2]
  · intro h hex
    have := hex.2
    omega
  · intro h hex
    rw [hex.1] at h
    exact absurd h (by decide)

theorem thread_find_QueuePacket_self (t : nd_detection_threads) (id : Int)
    (p : Nat) (q : List Nat) (h : thread_find t id = some q) :
    thread_find (QueuePacket t id p) id = some (q ++ [p]) := by
  induction t with
  | nil => simp [thread_find] at h
  | cons x rest ih =>
    by_cases hx : x.1 = id
    · simp only [thread_find, hx, if_true, Option.some.injEq] at h
      simp [QueuePacket, thread_find, hx, h]
    · simp only [thread_find, hx, if_false] at h
      have := ih h
      simp only [QueuePacket] at this
      simp [QueuePacket, thread_find, hx, this]

theorem thread_find_QueuePacket_other (t : nd_detection_threads) (id id2 : Int)
    (p : Nat) (h : id2 ≠ id) :
    thread_find (QueuePacket t id p) id2 = thread_find t id2 := by
  induction t with
  | nil => rfl
  | cons x rest ih =>
    have hcons : QueuePacket (x :: rest) id p
        = (if x.1 = id then (x.1, x.2 ++ [p]) else x) :: QueuePacket rest id p := rfl
    rw [hcons]
    by_cases hx2 : x.1 = id2
    · have hx : ¬ x.1 = id := by
        rw [hx2]
        exact h
      rw [if_neg hx]
      simp [thread_find, hx2]
    · have hhead : (if x.1 = id then (x.1, x.2 ++ [p]) else x).1 = x.1 := by
        split <;> rfl
      simp only [thread_find, hhead, hx2, if_false]
      exact ih

theorem ProcessFlows_idle_exceeded (cfg : ndGlobalConfig) (now : Int)
    (inst : ndInstance) (e : nd_flow_entry) (hidle : idleExceeded cfg now e) :
    (inst.ProcessFlows_idle cfg now e).2 = (inst.ExpireFlow e).2.2 ∧
    (inst.ProcessFlows_idle cfg now e).1.thread_detection
      = (inst.ExpireFlow e).2.1.thread_detection ∧
    (inst.ProcessFlows_idle cfg now e).1.plugin_events
      = (inst.ExpireFlow e).2.1.plugin_events := by
  obtain ⟨_, _, _, _, a5, _, _⟩ := ProcessFlows_idle_frame cfg now inst e
  obtain ⟨_, _, _, _, _, b6, _, _⟩ := ExpireFlow_frame inst e
  refine ⟨?_, ?_, ?_⟩
  · rw [ProcessFlows_idle_entry, if_pos hidle]
  · have key : ∀ i2 : ndInstance, i2.thread_detection = inst.thread_detection →
        (i2.ExpireFlow e).2.1.thread_detection
          = (inst.ExpireFlow e).2.1.thread_detection := by
      intro i2 h
      unfold ndInstance.ExpireFlow
      simp only [h]
      by_cases hdc : e.flow.flags.detection_complete = true
      · simp [hdc]
      · by_cases hex : e.flow.flags.expiring = false
        · cases hf : thread_find inst.thread_detection e.flow.dpi_thread_id <;>
            simp [hdc, hex, hf, nd_flow_entry.withFlags]
        · simp [hdc, hex]
    obtain ⟨h1, h2⟩ := hidle
    unfold ndInstance.ProcessFlows_idle
    simp only [h1, h2, if_true]
    by_cases huse : e.use_count > 1
    · simp only [huse, if_true]
      split <;> exact key _ rfl
    · simp only [huse, if_false]
      split <;> rfl
  · rw [a5, b6]
    simp [hidle]

/-- C13 as amended: for every flow that is not expired and whose idle threshold
is exceeded at an update tick, the idle check of the sweep does the following.
When detection is not complete and the flow is not yet expiring, it sets
flags.expiring and, when a detection thread with the id dpi_thread_id exists,
appends one item for the flow to the queue of that thread (the other queues
are untouched) and broadcasts flow_expiring; without such a thread it sets
expired as well and queues nothing. When detection is complete it sets expired,
leaves expiring as it was, queues nothing and broadcasts nothing. When the flow
is already expiring and detection is not complete, nothing changes. -/
theorem ProcessFlows_expiring (cfg : ndGlobalConfig) (now : Int)
    (inst : ndInstance) (e : nd_flow_entry) (hidle : idleExceeded cfg now e) :
    (e.flow.flags.detection_complete = false → e.flow.flags.expiring = false →
      ∀ q, thread_find inst.thread_detection e.flow.dpi_thread_id = some q →
        (inst.ProcessFlows_idle cfg now e).2.flow.flags.expiring = true ∧
        (inst.ProcessFlows_idle cfg now e).2.flow.flags.expired = false ∧
        thread_find (inst.ProcessFlows_idle cfg now e).1.thread_detection
          e.flow.dpi_thread_id = some (q ++ [e.ptr]) ∧
        (∀ id2, id2 ≠ e.flow.dpi_thread_id →
          thread_find (inst.ProcessFlows_idle cfg now e).1.thread_detection id2
            = thread_find inst.thread_detection id2) ∧
        (inst.ProcessFlows_idle cfg now e).1.plugin_events
          = inst.plugin_events ++ [EVENT_FLOW_EXPIRING e.ptr]) ∧
    (e.flow.flags.detection_complete = false → e.flow.flags.expiring = false →
      thread_find inst.thread_detection e.flow.dpi_thread_id = none →
        (inst.ProcessFlows_idle cfg now e).2.flow.flags.expiring = true ∧
        (inst.ProcessFlows_idle cfg now e).2.flow.flags.expired = true ∧
        (inst.ProcessFlows_idle cfg now e).1.thread_detection = inst.thread_detection ∧
        (inst.ProcessFlows_idle cfg now e).1.plugin_events = inst.plugin_events) ∧
    (e.flow.flags.detection_complete = true →
        (inst.ProcessFlows_idle cfg now e).2.flow.flags.expired = true ∧
        (inst.ProcessFlows_idle cfg now e).2.flow.flags.expiring
          = e.flow.flags.expiring ∧
        (inst.ProcessFlows_idle cfg now e).1.thread_detection = inst.thread_detection ∧
        (inst.ProcessFlows_idle cfg now e).1.plugin_events = inst.plugin_events) ∧
    (e.flow.flags.detection_complete = false → e.flow.flags.expiring = true →
        (inst.ProcessFlows_idle cfg now e).2 = e ∧
        (inst.ProcessFlows_idle cfg now e).1.thread_detection = inst.thread_detection ∧
        (inst.ProcessFlows_idle cfg now e).1.plugin_events = inst.plugin_events) := by
  obtain ⟨h1, h2, h3⟩ := ProcessFlows_idle_exceeded cfg now inst e hidle
  rw [h1, h2, h3]
  have hexp : e.flow.flags.expired = false := hidle.1
  refine ⟨?_, ?_, ?_, ?_⟩
  · intro hdc hex q hq
    have hthr : (inst.ExpireFlow e).2.1.thread_detection
        = QueuePacket inst.thread_detection e.flow.dpi_thread_id e.ptr := by
      simp [ndInstance.ExpireFlow, hdc, hex, hq, nd_flow_entry.withFlags]
    refine ⟨?_, ?_, ?_, ?_, ?_⟩
    · simp [ndInstance.ExpireFlow, hdc, hex, hq, nd_flow_entry.withFlags]
    · simp [ndInstance.ExpireFlow, hdc, hex, hq, nd_flow_entry.withFlags, hexp]
    · rw [hthr]
      exact thread_find_QueuePacket_self _ _ _ _ hq
    · intro id2 hid2
      rw [hthr]
      exact thread_find_QueuePacket_other _ _ _ _ hid2
    · simp [ndInstance.ExpireFlow, hdc, hex, hq, nd_flow_entry.withFlags]
  · intro hdc hex hq
    simp [ndInstance.ExpireFlow, hdc, hex, hq, nd_flow_entry.withFlags]
  · intro hdc
    simp [ndInstance.ExpireFlow, hdc, nd_flow_entry.withFlags]
  · intro hdc hex
    simp [ndInstance.ExpireFlow, hdc, hex]

theorem ProcessFlows_expiring_witness :
    idleExceeded exConfig 1000 (exEntry true false false false 2) ∧
    (((exInstance []).ProcessFlows_idle exConfig 1000
        (exEntry true false false false 2)).2.flow.flags.expiring = true ∧
      ((exInstance []).ProcessFlows_idle exConfig 1000
        (exEntry true false false false 2)).1.thread_detection = [(0, [7])]) := by
  have hidle : idleExceeded exConfig 1000 (exEntry true false false false 2) := by
    decide
  obtain ⟨h1, _, h3, _⟩ := (ProcessFlows_expiring exConfig 1000 (exInstance [])
    (exEntry true false false false 2) hidle).1 rfl rfl [] rfl
  exact ⟨hidle, h1, rfl⟩

/-- C13 as stated fails: a flow that is not expired, has completed detection and
has exceeded its idle threshold is marked expired by the sweep; it is not
marked expiring and nothing is put on the queue of its detection thread. -/
theorem ProcessFlows_expiring_counterexample :
    (exEntry true true false false 2).flow.flags.expired = false ∧
    idleExceeded exConfig 1000 (exEntry true true false false 2) ∧
    ((exInstance [[exEntry true true false false 2]]).ProcessFlows exConfig 1000
      ).flow_buckets.map (fun fm => fm.map
        (fun x => (x.flow.flags.expiring, x.flow.flags.expired))) = [[(false, true)]] ∧
    ((exInstance [[exEntry true true false false 2]]).ProcessFlows exConfig 1000
      ).thread_detection = [(0, [])] := by
  refine ⟨rfl, by decide, by decide, by decide⟩

/-- C14: the loop body of ProcessFlows erases a flow from its bucket if and only
if, after the idle check of that sweep, its expired flag is set and its use
count is exactly 1. Over a whole sweep every bucket keeps, under the same
digest and in the same order, exactly the flows that are not erased; the
flow_expire events broadcast by the sweep are one for each erased flow, in the
order of the map, and none for any other flow; and flows_purged is the number
of erased flows. -/
theorem ProcessFlows_purges (cfg : ndGlobalConfig) (now : Int)
    (inst : ndInstance) (e : nd_flow_entry) :
    ((inst.ProcessFlows_entry cfg now e).2 = none ↔
      (inst.ProcessFlows_idle cfg now e).2.flow.flags.expired = true ∧
      (inst.ProcessFlows_idle cfg now e).2.use_count = 1) ∧
    (purgeable cfg now inst e ↔
      (inst.ProcessFlows_idle cfg now e).2.flow.flags.expired = true ∧
      (inst.ProcessFlows_idle cfg now e).2.use_count = 1) ∧
    (inst.ProcessFlows cfg now).flow_buckets.map
        (fun fm => fm.map (fun x => (x.digest, x.ptr)))
      = inst.flow_buckets.map (fun fm =>
          (fm.filter (fun x => decide (¬ purgeable cfg now inst x))).map
            (fun x => (x.digest, x.ptr))) ∧
    (∃ evs, (inst.ProcessFlows cfg now).plugin_events = inst.plugin_events ++ evs ∧
      evs.filter isFlowExpire
        = (inst.flow_buckets.flatten.filter
            (fun x => decide (purgeable cfg now inst x))).map
            (fun x => EVENT_FLOW_EXPIRE x.ptr)) ∧
    (inst.ProcessFlows cfg now).status.flows_purged
      = (inst.flow_buckets.flatten.filter
          (fun x => decide (purgeable cfg now inst x))).length := by
  obtain ⟨_, _, _, a4, a5, a6⟩ := ProcessFlows_spec cfg now inst
  refine ⟨?_, Iff.rfl, a6, ⟨_, a5, flowEvents_filter_expire cfg now inst _⟩, a4⟩
  exact (ProcessFlows_entry_spec cfg now inst inst e rfl).2.2.2.2.2.1

theorem ExpireFlow_true_iff (inst : ndInstance) (e : nd_flow_entry) :
    (inst.ExpireFlow e).1 = true ↔
      e.flow.flags.detection_complete = false ∧ e.flow.flags.expiring = false ∧
      (thread_find inst.thread_detection e.flow.dpi_thread_id).isSome = true := by
  unfold ndInstance.ExpireFlow
  by_cases hdc : e.flow.flags.detection_complete = true
  · simp [hdc]
  · by_cases hex : e.flow.flags.expiring = false
    · cases hf : thread_find inst.thread_detection e.flow.dpi_thread_id <;>
        simp [hdc, hex, hf, nd_flow_entry.withFlags]
    · simp [hdc, hex]

theorem runTicks_events (cfg : ndGlobalConfig) (ticks : List UpdateTick)
    (inst : ndInstance) (e : nd_flow_entry) :
    ∃ n, (runTicks cfg ticks inst e).1.plugin_events
      = inst.plugin_events ++ List.replicate n (EVENT_FLOW_EXPIRING e.ptr) ++
        (if (runTicks cfg ticks inst e).2.isNone then [EVENT_FLOW_EXPIRE e.ptr]
         else []) := by
  induction ticks generalizing inst e with
  | nil => exact ⟨0, by simp [runTicks]⟩
  | cons t ts ih =>
    obtain ⟨_, _, _, _, a5, a6, a7⟩ :=
      ProcessFlows_entry_spec cfg t.now inst inst (t.entry e) rfl
    have hptr : (t.entry e).ptr = e.ptr := rfl
    have hev : ∃ k, flowEvents cfg t.now inst (t.entry e)
        = List.replicate k (EVENT_FLOW_EXPIRING e.ptr) ++
          (if purgeable cfg t.now inst (t.entry e) then [EVENT_FLOW_EXPIRE e.ptr]
           else []) := by
      unfold flowEvents
      rw [hptr]
      split
      · exact ⟨1, rfl⟩
      · exact ⟨0, rfl⟩
    obtain ⟨k, hk⟩ := hev
    cases hr : (inst.ProcessFlows_entry cfg t.now (t.entry e)).2 with
    | none =>
      have hp := a6.mp hr
      refine ⟨k, ?_⟩
      simp only [runTicks, hr, Option.isNone_none, if_true]
      rw [a5, hk, if_pos hp, List.append_assoc]
    | some e1 =>
      have hp : ¬ purgeable cfg t.now inst (t.entry e) := fun hp => by
        rw [a6.mpr hp] at hr
        simp at hr
      obtain ⟨_, c2, _⟩ := a7 e1 hr
      obtain ⟨n, hn⟩ := ih (inst.ProcessFlows_entry cfg t.now (t.entry e)).1 e1
      refine ⟨k + n, ?_⟩
      simp only [runTicks, hr]
      rw [hn, a5, hk, if_neg hp, c2, hptr, List.append_nil, List.replicate_add]
      simp [List.append_assoc]

/-- C15 as amended: over every sequence of update ticks of a flow, started from
any instance and with the other threads doing anything to the flow between the
ticks, the events broadcast for the flow are some number of flow_expiring
events followed by at most one flow_expire event, which is broadcast exactly
when the flow is erased: flow_expire is the last event of a flow and no
flow_expiring comes after it. A sweep broadcasts flow_expiring for a flow only
when its idle check calls ExpireFlow on a flow whose detection is not complete,
which is not expiring and whose detection thread exists. -/
theorem flow_events_order (cfg : ndGlobalConfig) (ticks : List UpdateTick)
    (inst : ndInstance) (e : nd_flow_entry) (now : Int) :
    (∃ n, (runTicks cfg ticks inst e).1.plugin_events
      = inst.plugin_events ++ List.replicate n (EVENT_FLOW_EXPIRING e.ptr) ++
        (if (runTicks cfg ticks inst e).2.isNone then [EVENT_FLOW_EXPIRE e.ptr]
         else [])) ∧
    (EVENT_FLOW_EXPIRING e.ptr ∈ flowEvents cfg now inst e ↔
      idleExceeded cfg now e ∧ e.flow.flags.detection_complete = false ∧
      e.flow.flags.expiring = false ∧
      (thread_find inst.thread_detection e.flow.dpi_thread_id).isSome = true) ∧
    ((inst.ProcessFlows_entry cfg now e).1.plugin_events
      = inst.plugin_events ++ flowEvents cfg now inst e) := by
  refine ⟨runTicks_events cfg ticks inst e, ?_,
    (ProcessFlows_entry_spec cfg now inst inst e rfl).2.2.2.2.1⟩
  rw [← ExpireFlow_true_iff]
  unfold flowEvents
  by_cases hA : idleExceeded cfg now e ∧ (inst.ExpireFlow e).1 = true
  · simp [hA]
  · by_cases hp : purgeable cfg now inst e
    · simp [hA, hp]
    · simp [hA, hp]

/-- C15 as stated fails: a flow whose detection is complete and whose idle
threshold is exceeded is expired and purged by one sweep, which broadcasts
flow_expire for it although no flow_expiring was broadcast for it before. -/
theorem flow_events_order_counterexample :
    ((exInstance [[exEntry true true false false 1]]).ProcessFlows exConfig 1000
      ).plugin_events = [EVENT_FLOW_EXPIRE 7] ∧
    (exInstance [[exEntry true true false false 1]]).plugin_events = [] ∧
    EVENT_FLOW_EXPIRING 7 ∉
      ((exInstance [[exEntry true true false false 1]]).ProcessFlows exConfig 1000
        ).plugin_events := by
  refine ⟨by decide, rfl, by decide⟩

theorem forceExpire_entry_frame (inst0 inst : ndInstance) (e : nd_flow_entry)
    (h : inst.threadIds = inst0.threadIds) :
    (inst.forceExpire_entry e).1.threadIds = inst0.threadIds ∧
    (inst.forceExpire_entry e).2 = (inst0.forceExpire_entry e).2 := by
  unfold ndInstance.forceExpire_entry
  split
  · exact ⟨(ExpireFlow_frame inst e).1.trans h, (ExpireFlow_congr inst0 inst e h).2⟩
  · exact ⟨h, rfl⟩

theorem forceExpire_bucket_spec (inst0 : ndInstance) (es : List nd_flow_entry)
    (inst : ndInstance) (h : inst.threadIds = inst0.threadIds) :
    (ndInstance.forceExpire_bucket inst es).1.threadIds = inst0.threadIds ∧
    (ndInstance.forceExpire_bucket inst es).2
      = es.map (fun e => (inst0.forceExpire_entry e).2) := by
  induction es generalizing inst with
  | nil => exact ⟨h, rfl⟩
  | cons e rest ih =>
    obtain ⟨a1, a2⟩ := forceExpire_entry_frame inst0 inst e h
    obtain ⟨b1, b2⟩ := ih (inst.forceExpire_entry e).1 a1
    simp only [ndInstance.forceExpire_bucket, List.map_cons]
    exact ⟨b1, by rw [a2, b2]⟩

theorem forceExpire_buckets_spec (inst0 : ndInstance)
    (bs : List (List nd_flow_entry)) (inst : ndInstance)
    (h : inst.threadIds = inst0.threadIds) :
    (ndInstance.forceExpire_buckets inst bs).1.threadIds = inst0.threadIds ∧
    (ndInstance.forceExpire_buckets inst bs).2
      = bs.map (fun fm => fm.map (fun e => (inst0.forceExpire_entry e).2)) := by
  induction bs generalizing inst with
  | nil => exact ⟨h, rfl⟩
  | cons fm rest ih =>
    obtain ⟨a1, a2⟩ := forceExpire_bucket_spec inst0 fm inst h
    obtain ⟨b1, b2⟩ := ih (ndInstance.forceExpire_bucket inst fm).1 a1
    simp only [ndInstance.forceExpire_buckets, List.map_cons]
    exact ⟨b1, by rw [a2, b2]⟩

theorem expired_entry_tick (cfg : ndGlobalConfig) (now : Int) (inst : ndInstance)
    (e : nd_flow_entry) (hexp : e.flow.flags.expired = true) :
    (e.use_count = 1 →
      (inst.ProcessFlows_entry cfg now e).2 = none ∧
      (inst.ProcessFlows_entry cfg now e).1.plugin_events
        = inst.plugin_events ++ [EVENT_FLOW_EXPIRE e.ptr]) ∧
    (e.use_count ≠ 1 →
      (inst.ProcessFlows_entry cfg now e).2 = some e ∧
      (inst.ProcessFlows_entry cfg now e).1.plugin_events = inst.plugin_events) := by
  have hid : inst.ProcessFlows_idle cfg now e
      = ((if e.use_count > 1 then
          { inst with status := { inst.status with
              flows_in_use := inst.status.flows_in_use + 1 } }
        else inst), e) := by
    unfold ndInstance.ProcessFlows_idle
    simp only [hexp, Bool.true_eq_false, if_false]
  unfold ndInstance.ProcessFlows_entry
  simp only [hid]
  constructor
  · intro h1
    have hgt : ¬ e.use_count > 1 := by omega
    simp [ndInstance.ProcessFlows_purge, hexp, h1]
  · intro h1
    by_cases hgt : e.use_count > 1 <;>
      simp [ndInstance.ProcessFlows_purge, hexp, h1, hgt]

theorem runTicks_expired (cfg : ndGlobalConfig) (ticks : List UpdateTick)
    (inst : ndInstance) (e : nd_flow_entry) (hexp : e.flow.flags.expired = true)
    (hkeep : ∀ t ∈ ticks, ∀ x : nd_flow_entry, x.flow.flags.expired = true →
      (t.touch x).flow.flags.expired = true) :
    ((runTicks cfg ticks inst e).2 = none ∧
      (runTicks cfg ticks inst e).1.plugin_events
        = inst.plugin_events ++ [EVENT_FLOW_EXPIRE e.ptr]) ∨
    ((∃ e1, (runTicks cfg ticks inst e).2 = some e1) ∧
      (runTicks cfg ticks inst e).1.plugin_events = inst.plugin_events) := by
  induction ticks generalizing inst e with
  | nil => exact Or.inr ⟨⟨e, rfl⟩, rfl⟩
  | cons t ts ih =>
    have hexp0 : (t.entry e).flow.flags.expired = true :=
      hkeep t (List.mem_cons_self _ _) e hexp
    obtain ⟨h1, h2⟩ := expired_entry_tick cfg t.now inst (t.entry e) hexp0
    by_cases hu : (t.entry e).use_count = 1
    · obtain ⟨a, b⟩ := h1 hu
      left
      simp only [runTicks, a]
      exact ⟨trivial, b⟩
    · obtain ⟨a, b⟩ := h2 hu
      have hrec := ih (inst.ProcessFlows_entry cfg t.now (t.entry e)).1 (t.entry e)
        hexp0 (fun s hs => hkeep s (List.mem_cons_of_mem _ hs))
      simp only [runTicks, a]
      rw [b] at hrec
      exact hrec

theorem runTicks_expired_first (cfg : ndGlobalConfig) (pre : List UpdateTick)
    (t : UpdateTick) (post : List UpdateTick) (inst : ndInstance)
    (e : nd_flow_entry) (hexp : e.flow.flags.expired = true)
    (hkeep : ∀ s ∈ pre ++ t :: post, ∀ x : nd_flow_entry,
      x.flow.flags.expired = true → (s.touch x).flow.flags.expired = true)
    (hpre : ∀ s ∈ pre, ∀ x : nd_flow_entry, (s.touch x).use_count ≠ 1)
    (ht : ∀ x : nd_flow_entry, (t.touch x).use_count = 1) :
    (runTicks cfg (pre ++ t :: post) inst e).2 = none ∧
    (runTicks cfg (pre ++ t :: post) inst e).1.plugin_events
      = inst.plugin_events ++ [EVENT_FLOW_EXPIRE e.ptr] := by
  induction pre generalizing inst e with
  | nil =>
    have hexp0 : (t.entry e).flow.flags.expired = true :=
      hkeep t (by simp) e hexp
    obtain ⟨a, b⟩ := (expired_entry_tick cfg t.now inst (t.entry e) hexp0).1 (ht e)
    simp only [List.nil_append, runTicks, a]
    exact ⟨trivial, b⟩
  | cons s rest ih =>
    have hexp0 : (s.entry e).flow.flags.expired = true :=
      hkeep s (by simp) e hexp
    obtain ⟨a, b⟩ := (expired_entry_tick cfg s.now inst (s.entry e) hexp0).2
      (hpre s (List.mem_cons_self _ _) e)
    have hrec := ih (inst.ProcessFlows_entry cfg s.now (s.entry e)).1 (s.entry e)
      hexp0 (fun u hu => hkeep u (by
        simp only [List.cons_append, List.mem_cons]
        exact Or.inr hu))
      (fun u hu => hpre u (List.mem_cons_of_mem _ hu))
    simp only [List.cons_append, runTicks, a]
    rw [b] at hrec
    exact hrec

/-- C16 as amended: DestroyCaptureThreads with expire_flows set clears the
capture threads and runs the forced expiry over every flow of the map; a flow
with detection_complete set is flagged expired after it unless it was marked
expiring and not yet expired (such a flow is skipped). As long as no
other thread clears the expired flag, the following sweeps broadcast for such a
flow either no flow_expire event, the flow staying in the map, or exactly one,
at the sweep that erases it; the latter happens at the first sweep at which its
use count is 1. -/
theorem forced_expiry_then_sweeps (cfg : ndGlobalConfig) (inst inst1 : ndInstance)
    (threads : nd_capture_threads) (x : nd_flow_entry) (ticks : List UpdateTick)
    (hdc : x.flow.flags.detection_complete = true)
    (hne : x.flow.flags.expiring = false ∨ x.flow.flags.expired = true)
    (hkeep : ∀ t ∈ ticks, ∀ y : nd_flow_entry, y.flow.flags.expired = true →
      (t.touch y).flow.flags.expired = true) :
    (inst.DestroyCaptureThreads threads true).1.flow_buckets
      = inst.flow_buckets.map
          (fun fm => fm.map (fun y => (inst.forceExpire_entry y).2)) ∧
    (inst.DestroyCaptureThreads threads true).2 = [] ∧
    (inst.forceExpire_entry x).2.flow.flags.expired = true ∧
    (inst.forceExpire_entry x).2.ptr = x.ptr ∧
    (inst.forceExpire_entry x).2.digest = x.digest ∧
    (((runTicks cfg ticks inst1 (inst.forceExpire_entry x).2).2 = none ∧
        (runTicks cfg ticks inst1 (inst.forceExpire_entry x).2).1.plugin_events
          = inst1.plugin_events ++ [EVENT_FLOW_EXPIRE x.ptr]) ∨
      ((∃ e1, (runTicks cfg ticks inst1 (inst.forceExpire_entry x).2).2 = some e1) ∧
        (runTicks cfg ticks inst1 (inst.forceExpire_entry x).2).1.plugin_events
          = inst1.plugin_events)) ∧
    (∀ pre t post, ticks = pre ++ t :: post →
      (∀ s ∈ pre, ∀ y : nd_flow_entry, (s.touch y).use_count ≠ 1) →
      (∀ y : nd_flow_entry, (t.touch y).use_count = 1) →
      (runTicks cfg ticks inst1 (inst.forceExpire_entry x).2).2 = none ∧
      (runTicks cfg ticks inst1 (inst.forceExpire_entry x).2).1.plugin_events
        = inst1.plugin_events ++ [EVENT_FLOW_EXPIRE x.ptr]) := by
  have hexp : (inst.forceExpire_entry x).2.flow.flags.expired = true := by
    unfold ndInstance.forceExpire_entry
    by_cases h : x.flow.flags.expired = false
    · have hne1 : x.flow.flags.expiring = false := by
        rcases hne with h1 | h1
        · exact h1
        · rw [h] at h1
          exact absurd h1 (by decide)
      simp [h, hne1, ndInstance.ExpireFlow, hdc, nd_flow_entry.withFlags]
    · simp [h]
  have hptr : (inst.forceExpire_entry x).2.ptr = x.ptr := by
    unfold ndInstance.forceExpire_entry
    split
    · exact (ExpireFlow_frame inst x).2.2.2.2.2.2.2
    · rfl
  have hdig : (inst.forceExpire_entry x).2.digest = x.digest := by
    unfold ndInstance.forceExpire_entry
    split
    · exact (ExpireFlow_frame inst x).2.2.2.2.2.2.1
    · rfl
  refine ⟨?_, ?_, hexp, hptr, hdig, ?_, ?_⟩
  · simp only [ndInstance.DestroyCaptureThreads]
    exact (forceExpire_buckets_spec inst inst.flow_buckets inst rfl).2
  · simp [ndInstance.DestroyCaptureThreads]
  · rw [← hptr]
    exact runTicks_expired cfg ticks inst1 _ hexp hkeep
  · intro pre t post hticks hpre ht
    subst hticks
    rw [← hptr]
    exact runTicks_expired_first cfg pre t post inst1 _ hexp hkeep hpre ht

theorem forced_expiry_then_sweeps_witness :
    (exEntry true true false false 2).flow.flags.detection_complete = true ∧
    ((exEntry true true false false 2).flow.flags.expiring = false ∨
      (exEntry true true false false 2).flow.flags.expired = true) ∧
    ((exInstance [[exEntry true true false false 2]]).DestroyCaptureThreads [] true
      ).1.flow_buckets.map (fun fm => fm.map (fun y => y.flow.flags.expired))
      = [[true]] ∧
    (runTicks exConfig [exTickSole] (exInstance [])
      ((exInstance []).forceExpire_entry (exEntry true true false false 2)).2
      ).1.plugin_events = [EVENT_FLOW_EXPIRE 7] := by
  have h := forced_expiry_then_sweeps exConfig (exInstance []) (exInstance []) []
    (exEntry true true false false 2) [exTickSole] rfl (Or.inl rfl)
    (by
      intro t ht y hy
      simp only [List.mem_singleton] at ht
      subst ht
      exact hy)
  refine ⟨rfl, Or.inl rfl, by decide, ?_⟩
  exact (h.2.2.2.2.2.2 [] exTickSole [] rfl (by simp) (fun _ => rfl)).2

/-- C16 as stated fails: a flow with detection_complete set that is already
marked expiring but not yet expired is skipped by the forced expiry and is not
flagged expired by it. -/
theorem forced_expiry_then_sweeps_counterexample :
    (exEntry true true true false 2).flow.flags.detection_complete = true ∧
    (exEntry true true true false 2).flow.flags.expired = false ∧
    ((exInstance [[exEntry true true true false 2]]).DestroyCaptureThreads [] true
      ).1.flow_buckets.map (fun fm => fm.map (fun y => y.flow.flags.expired))
      = [[false]] := by
  refine ⟨rfl, rfl, by decide⟩

theorem ProcessUpdate_threads_spec (inst : ndInstance) (threads : nd_capture_threads)
    (hne : ∀ it ∈ threads, it.2 ≠ []) :
    ndInstance.ProcessUpdate_threads inst threads
      = some { inst with plugin_events :=
          (inst.plugin_events ++ threads.map (fun it => EVENT_PKT_CAPTURE_STATS it.1)) } := by
  induction threads generalizing inst with
  | nil => simp [ndInstance.ProcessUpdate_threads]
  | cons it rest ih =>
    have h1 := hne it (List.mem_cons_self _ _)
    have h2 := ih (inst.broadcast (EVENT_PKT_CAPTURE_STATS it.1))
      (fun x hx => hne x (List.mem_cons_of_mem _ hx))
    cases hinst : it.2 with
    | nil => exact absurd hinst h1
    | cons t ts =>
      simp only [ndInstance.ProcessUpdate_threads, hinst, h2]
      simp [ndInstance.broadcast]

/-- C17: for capture threads in which every interface has at least one thread
instance, ProcessUpdate returns and the events it broadcasts are, in this order:
status_update, update_init, interfaces, one pkt_capture_stats per interface of
the capture threads, pkt_global_stats, flow_map, update_complete, and then the
events of the flow sweep, which are all flow_expiring or flow_expire events. -/
theorem ProcessUpdate_event_order (cfg : ndGlobalConfig) (now : Int)
    (inst : ndInstance) (threads : nd_capture_threads)
    (hne : ∀ it ∈ threads, it.2 ≠ []) :
    ∃ (r : ndInstance) (sweep : List ndPluginEvent),
      inst.ProcessUpdate cfg now threads = some r ∧
      r.plugin_events = inst.plugin_events ++
        [EVENT_STATUS_UPDATE, EVENT_UPDATE_INIT, EVENT_INTERFACES] ++
        threads.map (fun it => EVENT_PKT_CAPTURE_STATS it.1) ++
        [EVENT_PKT_GLOBAL_STATS, EVENT_FLOW_MAP, EVENT_UPDATE_COMPLETE] ++ sweep ∧
      (∀ ev ∈ sweep, isFlowEvent ev = true) := by
  have h1 := ProcessUpdate_threads_spec
    (((inst.broadcast EVENT_STATUS_UPDATE).broadcast EVENT_UPDATE_INIT).broadcast
      EVENT_INTERFACES) threads hne
  obtain ⟨m, hm, hev⟩ : ∃ m : ndInstance,
      ndInstance.ProcessUpdate_threads
        (((inst.broadcast EVENT_STATUS_UPDATE).broadcast EVENT_UPDATE_INIT).broadcast
          EVENT_INTERFACES) threads = some m ∧
      m.plugin_events = inst.plugin_events ++
        [EVENT_STATUS_UPDATE, EVENT_UPDATE_INIT, EVENT_INTERFACES] ++
        threads.map (fun it => EVENT_PKT_CAPTURE_STATS it.1) :=
    ⟨_, h1, by simp [ndInstance.broadcast]⟩
  let m3 : ndInstance :=
    ((m.broadcast EVENT_PKT_GLOBAL_STATS).broadcast EVENT_FLOW_MAP).broadcast
      EVENT_UPDATE_COMPLETE
  refine ⟨m3.ProcessFlows cfg now,
    m3.flow_buckets.flatten.flatMap (flowEvents cfg now m3), ?_, ?_,
    flowEvents_all_flow cfg now m3 _⟩
  · simp only [ndInstance.ProcessUpdate, hm, m3]
  · rw [(ProcessFlows_spec cfg now m3).2.2.2.2.1]
    simp [m3, ndInstance.broadcast, hev]

/-- The events of one update over one interface with one running capture
thread and an empty flow map. -/
theorem ProcessUpdate_event_order_witness :
    (∀ it ∈ exThreadsSingle, it.2 ≠ []) ∧
    ∃ (r : ndInstance) (sweep : List ndPluginEvent),
      (exInstance []).ProcessUpdate exConfig 100
          exThreadsSingle = some r ∧
      r.plugin_events = (exInstance []).plugin_events ++
        [EVENT_STATUS_UPDATE, EVENT_UPDATE_INIT, EVENT_INTERFACES] ++
        exThreadsSingle.map (fun it => EVENT_PKT_CAPTURE_STATS it.1) ++
        [EVENT_PKT_GLOBAL_STATS, EVENT_FLOW_MAP, EVENT_UPDATE_COMPLETE] ++ sweep ∧
      (∀ ev ∈ sweep, isFlowEvent ev = true) :=
  ⟨by simp [exThreadsSingle],
    ProcessUpdate_event_order exConfig 100 (exInstance []) exThreadsSingle
      (by simp [exThreadsSingle])⟩

theorem ReapCaptureThreads_count_single (threads : nd_capture_threads)
    (h : ∀ it ∈ threads, ∃ t, it.2 = [t] ∧ t.terminated = true) :
    ∀ n, threads.length ≤ n → n < 2 ^ 64 →
      threads.foldl
        (fun count it =>
          it.2.foldl
            (fun count it_instance =>
              if it_instance.terminated then size_t_dec count else count)
            count)
        n = n - threads.length := by
  induction threads with
  | nil => intro n _ _; simp
  | cons it rest ih =>
    intro n hn hlt
    obtain ⟨t, ht, htt⟩ := h it (List.mem_cons_self _ _)
    have hrest := ih (fun x hx => h x (List.mem_cons_of_mem _ hx))
    simp only [List.length_cons] at hn
    have hdec : size_t_dec n = n - 1 := by
      unfold size_t_dec
      have h1 : n + 2 ^ 64 - 1 = (n - 1) + 2 ^ 64 := by omega
      rw [h1, Nat.add_mod_right, Nat.mod_eq_of_lt (by omega)]
    simp only [List.foldl_cons, ht, List.foldl_nil, htt, if_true, hdec]
    rw [hrest (n - 1) (by omega) (by omega)]
    simp only [List.length_cons]
    omega

/-- With exactly one thread instance per interface, all of them terminated,
ReapCaptureThreads counts zero and shuts down when termination has not been
requested and run_without_sources is false. -/
theorem ReapCaptureThreads_single_instances (cfg : ndGlobalConfig)
    (inst : ndInstance) (threads : nd_capture_threads)
    (hlen : threads.length < 2 ^ 64)
    (h : ∀ it ∈ threads, ∃ t, it.2 = [t] ∧ t.terminated = true)
    (hterm : inst.terminate = false) (hrun : cfg.run_without_sources = false) :
    (inst.ReapCaptureThreads cfg threads).1 = 0 ∧
    (inst.ReapCaptureThreads cfg threads).2.1.terminate = true ∧
    (inst.ReapCaptureThreads cfg threads).2.2 = [] := by
  have hc : ReapCaptureThreads_count threads = 0 := by
    unfold ReapCaptureThreads_count
    rw [Nat.mod_eq_of_lt hlen,
      ReapCaptureThreads_count_single threads h _ (Nat.le_refl _) hlen]
    omega
  simp only [ndInstance.ReapCaptureThreads, hc, hterm, hrun]
  simp [ndInstance.Terminate, ndInstance.DestroyCaptureThreads]
  split <;> rfl

/-- C18: ReapCaptureThreads on one interface with two thread instances that have
both terminated, with run_without_sources false and no termination requested:
the count starts at the number of interfaces, 1, is decremented once per
terminated instance and wraps to 2^64 - 1, so the test count == 0 fails and
nothing is shut down: Terminate is not called and the capture threads are not
destroyed. On two interfaces, one with two terminated instances and one with a
running instance, the count is 0 and the instance shuts down although a capture
thread is alive. -/
theorem ReapCaptureThreads_fanout :
    (∀ it ∈ exThreadsFanout, it.2 ≠ [] ∧ ∀ t ∈ it.2, t.terminated = true) ∧
    exConfig.run_without_sources = false ∧
    (exInstance []).terminate = false ∧
    ((exInstance []).ReapCaptureThreads exConfig exThreadsFanout).1 = 2 ^ 64 - 1 ∧
    ((exInstance []).ReapCaptureThreads exConfig exThreadsFanout).2.1.terminate
      = false ∧
    ((exInstance []).ReapCaptureThreads exConfig exThreadsFanout).2.2
      = exThreadsFanout ∧
    (∃ it ∈ exThreadsMixed, ∃ t ∈ it.2, t.terminated = false) ∧
    ((exInstance []).ReapCaptureThreads exConfig exThreadsMixed).1 = 0 ∧
    ((exInstance []).ReapCaptureThreads exConfig exThreadsMixed).2.1.terminate
      = true ∧
    ((exInstance []).ReapCaptureThreads exConfig exThreadsMixed).2.2 = [] := by
  refine ⟨by decide, rfl, rfl, by decide, by decide, by decide, by decide,
    by decide, by decide, by decide⟩

/-! ## Theorems: the lower map, broadcast, reserved and totality -/

/-- C21 as stated fails: with a multicast lower address and a broadcast upper
address, neither of which is the error type, GetLowerMap sets other_type to
multicast, not broadcast; the same holds with the two types exchanged. -/
theorem GetLowerMap_broadcast_counterexample :
    (atMULTICAST ≠ atERROR ∧ atBROADCAST ≠ atERROR) ∧
    (exDhcpFlow 1).GetLowerMap atMULTICAST atBROADCAST LOWER_UNKNOWN OTHER_UNKNOWN
      = (LOWER_OTHER, OTHER_MULTICAST) ∧
    (exDhcpFlow 1).GetLowerMap atBROADCAST atMULTICAST LOWER_UNKNOWN OTHER_UNKNOWN
      = (LOWER_LOCAL, OTHER_MULTICAST) ∧
    ((exDhcpFlow 1).GetLowerMap atMULTICAST atBROADCAST LOWER_UNKNOWN
      OTHER_UNKNOWN).2 ≠ OTHER_BROADCAST := by
  refine ⟨⟨by decide, by decide⟩, rfl, rfl, by decide⟩

/-- C21 as amended: for every pair of address types in which neither is error
or multicast and at least one is broadcast, every flow and every previous value
of the outputs, ndFlow::GetLowerMap sets other_type to broadcast, with
lower_map = other when the lower endpoint is broadcast (also when both are) and
lower_map = local when only the upper endpoint is. -/
theorem GetLowerMap_broadcast (f : ndFlow) (lt ut : ndAddrType) (lm : LowerMap)
    (ot : OtherType) (hlt : lt ≠ atERROR ∧ lt ≠ atMULTICAST)
    (hut : ut ≠ atERROR ∧ ut ≠ atMULTICAST)
    (hb : lt = atBROADCAST ∨ ut = atBROADCAST) :
    (f.GetLowerMap lt ut lm ot).2 = OTHER_BROADCAST ∧
    (lt = atBROADCAST → (f.GetLowerMap lt ut lm ot).1 = LOWER_OTHER) ∧
    (lt ≠ atBROADCAST → (f.GetLowerMap lt ut lm ot).1 = LOWER_LOCAL) := by
  obtain ⟨h1, h2⟩ := hlt
  obtain ⟨h3, h4⟩ := hut
  cases lt <;> cases ut <;> simp_all [ndFlow.GetLowerMap]

theorem GetLowerMap_broadcast_witness :
    ((atLOCAL : ndAddrType) ≠ atERROR ∧ (atLOCAL : ndAddrType) ≠ atMULTICAST) ∧
    ((atLOCAL : ndAddrType) = atBROADCAST ∨
      (atBROADCAST : ndAddrType) = atBROADCAST) ∧
    (exDhcpFlow 1).GetLowerMap atLOCAL atBROADCAST LOWER_UNKNOWN OTHER_UNKNOWN
      = (LOWER_LOCAL, OTHER_BROADCAST) := by
  have h := GetLowerMap_broadcast (exDhcpFlow 1) atLOCAL atBROADCAST LOWER_UNKNOWN
    OTHER_UNKNOWN ⟨by decide, by decide⟩ ⟨by decide, by decide⟩ (Or.inr rfl)
  exact ⟨⟨by decide, by decide⟩, Or.inr rfl,
    Prod.ext (h.2.2 (by decide)) h.1⟩

/-- C22: with both address types reserved, ndFlow::GetLowerMap sets (lower_map,
other_type) to (local, local) for every ip_version other than 6 and changes
neither output for ip_version 6, so a fresh IPv6 flow keeps (unknown,
unknown). -/
theorem GetLowerMap_reserved (f : ndFlow) (lm : LowerMap) (ot : OtherType) :
    (f.ip_version ≠ 6 →
      f.GetLowerMap atRESERVED atRESERVED lm ot = (LOWER_LOCAL, OTHER_LOCAL)) ∧
    (f.ip_version = 6 →
      f.GetLowerMap atRESERVED atRESERVED lm ot = (lm, ot) ∧
      f.GetLowerMap atRESERVED atRESERVED LOWER_UNKNOWN OTHER_UNKNOWN
        = (LOWER_UNKNOWN, OTHER_UNKNOWN)) := by
  constructor
  · intro h
    simp [ndFlow.GetLowerMap, h]
  · intro h
    simp [ndFlow.GetLowerMap, h]

theorem GetLowerMap_reserved_witness :
    ((exDhcpFlow 1).ip_version ≠ 6 ∧
      (exDhcpFlow 1).GetLowerMap atRESERVED atRESERVED LOWER_UNKNOWN OTHER_UNKNOWN
        = (LOWER_LOCAL, OTHER_LOCAL)) ∧
    (exFlowV6.ip_version = 6 ∧
      exFlowV6.GetLowerMap atRESERVED atRESERVED LOWER_UNKNOWN OTHER_UNKNOWN
        = (LOWER_UNKNOWN, OTHER_UNKNOWN)) :=
  ⟨⟨by decide,
      (GetLowerMap_reserved (exDhcpFlow 1) LOWER_UNKNOWN OTHER_UNKNOWN).1 (by decide)⟩,
    ⟨rfl, ((GetLowerMap_reserved exFlowV6 LOWER_UNKNOWN OTHER_UNKNOWN).2 rfl).1⟩⟩

/-- C28: for every flow whose ip_version is not 6 and every pair of address
types among local, local-net, reserved, multicast, broadcast and other,
ndFlow::GetLowerMap assigns a lower_map other than unknown and an other_type
other than unknown, whatever the outputs held before; the pair it assigns
depends only on the two types: any flow with ip_version other than 6 and any
previous outputs give the same pair, and so does a second call on the result
of the first. -/
theorem GetLowerMap_total_v4 (f : ndFlow) (lt ut : ndAddrType) (lm : LowerMap)
    (ot : OtherType) (hv : f.ip_version ≠ 6) (hlt : lt ∈ classifiedTypes)
    (hut : ut ∈ classifiedTypes) :
    (f.GetLowerMap lt ut lm ot).1 ≠ LOWER_UNKNOWN ∧
    (f.GetLowerMap lt ut lm ot).2 ≠ OTHER_UNKNOWN ∧
    (∀ (g : ndFlow) (lm1 : LowerMap) (ot1 : OtherType), g.ip_version ≠ 6 →
      g.GetLowerMap lt ut lm1 ot1 = f.GetLowerMap lt ut lm ot) ∧
    f.GetLowerMap lt ut (f.GetLowerMap lt ut lm ot).1 (f.GetLowerMap lt ut lm ot).2
      = f.GetLowerMap lt ut lm ot := by
  cases lt <;> cases ut <;>
    simp_all [ndFlow.GetLowerMap, classifiedTypes]

theorem GetLowerMap_total_v4_witness :
    (exDhcpFlow 1).ip_version ≠ 6 ∧ atRESERVED ∈ classifiedTypes ∧
    (exDhcpFlow 1).GetLowerMap atRESERVED atRESERVED LOWER_UNKNOWN OTHER_UNKNOWN
      ≠ (LOWER_UNKNOWN, OTHER_UNKNOWN) := by
  have h := GetLowerMap_total_v4 (exDhcpFlow 1) atRESERVED atRESERVED LOWER_UNKNOWN
    OTHER_UNKNOWN (by decide) (by decide) (by decide)
  refine ⟨by decide, by decide, ?_⟩
  intro heq
  exact h.1 (congrArg Prod.fst heq)

/-! ## Theorems: structure of the flow hash cache -/

theorem purge_warnings_fst (n : Nat) (c : ndFlowHashCache) :
    (c.purge_warnings n).map Prod.fst = c.purge n := by
  induction n generalizing c with
  | zero => rfl
  | succ n ih =>
    cases hj : c.index.getLast? with
    | none => simp [ndFlowHashCache.purge_warnings, ndFlowHashCache.purge, hj]
    | some j =>
      cases hf : map_find c.lookup j.first with
      | none =>
        simp only [ndFlowHashCache.purge_warnings, ndFlowHashCache.purge, hj, hf,
          Option.map_map]
        rw [← ih]
        rfl
      | some i =>
        simp only [ndFlowHashCache.purge_warnings, ndFlowHashCache.purge, hj, hf]
        exact ih _

theorem purge_warnings_zero (n : Nat) (c : ndFlowHashCache) (hwf : c.WF)
    (hn : n ≤ c.index.length) :
    ∃ c1, c.purge_warnings n = some (c1, 0) := by
  induction n generalizing c with
  | zero => exact ⟨c, rfl⟩
  | succ n ih =>
    cases hj : c.index.getLast? with
    | none =>
      rw [List.getLast?_eq_none_iff] at hj
      rw [hj] at hn
      simp at hn
    | some j =>
      have hfind := WF_find_node hwf (List.mem_of_getLast?_eq_some hj)
      have hlen : n ≤ (c.index.dropLast).length := by
        rw [List.length_dropLast]
        omega
      obtain ⟨c1, h1⟩ := ih _ (purge_step_WF hwf hj) hlen
      exact ⟨c1, by simp only [ndFlowHashCache.purge_warnings, hj, hfind]; exact h1⟩

theorem Push_returns (d : Nat) (c : ndFlowHashCache) (k v : Bytes) (hd : 1 ≤ d)
    (hwf : c.WF) : ∃ c1, c.Push d k v = some c1 := by
  cases h : map_find c.lookup k with
  | some i => exact ⟨c, by simp [ndFlowHashCache.Push, h]⟩
  | none =>
    obtain ⟨c1, _, _, _, _, _, h6⟩ := Push_absent_spec d c k v hwf hd h
    exact ⟨_, h6⟩

theorem Pop_returns (c : ndFlowHashCache) (k out : Bytes) (hwf : c.WF) :
    ∃ r, c.Pop k out = some r := by
  cases h : map_find c.lookup k with
  | none => exact ⟨(false, out, c), by simp [ndFlowHashCache.Pop, h]⟩
  | some i =>
    obtain ⟨_, _, n, c1, _, _, _, h4, _⟩ := Pop_present_spec c k out i hwf h
    exact ⟨_, h4⟩

theorem runOps_returns (d : Nat) (hd : 1 ≤ d) (ops : List FhcOp)
    (c : ndFlowHashCache) (hwf : c.WF) :
    ∃ c1, runOps d ops c = some c1 := by
  induction ops generalizing c with
  | nil => exact ⟨c, rfl⟩
  | cons op ops ih =>
    cases op with
    | push k v =>
      obtain ⟨c1, h1⟩ := Push_returns d c k v hd hwf
      obtain ⟨c2, h2⟩ := ih c1 (Push_WF d c c1 k v hd hwf h1).1
      exact ⟨c2, by simp only [runOps, FhcOp.apply, h1]; exact h2⟩
    | pop k =>
      obtain ⟨r, h1⟩ := Pop_returns c k [] hwf
      obtain ⟨c2, h2⟩ := ih r.2.2 (Pop_inv c r.2.2 k [] r.2.1 r.1 hwf h1).1
      exact ⟨c2, by simp only [runOps, FhcOp.apply, h1, Option.map_some']; exact h2⟩

theorem list_deref_of_mem (l : nd_fhc_list) (n : nd_fhc_node) (hn : n ∈ l)
    (hnd : (l.map (fun x => x.it)).Nodup) : list_deref l n.it = some n := by
  induction l with
  | nil => exact absurd hn (List.not_mem_nil n)
  | cons x rest ih =>
    simp only [List.map_cons, List.nodup_cons] at hnd
    rcases List.mem_cons.mp hn with h | h
    · subst h
      simp [list_deref]
    · have hne : x.it ≠ n.it := by
        intro heq
        apply hnd.1
        rw [heq]
        exact List.mem_map.mpr ⟨n, h, rfl⟩
      have := ih h hnd.2
      simp only [list_deref] at this ⊢
      rw [List.find?_cons_of_neg _ (by simpa using hne)]
      exact this

/-- C26: for every purge divisor of at least 1, every capacity and every
sequence of Push and Pop operations from the empty cache, the sequence returns
and in the cache it leaves the recency list holds no key twice, the lookup
map holds exactly the keys of the list, each once (so both have the same
size), and every entry of the map refers to a node of the list that carries
the key of the entry. As a consequence every further Push returns, the
eviction loop that a Push runs on this cache never takes back() of an empty
list, and it never takes the branch that logs that the index was not found in
the map. -/
theorem fhc_structural_invariant (d cap : Nat) (hd : 1 ≤ d) (ops : List FhcOp) :
    ∃ c, runOps d ops (ndFlowHashCache.new cap) = some c ∧
      (c.index.map (fun n => n.first)).Nodup ∧
      (c.lookup.map Prod.fst).Perm (c.index.map (fun n => n.first)) ∧
      c.lookup.length = c.index.length ∧
      (∀ k i, map_find c.lookup k = some i →
        ∃ n ∈ c.index, list_deref c.index i = some n ∧ n.first = k) ∧
      (∀ k v, ∃ c1, c.Push d k v = some c1) ∧
      (c.lookup.length = c.cache_size →
        ∃ c1, c.purge_warnings (c.cache_size / d) = some (c1, 0) ∧
          c.purge (c.cache_size / d) = some c1) := by
  obtain ⟨c, hc⟩ := runOps_returns d hd ops (ndFlowHashCache.new cap) (new_WF cap)
  have hwf : c.WF := (Reachable_inv d cap hd c ⟨ops, hc⟩).1
  refine ⟨c, hc, hwf.2.1, ?_, WF_length hwf, ?_, ?_, ?_⟩
  · have h := hwf.1.map Prod.fst
    rw [index_keys_eq] at h
    exact h
  · intro k i hki
    obtain ⟨n, hn, hk, hi⟩ := WF_find_some hwf hki
    refine ⟨n, hn, ?_, hk⟩
    rw [← hi]
    exact list_deref_of_mem c.index n hn hwf.2.2.1
  · intro k v
    exact Push_returns d c k v hd hwf
  · intro hfull
    have hlen : c.cache_size / d ≤ c.index.length := by
      rw [← WF_length hwf, hfull]
      exact Nat.div_le_self _ _
    obtain ⟨c1, h1⟩ := purge_warnings_zero (c.cache_size / d) c hwf hlen
    refine ⟨c1, h1, ?_⟩
    rw [← purge_warnings_fst, h1]
    rfl

theorem fhc_structural_invariant_witness :
    1 ≤ 1 ∧
    ∃ c, runOps 1 [FhcOp.push [1] [11], FhcOp.push [2] [12], FhcOp.pop [1],
        FhcOp.push [3] [13]] (ndFlowHashCache.new 2) = some c ∧
      (c.index.map (fun n => n.first)).Nodup ∧
      (c.lookup.map Prod.fst).Perm (c.index.map (fun n => n.first)) ∧
      c.lookup.length = c.index.length ∧
      (∀ k i, map_find c.lookup k = some i →
        ∃ n ∈ c.index, list_deref c.index i = some n ∧ n.first = k) ∧
      (∀ k v, ∃ c1, c.Push 1 k v = some c1) ∧
      (c.lookup.length = c.cache_size →
        ∃ c1, c.purge_warnings (c.cache_size / 1) = some (c1, 0) ∧
          c.purge (c.cache_size / 1) = some c1) :=
  ⟨Nat.le_refl 1, fhc_structural_invariant 1 2 (Nat.le_refl 1) _⟩

theorem Save_written (c : ndFlowHashCache) (mode : nd_fhc_save)
    (hmode : mode ≠ nd_fhc_save.ndFHC_DISABLED)
    (h20 : ∀ n ∈ c.index, n.first.length = SHA1_DIGEST_LENGTH ∧
      n.second.length = SHA1_DIGEST_LENGTH) :
    c.Save mode true = SaveResult.written (specRecords c.entries) := by
  have hs := SaveLoop_digests c.index h20
  cases mode with
  | ndFHC_DISABLED => exact absurd rfl hmode
  | ndFHC_PERSISTENT => simp [ndFlowHashCache.Save, hs, ndFlowHashCache.entries]
  | ndFHC_VOLATILE => simp [ndFlowHashCache.Save, hs, ndFlowHashCache.entries]

/-- C27: for every purge divisor of at least 1 and every cache that Push and Pop
calls produce from the empty cache of capacity cap, whose keys and values are
all 20-byte digests, with saving enabled and the file opened: Save writes the
entries from the most to the least recently used, and Load of the file into an
empty cache of the same capacity returns a cache whose recency list is the
exact reverse of the saved one. The entry that was most recently used before
saving is the last of the loaded list, and the eviction loop of Push, which
takes from the back, evicts it first: after any number n >= 1 of its
iterations the loaded cache holds the first length - n entries of the reversed
list and the map no longer has the key of that entry. -/
theorem fhc_save_load_reverses (d cap : Nat) (c : ndFlowHashCache)
    (mode : nd_fhc_save) (hd : 1 ≤ d) (hreach : c.Reachable d cap)
    (hmode : mode ≠ nd_fhc_save.ndFHC_DISABLED)
    (h20 : ∀ n ∈ c.index, n.first.length = SHA1_DIGEST_LENGTH ∧
      n.second.length = SHA1_DIGEST_LENGTH) :
    ∃ c2 : ndFlowHashCache,
      c.Save mode true = SaveResult.written (specRecords c.entries) ∧
      ndFlowHashCache.Load d mode (some (specRecords c.entries))
        (ndFlowHashCache.new cap) = some c2 ∧
      c2.cache_size = cap ∧
      c2.entries = c.entries.reverse ∧
      ∀ h t, c.index = h :: t →
        c2.entries.getLast? = some (h.first, h.second) ∧
        ∀ n, 1 ≤ n → n ≤ c2.index.length →
          ∃ c3, c2.purge n = some c3 ∧
            c3.entries = c.entries.reverse.take (c.index.length - n) ∧
            map_find c3.lookup h.first = none := by
  obtain ⟨hwf, _, _⟩ := Reachable_inv d cap hd c hreach
  obtain ⟨c2, h1, h2, h3, h4⟩ := Load_saved d cap c mode hd hreach hmode h20
  refine ⟨c2, Save_written c mode hmode h20, h1, h3, h4, ?_⟩
  intro h t hc
  have hlen : c2.index.length = c.index.length := by
    have := congrArg List.length h4
    simpa [ndFlowHashCache.entries] using this
  have hent : c.entries = (h.first, h.second) :: t.map (fun n => (n.first, n.second)) := by
    simp [ndFlowHashCache.entries, hc]
  constructor
  · rw [h4, List.getLast?_reverse, hent]
    rfl
  · intro n hn1 hn2
    obtain ⟨c3, p1, p2, p3, _, _⟩ := purge_spec n c2 h2 hn2
    have he3 : c3.entries = c.entries.reverse.take (c.index.length - n) := by
      rw [← h4, ← hlen]
      simp [ndFlowHashCache.entries, p3, List.map_take]
    refine ⟨c3, p1, he3, ?_⟩
    rw [WF_find_none p2]
    intro hmem
    have hkeys : c3.index.map (fun x => x.first) = c3.entries.map Prod.fst := by
      simp [ndFlowHashCache.entries, List.map_map, Function.comp_def]
    rw [hkeys, he3, hent, List.reverse_cons] at hmem
    have hle : c.index.length - n ≤ (t.map (fun x => (x.first, x.second))).reverse.length := by
      rw [hc]
      simp only [List.length_cons, List.length_reverse, List.length_map]
      omega
    rw [List.take_append_of_le_length hle] at hmem
    obtain ⟨e, he, hek⟩ := List.mem_map.mp hmem
    have he1 := List.mem_reverse.mp (List.mem_of_mem_take he)
    obtain ⟨x, hx, hxe⟩ := List.mem_map.mp he1
    have hnd := hwf.2.1
    rw [hc] at hnd
    simp only [List.map_cons, List.nodup_cons] at hnd
    apply hnd.1
    rw [← hek, ← hxe]
    exact List.mem_map.mpr ⟨x, hx, rfl⟩

theorem fhc_save_load_reverses_witness :
    1 ≤ 2 ∧ exSavedPair.Reachable 2 2 ∧
    exSavedPair.entries = [(exDigest 3, exDigest 4), (exDigest 1, exDigest 2)] ∧
    ∃ c2 : ndFlowHashCache,
      ndFlowHashCache.Load 2 nd_fhc_save.ndFHC_VOLATILE
        (some (specRecords exSavedPair.entries)) (ndFlowHashCache.new 2) = some c2 ∧
      c2.entries = [(exDigest 1, exDigest 2), (exDigest 3, exDigest 4)] := by
  have hr : exSavedPair.Reachable 2 2 :=
    ⟨[FhcOp.push (exDigest 1) (exDigest 2), FhcOp.push (exDigest 3) (exDigest 4)], rfl⟩
  obtain ⟨c2, _, h2, _, h4, _⟩ := fhc_save_load_reverses 2 2 exSavedPair
    nd_fhc_save.ndFHC_VOLATILE (by decide) hr (by decide) (by decide)
  exact ⟨by decide, hr, rfl, c2, h2, by rw [h4]; rfl⟩

/-! ## Theorems: categories -/

/-- C23: ndCategories::IsMember(type, cat_id, id) returns false for every
argument, also after a match: with the application category 1 holding the
member 5 under the tag adult, the overload taking the tag answers true and the
overload taking the id 1 answers false. -/
theorem IsMember_never_true :
    (∀ (c : ndCategories) (type : ndCategoriesType) (cat_id : nd_cat_id_t) (id : Nat),
      c.IsMember type cat_id id = false) ∧
    (∃ ci mi, exCategories.categories.lookup ndCategoriesType.TYPE_APP = some ci ∧
      ci.index.lookup 1 = some mi ∧ 5 ∈ mi ∧
      ci.tag.lookup [97, 100, 117, 108, 116] = some 1) ∧
    exCategories.IsMember_tag ndCategoriesType.TYPE_APP [97, 100, 117, 108, 116] 5
      = true ∧
    exCategories.IsMember ndCategoriesType.TYPE_APP 1 5 = false := by
  refine ⟨?_, ⟨_, _, rfl, rfl, by decide, rfl⟩, by decide, by decide⟩
  intro c type cat_id id
  unfold ndCategories.IsMember
  split
  · rfl
  · split
    · rfl
    · split <;> rfl

theorem searchDomains_none (ds : List (nd_cat_id_t × List Bytes)) (s : Bytes) :
    ndCategories.searchDomains ds s = none ↔ ¬ inSomeCategory ds s := by
  induction ds with
  | nil => simp [ndCategories.searchDomains, inSomeCategory]
  | cons it rest ih =>
    by_cases h : s ∈ it.2
    · simp only [ndCategories.searchDomains, h, if_true]
      constructor
      · intro hc
        exact absurd hc (by simp)
      · intro hc
        exact absurd ⟨it, List.mem_cons_self _ _, h⟩ hc
    · simp only [ndCategories.searchDomains, h, if_false, ih]
      constructor
      · rintro hc ⟨x, hx, hs⟩
        rcases List.mem_cons.mp hx with hx1 | hx1
        · subst hx1
          exact h hs
        · exact hc ⟨x, hx1, hs⟩
      · rintro hc ⟨x, hx, hs⟩
        exact hc ⟨x, List.mem_cons_of_mem _ hx, hs⟩

theorem searchDomains_some (ds : List (nd_cat_id_t × List Bytes)) (s : Bytes)
    (id : nd_cat_id_t) (h : ndCategories.searchDomains ds s = some id) :
    ∃ it ∈ ds, it.1 = id ∧ s ∈ it.2 := by
  induction ds with
  | nil => simp [ndCategories.searchDomains] at h
  | cons it rest ih =>
    by_cases hs : s ∈ it.2
    · simp only [ndCategories.searchDomains, hs, if_true, Option.some.injEq] at h
      exact ⟨it, List.mem_cons_self _ _, h, hs⟩
    · simp only [ndCategories.searchDomains, hs, if_false] at h
      obtain ⟨x, hx, h1, h2⟩ := ih h
      exact ⟨x, List.mem_cons_of_mem _ hx, h1, h2⟩

theorem afterDots_of_none (s : Bytes) (h : string_find_first_of s 46 = none) :
    afterDots s = [] := by
  induction s with
  | nil => rfl
  | cons b rest ih =>
    by_cases hb : b = 46
    · simp [string_find_first_of, hb] at h
    · simp only [string_find_first_of, hb, if_false, Option.map_eq_none'] at h
      simp [afterDots, hb, ih h]

theorem afterDots_of_some (s : Bytes) (p : Nat)
    (h : string_find_first_of s 46 = some p) :
    afterDots s = s.drop (p + 1) :: afterDots (s.drop (p + 1)) ∧
    (s.drop (p + 1)).length < s.length := by
  induction s generalizing p with
  | nil => simp [string_find_first_of] at h
  | cons b rest ih =>
    by_cases hb : b = 46
    · simp only [string_find_first_of, hb, if_true, Option.some.injEq] at h
      subst h
      simp [afterDots, hb]
    · simp only [string_find_first_of, hb, if_false, Option.map_eq_some'] at h
      obtain ⟨q, hq, hp⟩ := h
      subst hp
      obtain ⟨h1, h2⟩ := ih q hq
      refine ⟨?_, ?_⟩
      · simp only [afterDots, hb, if_false, List.drop_succ_cons]
        exact h1
      · simp only [List.drop_succ_cons, List.length_cons]
        omega

theorem LookupDotDirectory_loop_spec (c : ndCategories) (fuel : Nat) (search : Bytes)
    (hfuel : search.length < fuel) :
    c.LookupDotDirectory_loop fuel search = some (specLookupDotDirectory c search) := by
  induction fuel generalizing search with
  | zero => omega
  | succ fuel ih =>
    unfold specLookupDotDirectory searchedSuffixes
    cases hs : ndCategories.searchDomains c.domains search with
    | some id =>
      simp [ndCategories.LookupDotDirectory_loop, hs, List.findSome?_cons]
    | none =>
      cases hp : string_find_first_of search 46 with
      | none =>
        simp [ndCategories.LookupDotDirectory_loop, hs, hp, List.findSome?_cons,
          afterDots_of_none search hp]
      | some p =>
        obtain ⟨h1, h2⟩ := afterDots_of_some search p hp
        by_cases he : search.drop (p + 1) = []
        · simp [ndCategories.LookupDotDirectory_loop, hs, hp, List.findSome?_cons,
            h1, he, afterDots]
        · have hlen : (search.drop (p + 1)).length ≠ 0 := by
            intro h0
            exact he (List.length_eq_zero.mp h0)
          have hih := ih (search.drop (p + 1)) (by omega)
          simp only [ndCategories.LookupDotDirectory_loop, hs, hp, hlen, ne_eq,
            not_false_eq_true, if_true, hih]
          rw [h1]
          simp [specLookupDotDirectory, searchedSuffixes, List.findSome?_cons, hs, he]

theorem afterDots_no_empty (s : Bytes) (h : s.getLast? ≠ some 46) :
    [] ∉ afterDots s := by
  induction s with
  | nil => simp [afterDots]
  | cons b rest ih =>
    cases rest with
    | nil =>
      have hb : b ≠ 46 := by
        intro hb
        apply h
        simp [hb]
      simp [afterDots, hb]
    | cons b2 rest2 =>
      have h2 : (b2 :: rest2).getLast? ≠ some 46 := by
        intro h3
        apply h
        rw [List.getLast?_cons_cons]
        exact h3
      have := ih h2
      by_cases hb : b = 46
      · simp only [afterDots, hb, if_true, List.mem_cons, not_or] at this ⊢
        refine ⟨by simp, ?_⟩
        simpa [afterDots] using this
      · simpa [afterDots, hb] using this

theorem findSome?_none_of_forall {α β : Type} (f : α → Option β) (l : List α)
    (h : ∀ x ∈ l, f x = none) : l.findSome? f = none := by
  induction l with
  | nil => rfl
  | cons x rest ih =>
    rw [List.findSome?_cons, h x (List.mem_cons_self _ _)]
    exact ih (fun y hy => h y (List.mem_cons_of_mem _ hy))

theorem findSome?_append_of_none {α β : Type} (f : α → Option β) (pre post : List α)
    (h : ∀ x ∈ pre, f x = none) : (pre ++ post).findSome? f = post.findSome? f := by
  induction pre with
  | nil => rfl
  | cons x rest ih =>
    rw [List.cons_append, List.findSome?_cons, h x (List.mem_cons_self _ _)]
    exact ih (fun y hy => h y (List.mem_cons_of_mem _ hy))

theorem findSome?_some_mem {α β : Type} (f : α → Option β) (l : List α) (b : β)
    (h : l.findSome? f = some b) : ∃ x ∈ l, f x = some b := by
  induction l with
  | nil => simp at h
  | cons x rest ih =>
    rw [List.findSome?_cons] at h
    cases hx : f x with
    | some y =>
      rw [hx] at h
      exact ⟨x, List.mem_cons_self _ _, by rw [hx]; exact h⟩
    | none =>
      rw [hx] at h
      obtain ⟨z, hz, hfz⟩ := ih h
      exact ⟨z, List.mem_cons_of_mem _ hz, hfz⟩

/-- C24 as stated fails. For the domain a. the suffixes are a. and the empty
string; with the empty string in the domain set of category 1 the lookup
returns ND_CAT_UNKNOWN, because the loop ends when search becomes empty. And a
domain found in the category with the id 0 gives 0, which is ND_CAT_UNKNOWN,
although a suffix is in a set. -/
theorem LookupDotDirectory_suffixes_counterexample :
    ([] ∈ dotSuffixes [97, 46] ∧
      inSomeCategory exCategoriesEmptyDomain.domains [] ∧
      exCategoriesEmptyDomain.LookupDotDirectory [97, 46] = some ND_CAT_UNKNOWN) ∧
    ([97] ∈ dotSuffixes [97] ∧
      inSomeCategory exCategoriesZero.domains [97] ∧
      exCategoriesZero.LookupDotDirectory [97] = some ND_CAT_UNKNOWN) := by
  refine ⟨⟨by decide, by decide, by decide⟩, ⟨by decide, by decide, by decide⟩⟩

/-- C24 as amended: for every domain string and every domain index,
ndCategories::LookupDotDirectory(domain) returns. It searches the domain itself
and then each non-empty suffix obtained by repeatedly dropping the text up to
and including the first '.', from longest to shortest (all the suffixes when
the domain does not end in '.'), and returns the id of a category whose domain
set contains the first searched suffix that is in any category's set; it
returns ND_CAT_UNKNOWN when none of the searched suffixes is in any set, and,
when no category has the id ND_CAT_UNKNOWN, only then. -/
theorem LookupDotDirectory_suffixes (c : ndCategories) (domain : Bytes) :
    c.LookupDotDirectory domain = some (specLookupDotDirectory c domain) ∧
    searchedSuffixes domain
      = domain :: (dotSuffixes domain).tail.filter (fun s => decide (s ≠ [])) ∧
    (domain.getLast? ≠ some 46 → searchedSuffixes domain = dotSuffixes domain) ∧
    (∀ pre s post, searchedSuffixes domain = pre ++ s :: post →
      (∀ t ∈ pre, ¬ inSomeCategory c.domains t) → inSomeCategory c.domains s →
      ∃ it ∈ c.domains, it.1 = specLookupDotDirectory c domain ∧ s ∈ it.2) ∧
    ((∀ s ∈ searchedSuffixes domain, ¬ inSomeCategory c.domains s) →
      specLookupDotDirectory c domain = ND_CAT_UNKNOWN) ∧
    ((∀ it ∈ c.domains, it.1 ≠ ND_CAT_UNKNOWN) →
      (specLookupDotDirectory c domain = ND_CAT_UNKNOWN ↔
        ∀ s ∈ searchedSuffixes domain, ¬ inSomeCategory c.domains s)) := by
  have hnone : (∀ s ∈ searchedSuffixes domain, ¬ inSomeCategory c.domains s) →
      specLookupDotDirectory c domain = ND_CAT_UNKNOWN := by
    intro h
    unfold specLookupDotDirectory
    rw [findSome?_none_of_forall _ _
      (fun s hs => (searchDomains_none c.domains s).mpr (h s hs))]
    rfl
  refine ⟨?_, rfl, ?_, ?_, hnone, ?_⟩
  · exact LookupDotDirectory_loop_spec c _ domain (Nat.lt_succ_self _)
  · intro hlast
    unfold searchedSuffixes dotSuffixes
    congr 1
    apply List.filter_eq_self.mpr
    intro s hs
    have hne : s ≠ [] := by
      intro he
      subst he
      exact afterDots_no_empty domain hlast hs
    simpa using hne
  · intro pre s post hsplit hpre hin
    unfold specLookupDotDirectory
    rw [hsplit, findSome?_append_of_none _ pre (s :: post)
      (fun t ht => (searchDomains_none c.domains t).mpr (hpre t ht)),
      List.findSome?_cons]
    cases hs : ndCategories.searchDomains c.domains s with
    | none => exact absurd hin ((searchDomains_none c.domains s).mp hs)
    | some id =>
      obtain ⟨it, hit, h1, h2⟩ := searchDomains_some c.domains s id hs
      exact ⟨it, hit, by simpa using h1, h2⟩
  · intro hids
    constructor
    · intro hres s hs hin
      unfold specLookupDotDirectory at hres
      cases hf : (searchedSuffixes domain).findSome?
          (ndCategories.searchDomains c.domains) with
      | none =>
        obtain ⟨it, hit, hmem⟩ := hin
        have hsome : ndCategories.searchDomains c.domains s ≠ none := by
          intro hn
          exact (searchDomains_none c.domains s).mp hn ⟨it, hit, hmem⟩
        have hall := List.findSome?_eq_none_iff.mp hf s hs
        exact hsome hall
      | some id =>
        rw [hf] at hres
        obtain ⟨x, _, hx⟩ := findSome?_some_mem _ _ _ hf
        obtain ⟨it, hit, h1, _⟩ := searchDomains_some c.domains x id hx
        apply hids it hit
        rw [h1]
        simpa using hres
    · exact hnone

theorem nd_set_hostname_strict_spec (L : CType) (n : Nat) (src dst : Bytes)
    (hal : ∀ ch, L.isalnum ch = isalnum ch) (hlo : ∀ ch, L.tolower ch = tolower ch)
    (hn : n ≤ src.length) :
    nd_set_hostname_strict L n src dst
      = some (dst ++ ((src.take n).takeWhile hostnameChar).map tolower) := by
  induction n generalizing src dst with
  | zero => simp [nd_set_hostname_strict]
  | succ n ih =>
    cases src with
    | nil => simp at hn
    | cons ch rest =>
      simp only [List.length_cons, Nat.add_le_add_iff_right] at hn
      by_cases hc : hostnameChar ch = true
      · have hc1 : L.isalnum ch = true ∨ ch = 45 ∨ ch = 95 ∨ ch = 46 := by
          rw [hal]
          simp only [hostnameChar, isalnum, decide_eq_true_eq] at hc ⊢
          omega
        simp only [nd_set_hostname_strict, hc1, if_true, ih rest _ hn, hlo,
          List.take_succ_cons, List.takeWhile_cons, hc, List.map_cons,
          List.append_assoc, List.singleton_append]
      · have hc1 : ¬ (L.isalnum ch = true ∨ ch = 45 ∨ ch = 95 ∨ ch = 46) := by
          rw [hal]
          simp only [hostnameChar, isalnum, decide_eq_true_eq] at hc ⊢
          omega
        simp [nd_set_hostname_strict, hc1, List.take_succ_cons,
          List.takeWhile_cons, hc]

theorem nd_rtrim_dot (L : CType) (s : Bytes) :
    nd_rtrim L s 46 = s.rdropWhile (fun ch => decide (ch = 46)) := by
  unfold nd_rtrim
  congr 1
  funext ch
  simp [nd_rtrim_stop]

theorem hostnameLower_tolower (ch : Nat) (h : hostnameChar ch = true) :
    hostnameLower (tolower ch) = true := by
  simp only [hostnameChar, hostnameLower, tolower, decide_eq_true_eq] at h ⊢
  split <;> omega

theorem hostnameLower_fixed (ch : Nat) (h : hostnameLower ch = true) :
    hostnameChar ch = true ∧ tolower ch = ch := by
  simp only [hostnameChar, hostnameLower, tolower, decide_eq_true_eq] at h ⊢
  constructor
  · omega
  · split <;> omega

theorem specHostname_chars (src : Bytes) (length : Nat) :
    ∀ ch ∈ specHostname src length, hostnameLower ch = true := by
  intro ch hch
  have hpre := (List.rdropWhile_prefix (fun ch => decide (ch = 46))
    (((src.take length).takeWhile hostnameChar).map tolower)).subset hch
  obtain ⟨x, hx, hxe⟩ := List.mem_map.mp hpre
  subst hxe
  exact hostnameLower_tolower x (List.mem_takeWhile_imp hx)

theorem takeWhile_eq_self_of_forall {α : Type} (p : α → Bool) (l : List α)
    (h : ∀ x ∈ l, p x = true) : l.takeWhile p = l := by
  induction l with
  | nil => rfl
  | cons x rest ih =>
    rw [List.takeWhile_cons, h x (List.mem_cons_self _ _)]
    simp only [if_true]
    rw [ih (fun y hy => h y (List.mem_cons_of_mem _ hy))]

theorem map_eq_self_of_forall {α : Type} (f : α → α) (l : List α)
    (h : ∀ x ∈ l, f x = x) : l.map f = l := by
  induction l with
  | nil => rfl
  | cons x rest ih =>
    rw [List.map_cons, h x (List.mem_cons_self _ _),
      ih (fun y hy => h y (List.mem_cons_of_mem _ hy))]

theorem specHostname_fixed (r : Bytes) (hr : ∀ ch ∈ r, hostnameLower ch = true)
    (hlast : r.rdropWhile (fun ch => decide (ch = 46)) = r) :
    specHostname r r.length = r := by
  unfold specHostname
  rw [List.take_length,
    takeWhile_eq_self_of_forall _ _ (fun x hx => (hostnameLower_fixed x (hr x hx)).1),
    map_eq_self_of_forall _ _ (fun x hx => (hostnameLower_fixed x (hr x hx)).2)]
  exact hlast

/-- In a locale in which isalnum and tolower are those of the "C" locale,
for every buffer src and every length that does not exceed the size of the
buffer, nd_set_hostname in strict mode returns and produces the lower-cased
longest prefix of the first length bytes that consists only of ASCII letters,
digits, '-', '_' and '.', with all trailing '.' removed. The result contains
only characters of [a-z0-9._-], does not end with '.', is no longer than
length, and sanitizing it again with its own length returns it unchanged. -/
theorem nd_set_hostname_strict_sanitizes (L : CType) (src : Bytes) (length : Nat)
    (hal : ∀ ch, L.isalnum ch = isalnum ch) (hlo : ∀ ch, L.tolower ch = tolower ch)
    (hlen : length ≤ src.length) :
    nd_set_hostname L src length true = some (specHostname src length) ∧
    (∀ ch ∈ specHostname src length, hostnameLower ch = true) ∧
    (specHostname src length).getLast? ≠ some 46 ∧
    (specHostname src length).length ≤ length ∧
    nd_set_hostname L (specHostname src length) (specHostname src length).length true
      = some (specHostname src length) := by
  have hrun : ∀ (s : Bytes) (n : Nat), n ≤ s.length →
      nd_set_hostname L s n true = some (specHostname s n) := by
    intro s n hn
    simp only [nd_set_hostname, if_true, nd_set_hostname_strict_spec L n s [] hal hlo hn,
      Option.map_some', List.nil_append, nd_rtrim_dot]
    rfl
  have hchars := specHostname_chars src length
  have hidem : (specHostname src length).rdropWhile (fun ch => decide (ch = 46))
      = specHostname src length := by
    unfold specHostname
    exact List.rdropWhile_idempotent _ _
  refine ⟨hrun src length hlen, hchars, ?_, ?_, ?_⟩
  · intro hl
    have hne : specHostname src length ≠ [] := by
      intro he
      rw [he] at hl
      simp at hl
    have hnot := List.rdropWhile_eq_self_iff.mp hidem hne
    rw [List.getLast?_eq_getLast _ hne, Option.some.injEq] at hl
    apply hnot
    simp [hl]
  · unfold specHostname
    calc ((((src.take length).takeWhile hostnameChar).map tolower).rdropWhile
            (fun ch => decide (ch = 46))).length
        ≤ (((src.take length).takeWhile hostnameChar).map tolower).length :=
          (List.rdropWhile_prefix _ _).length_le
      _ = ((src.take length).takeWhile hostnameChar).length := List.length_map _ _
      _ ≤ (src.take length).length := (List.takeWhile_prefix _).length_le
      _ ≤ length := by rw [List.length_take]; exact Nat.min_le_left _ _
  · rw [hrun _ _ (Nat.le_refl _), specHostname_fixed _ hchars hidem]

theorem nd_set_hostname_strict_sanitizes_witness :
    (∀ ch, cLocale.isalnum ch = isalnum ch) ∧ (∀ ch, cLocale.tolower ch = tolower ch) ∧
    17 ≤ exHostnameSrc.length ∧
    nd_set_hostname cLocale exHostnameSrc 17 true
      = some [119, 119, 119, 46, 101, 120, 97, 109, 112, 108, 101, 46, 99, 111, 109] := by
  have h := (nd_set_hostname_strict_sanitizes cLocale exHostnameSrc 17 (fun _ => rfl)
    (fun _ => rfl) (by decide)).1
  refine ⟨fun _ => rfl, fun _ => rfl, by decide, ?_⟩
  rw [h]
  decide

theorem string_find_split (s str : Bytes) (p : Nat) (h : string_find s str = some p) :
    ∃ pre post, s = pre ++ str ++ post ∧ pre.length = p := by
  induction s generalizing p with
  | nil =>
    by_cases hs : str = []
    · simp only [string_find, hs, if_true, Option.some.injEq] at h
      exact ⟨[], [], by simp [hs], h⟩
    · simp [string_find, hs] at h
  | cons b rest ih =>
    by_cases hp : str.isPrefixOf (b :: rest) = true
    · simp only [string_find, hp, if_true, Option.some.injEq] at h
      obtain ⟨t, ht⟩ := List.isPrefixOf_iff_prefix.mp hp
      exact ⟨[], t, by simp [ht], h⟩
    · simp only [string_find, hp, Bool.false_eq_true, if_false,
        Option.map_eq_some'] at h
      obtain ⟨q, hq, hqp⟩ := h
      obtain ⟨pre, post, h1, h2⟩ := ih q hq
      refine ⟨b :: pre, post, ?_, ?_⟩
      · rw [h1]
        simp
      · simp [h2, hqp]

theorem string_find_of_infix (pre str post : Bytes) :
    string_find (pre ++ str ++ post) str ≠ none := by
  induction pre with
  | nil =>
    cases hs : ([] ++ str ++ post : Bytes) with
    | nil =>
      have hstr : str = [] := by
        simp only [List.nil_append, List.append_eq_nil] at hs
        exact hs.1
      simp [string_find, hstr]
    | cons b rest =>
      have hp : str.isPrefixOf (b :: rest) = true := by
        rw [← hs]
        exact List.isPrefixOf_iff_prefix.mpr ⟨post, by simp⟩
      simp [string_find, hp]
  | cons x pre ih =>
    simp only [List.cons_append, string_find]
    split
    · simp
    · simpa using ih

theorem nd_expand_variables_body_eq (pre first second post : Bytes) :
    nd_expand_variables_body (pre ++ first ++ post) first second pre.length
      = pre ++ second ++ post := by
  unfold nd_expand_variables_body string_insert string_replace string_erase
  have htake1 : (pre ++ first ++ post).take pre.length = pre := by
    rw [List.append_assoc, List.take_left']
    rfl
  have hdrop1 : (pre ++ first ++ post).drop (pre.length + first.length) = post := by
    rw [← List.length_append, List.drop_left']
    rfl
  have htake2 : (pre ++ first ++ post).take (pre.length + first.length)
      = pre ++ first := by
    rw [← List.length_append, List.take_left']
    rfl
  rcases Nat.lt_trichotomy second.length first.length with hlt | heq | hgt
  · have h1 : ¬ second.length > first.length := by omega
    simp only [h1, if_false, hlt, if_true, htake1]
    have ha : (pre ++ second ++ (pre ++ first ++ post).drop (pre.length + second.length)).take
        (pre.length + second.length) = pre ++ second := by
      rw [← List.length_append, List.take_left']
      rfl
    have hb : (pre ++ second ++ (pre ++ first ++ post).drop (pre.length + second.length)).drop
        (pre.length + second.length + (first.length - second.length)) = post := by
      rw [← List.length_append, ← List.drop_drop, List.drop_left' rfl, List.drop_drop]
      have hsum : pre.length + second.length + (first.length - second.length)
          = pre.length + first.length := by omega
      rw [List.length_append, hsum]
      exact hdrop1
    rw [ha, hb]
  · have h1 : ¬ second.length > first.length := by omega
    have h2 : ¬ second.length < first.length := by omega
    simp only [h1, h2, if_false, htake1]
    rw [heq, hdrop1]
  · have h2 : ¬ second.length < first.length := by omega
    simp only [hgt, h2, if_true, if_false, htake2, hdrop1]
    have hlen : pre.length + second.length
        = (pre ++ first ++ List.replicate (second.length - first.length) 32).length := by
      simp only [List.length_append, List.length_replicate]
      omega
    have ha : (pre ++ first ++ List.replicate (second.length - first.length) 32 ++ post).take
        pre.length = pre := by
      rw [List.append_assoc, List.append_assoc, List.take_left']
      rfl
    rw [ha, hlen, List.drop_left']
    rfl

theorem nd_expand_variables_while_diverges (first second : Bytes)
    (hself : string_find second first ≠ none) (fuel : Nat) (output : Bytes)
    (hocc : string_find output first ≠ none) :
    nd_expand_variables_while first second fuel output = none := by
  induction fuel generalizing output with
  | zero => rfl
  | succ fuel ih =>
    cases hp : string_find output first with
    | none => exact absurd hp hocc
    | some p =>
      obtain ⟨pre, post, hsplit, hlen⟩ := string_find_split output first p hp
      cases hq : string_find second first with
      | none => exact absurd hq hself
      | some q =>
        obtain ⟨a, b, hs2, _⟩ := string_find_split second first q hq
        simp only [nd_expand_variables_while, hp]
        apply ih
        rw [hsplit, ← hlen, nd_expand_variables_body_eq]
        have hre : pre ++ second ++ post = (pre ++ a) ++ first ++ (b ++ post) := by
          rw [hs2]
          simp [List.append_assoc]
        rw [hre]
        exact string_find_of_infix _ _ _

/-- C30: with the variable $a whose value $ab contains its name, the while loop
of nd_expand_variables on the input $a finds the name again after every
replacement: no bound on the iterations is enough for the function to return.
And with the variables a (value x) and b (value a) the function returns on the
input b with the output a, which is the name of a variable of the map. -/
theorem nd_expand_variables_hangs :
    (∀ fuel : Nat, nd_expand_variables fuel [36, 97] exVarsSelf = none) ∧
    (∀ fuel : Nat, 2 ≤ fuel → nd_expand_variables fuel [98] exVarsChain = some [97]) ∧
    string_find [97] [97] = some 0 := by
  refine ⟨?_, ?_, by decide⟩
  · intro fuel
    have h := nd_expand_variables_while_diverges [36, 97] [36, 97, 98] (by decide)
      fuel [36, 97] (by decide)
    simp only [nd_expand_variables, exVarsSelf, nd_expand_variables_for, h]
  · intro fuel hfuel
    obtain ⟨k, rfl⟩ : ∃ k, fuel = k + 2 := ⟨fuel - 2, by omega⟩
    rfl

/-- C29: with the classification of an ISO-8859-1 locale, nd_set_hostname in
strict mode on the seven bytes of CAFÉ.fr accepts the byte 201, which isalnum
reports as a letter, and returns café.fr with the byte 233 in it: the result
has a character outside [a-z0-9._-] and is not the lower-cased longest prefix
of ASCII letters, digits, '-', '_' and '.', which is caf. With the
classification of the "C" locale the same call returns caf. -/
theorem nd_set_hostname_strict_locale :
    7 ≤ exHostnameLatin1.length ∧
    nd_set_hostname latin1Locale exHostnameLatin1 7 true
      = some [99, 97, 102, 233, 46, 102, 114] ∧
    hostnameLower 233 = false ∧
    specHostname exHostnameLatin1 7 = [99, 97, 102] ∧
    nd_set_hostname cLocale exHostnameLatin1 7 true = some [99, 97, 102] := by
  refine ⟨by decide, by decide, by decide, by decide, by decide⟩

end Netify
